import Mathlib

/-!
Verification of the FHIR-to-Postgres schema graph builder.

This file gives a shallow embedding, in Lean, of the core of the
repository (src/lib/utilities.py and src/lib/graph.py) and proves or
refutes the specification claims about it.  Python strings are modelled
as lists of characters (so len is List.length), Python dicts as
insertion-ordered association lists, raised exceptions as Except.error,
and unbounded recursion through structural fuel.
-/

set_option maxHeartbeats 1000000

namespace FhirGraph

/-! ## utilities.py -/

-- capitalize_first_letter(text): text[0].upper() + text[1:]
-- (raises IndexError on the empty string, modelled as none)
def capitalize_first_letter : List Char → Option (List Char)
  | [] => none
  | c :: cs => some (c.toUpper :: cs)

-- the underscore-insertion part of to_snake_case:
-- re.sub(r'(?<!^)(?=[A-Z])', '_', text) inserts '_' before every
-- uppercase character that is not at position 0
def snakeUndersAux : List Char → List Char
  | [] => []
  | c :: cs => if c.isUpper then '_' :: c :: snakeUndersAux cs else c :: snakeUndersAux cs

def snakeUnders : List Char → List Char
  | [] => []
  | c :: cs => c :: snakeUndersAux cs

-- to_snake_case(text): insert underscores, .lower(), .replace('.', '_')
def to_snake_case (s : List Char) : List Char :=
  ((snakeUnders s).map Char.toLower).map (fun c => if c = '.' then '_' else c)

-- Python str.split('_')
def splitUnders : List Char → List (List Char)
  | [] => [[]]
  | c :: cs =>
    if c = '_' then [] :: splitUnders cs
    else
      match splitUnders cs with
      | [] => [[c]]
      | p :: ps => (c :: p) :: ps

-- ''.join([capitalize_first_letter(word) for word in name_parts])
def capJoin : List (List Char) → Option (List Char)
  | [] => some []
  | w :: ws => do
    let cw ← capitalize_first_letter w
    let rest ← capJoin ws
    pure (cw ++ rest)

-- One iteration of the abbreviation loop body (truncate_database_name):
-- name_parts_init = name_parts[:-k]; name_parts_init[-1] = name_parts_init[-1][0];
-- name_parts = name_parts_init + name_parts[-k:]
-- Both indexing steps raise IndexError when unavailable (none).
def truncStep (parts : List (List Char)) (k : Nat) : Option (List (List Char)) :=
  if parts.length ≤ k then none
  else
    let i := parts.length - k - 1
    match parts.get? i with
    | none => none
    | some [] => none
    | some (c :: _) => some (parts.set i [c])

-- the while loop of truncate_database_name, with the abbreviation index
-- k counting 3, 4, ... from the end; fuel bounds the iterations (the
-- Python loop either exits with a short enough name or raises once k
-- exceeds the number of parts, so parts.length fuel is always enough)
def truncLoop : Nat → List (List Char) → Nat → Option (List Char)
  | 0, _, _ => none
  | fuel + 1, parts, k =>
    match truncStep parts k with
    | none => none
    | some parts' =>
      match capJoin parts' with
      | none => none
      | some joined =>
        if (to_snake_case joined).length ≤ 63 then some (to_snake_case joined)
        else truncLoop fuel parts' (k + 1)

-- truncate_database_name(full_name)
def truncate_database_name (full : List Char) : Option (List Char) :=
  if full.length ≤ 63 then some full
  else truncLoop (splitUnders full).length (splitUnders full) 3

-- key_to_database_name(key)
def key_to_database_name (key : List Char) : Option (List Char) :=
  truncate_database_name (to_snake_case key)

/-! Emitted identifiers (Node.build_table, CodeField._db_base, Edge.column_name).
    database_name properties are key_to_database_name of the key. -/

-- the table name emitted for a node (Node.database_name)
def tableName (nodeKey : List Char) : Option (List Char) :=
  key_to_database_name nodeKey

-- the column name emitted for a field (Field.database_name)
def columnName (fieldKey : List Char) : Option (List Char) :=
  key_to_database_name fieldKey

-- the named uniqueness constraint emitted in Node.build_table for a unique
-- field: f-string concatenation of the two truncated names, with no
-- re-truncation of the result
def uniqueConstraintName (nodeKey fieldKey : List Char) : Option (List Char) := do
  let t ← key_to_database_name nodeKey
  let c ← key_to_database_name fieldKey
  pure (t ++ ('_' :: c) ++ ['_', 'k', 'e', 'y'])

-- the enumerated type name emitted in CodeField._db_base: the composed
-- name is passed through key_to_database_name again
def enumTypeName (nodeKey fieldKey : List Char) : Option (List Char) := do
  let t ← key_to_database_name nodeKey
  let c ← key_to_database_name fieldKey
  key_to_database_name (t ++ ('_' :: c) ++ ['_', 'c', 'o', 'd', 'e'])

-- Python str.lower() over ASCII strings (kept kernel-reducible)
def strToLower (s : String) : String := String.mk (s.data.map Char.toLower)

/-! ## Insertion-ordered dictionaries (Python dict semantics): assignment
    to an existing key replaces the value in place, a new key is appended. -/

def dlookup {κ β : Type} [DecidableEq κ] : List (κ × β) → κ → Option β
  | [], _ => none
  | (k, v) :: rest, key => if k = key then some v else dlookup rest key

def dinsert {κ β : Type} [DecidableEq κ] : List (κ × β) → κ → β → List (κ × β)
  | [], key, v => [(key, v)]
  | (k, w) :: rest, key, v =>
    if k = key then (k, v) :: rest else (k, w) :: dinsert rest key v

def dkeys {κ β : Type} (d : List (κ × β)) : List κ := d.map Prod.fst

/-! ## graph.py data model -/

inductive Ordn
  | zero
  | one
  | many
deriving DecidableEq, Repr

inductive FieldVariant
  | primitive (unique indexed : Bool)
  | code (options : List String)
  | xhtml
  | exclusive (foreignNodeKey : String)
  | reference (foreignNodeKeys : List String)
deriving DecidableEq, Repr

structure Field where
  key : String
  ordinality : Ordn × Ordn
  originatingNodeKey : String
  variant : FieldVariant
deriving DecidableEq, Repr

def Field.is_many_to_many (f : Field) : Bool := f.ordinality.2 == Ordn.many

def Field.is_max_one (f : Field) : Bool := f.ordinality.2 == Ordn.one

def Field.is_polymorphic (f : Field) : Bool :=
  match f.variant with
  | .reference ks => decide (1 < ks.length)
  | _ => false

def Field.isRelationship (f : Field) : Bool :=
  match f.variant with
  | .exclusive _ => true
  | .reference _ => true
  | _ => false

-- copy(field) followed by copy.originating_node = self
def Field.withOrig (f : Field) (k : String) : Field := { f with originatingNodeKey := k }

-- a ParsedNode: its immutable parsed data (key, parent-annotation rows,
-- own field rows already turned into fields by Row.as_field) plus the
-- mutable _inherited_fields dictionary
structure PNode where
  key : String
  anns : List (String × List String)
  ownFields : List Field
  inherited : List (String × Field)
deriving DecidableEq, Repr

inductive GNode
  | anyNode
  | elementNode
  | parsedNode (p : PNode)
  | derivedNode (key : String) (derivedFromKey : String)
deriving DecidableEq, Repr

def GNode.key : GNode → String
  | .anyNode => "Any"
  | .elementNode => "Element"
  | .parsedNode p => p.key
  | .derivedNode k _ => k

-- ElementNode.fhir_fields
def elementFhirFields : List (String × Field) :=
  [("id", ⟨"id", (Ordn.zero, Ordn.one), "Element", FieldVariant.primitive true true⟩),
   ("extension", ⟨"extension", (Ordn.zero, Ordn.many), "Element", FieldVariant.exclusive "Extension"⟩)]

-- ParsedNode.fhir_fields: inherited fields first, own row fields folded
-- in afterwards, keyed by field key
def fhir_fields (n : PNode) : List (String × Field) :=
  n.ownFields.foldl (fun d f => dinsert d f.key f)
    (n.inherited.foldl (fun d kv => dinsert d kv.2.key kv.2) [])

-- fhir_fields_by_lower_key
def fieldsByLowerKey (entries : List (String × Field)) : List (String × Field) :=
  entries.foldl (fun d kv => dinsert d (strToLower kv.1) kv.2) []

def elementFieldsByLower : List (String × Field) := fieldsByLowerKey elementFhirFields

-- ParsedNode._is_child_element
def PNode.is_child_element (n : PNode) : Bool := n.key.toList.contains '.'

-- ParsedNode._inherited_field_keys: the parent annotations in row order,
-- with the implicit BackboneElement inheritance appended for subnodes
def inherited_field_keys (n : PNode) : List (String × List String) :=
  let d := n.anns.foldl (fun d pr => if pr.1 ≠ "" then dinsert d pr.1 pr.2 else d) []
  if n.is_child_element then dinsert d "BackboneElement" ["extension", "modifierExtension"] else d

-- ParsedNode.relationship_fields
def relationship_fields (p : PNode) : List Field :=
  ((fhir_fields p).map Prod.snd).filter Field.isRelationship

abbrev EdgeKey := String × String × String

structure Edge where
  originatingNodeKey : String
  originatingIsParsed : Bool
  originatingField : Option Field
  destinationKey : String
  self_referencing_back_reference : Bool := false
  shares_references : Bool := false
deriving DecidableEq, Repr

def Edge.fieldKey (e : Edge) : String :=
  match e.originatingField with
  | some f => f.key
  | none => ""

-- Edge.key: the identity triple
def Edge.ekey (e : Edge) : EdgeKey := (e.originatingNodeKey, e.fieldKey, e.destinationKey)

structure Graph where
  nodes : List (String × GNode)
  metaNodes : List String
  edges : List (EdgeKey × Edge)
deriving DecidableEq, Repr

-- Graph.add_meta_node (only membership in _meta_nodes is ever consulted)
def add_meta_node (g : Graph) (k : String) : Graph :=
  if k = "Resource" then g
  else if g.metaNodes.contains k then g else { g with metaNodes := g.metaNodes ++ [k] }

-- Graph.add_node: inserting an existing key raises
def add_node (g : Graph) (n : GNode) : Except String Graph :=
  if (dlookup g.nodes n.key).isSome then Except.error "Node exists in graph"
  else Except.ok { g with nodes := dinsert g.nodes n.key n }

-- Graph._add_edge: plain dict assignment keyed by the identity triple;
-- an existing edge with the same triple is silently replaced
def add_edge (g : Graph) (e : Edge) : Graph :=
  { g with edges := dinsert g.edges e.ekey e }

def updatePNode (nodes : List (String × GNode)) (k : String) (fn : PNode → PNode) :
    List (String × GNode) :=
  nodes.map (fun kv =>
    match kv with
    | (k', GNode.parsedNode p) => if k' = k then (k', GNode.parsedNode (fn p)) else kv
    | _ => kv)

/-! ## ParsedNode.add_inherited_fields (stateful, graph-threading) -/

-- the inner copy loop: for each named parent field, look it up
-- case-insensitively in the parent's resolved fields and store a copy with
-- its originating node rewritten to self
def inhCopies (selfKey selfOrig : String) (parentLower : List (String × Field)) :
    List String → Graph → Except String Graph
  | [], g => Except.ok g
  | pf :: rest, g =>
    match dlookup parentLower (strToLower pf) with
    | none => Except.error "KeyError: inherited field not found"
    | some fld =>
      inhCopies selfKey selfOrig parentLower rest
        { g with nodes := (updatePNode g.nodes selfKey
            (fun c => { c with inherited := dinsert c.inherited fld.key (fld.withOrig selfOrig) })) }

-- processing of one (parent, fields) annotation entry; rec is the
-- recursive add_inherited_fields call at the remaining fuel
def inhEntryStep (rec : Graph → String → Except String Graph) (selfKey selfOrig : String)
    (g : Graph) (ent : String × List String) : Except String Graph :=
  match dlookup g.nodes ent.1 with
  | none => Except.error "KeyError: parent not found"
  | some (GNode.parsedNode _) => do
    let g := add_meta_node g ent.1
    let g ← rec g ent.1
    match dlookup g.nodes ent.1 with
    | some (GNode.parsedNode p) =>
      inhCopies selfKey selfOrig (fieldsByLowerKey (fhir_fields p)) ent.2 g
    | _ => Except.error "parent changed kind"
  | some GNode.elementNode =>
    inhCopies selfKey selfOrig elementFieldsByLower ent.2 (add_meta_node g ent.1)
  | some _ => Except.error "Parents should only be parsed or element nodes"

-- ParsedNode.add_inherited_fields, by structural fuel (the Python
-- recursion overflows the stack on cyclic parent annotations; here the
-- fuel runs out instead).  Written with Nat.rec so that applications
-- reduce definitionally (concrete runs are checked by rfl and decide).
def add_inherited_fields (fuel : Nat) : Graph → String → Except String Graph :=
  Nat.rec (motive := fun _ => Graph → String → Except String Graph)
    (fun _ _ => Except.error "recursion limit")
    (fun _ rec g key =>
      match dlookup g.nodes key with
      | some (GNode.parsedNode c) =>
        (inherited_field_keys c).foldlM (inhEntryStep rec key c.key) g
      | _ => Except.error "add_inherited_fields on a non-parsed node")
    fuel

/-! ## A pure mirror of inheritance resolution: the ordered list of
    (dict key, field) writes that resolving a node performs on its
    _inherited_fields, computed from a fixed graph. -/

abbrev CopyList := List (String × Field)

def applyCopies (d : List (String × Field)) (cs : CopyList) : List (String × Field) :=
  cs.foldl (fun d kv => dinsert d kv.1 kv.2) d

def resolveLookups (selfOrig : String) (parentLower : List (String × Field)) :
    List String → Except String CopyList
  | [] => Except.ok []
  | pf :: rest =>
    match dlookup parentLower (strToLower pf) with
    | none => Except.error "KeyError: inherited field not found"
    | some fld => do
      let cs ← resolveLookups selfOrig parentLower rest
      pure ((fld.key, fld.withOrig selfOrig) :: cs)

def resolveEntryOne (rec : String → Except String CopyList) (g : Graph) (selfOrig : String)
    (ent : String × List String) : Except String CopyList :=
  match dlookup g.nodes ent.1 with
  | none => Except.error "KeyError: parent not found"
  | some (GNode.parsedNode p) => do
    let pcs ← rec ent.1
    resolveLookups selfOrig
      (fieldsByLowerKey (fhir_fields { p with inherited := applyCopies p.inherited pcs })) ent.2
  | some GNode.elementNode => resolveLookups selfOrig elementFieldsByLower ent.2
  | some _ => Except.error "Parents should only be parsed or element nodes"

def resolveEnts (rec : String → Except String CopyList) (g : Graph) (selfOrig : String)
    (ents : List (String × List String)) : Except String CopyList :=
  ents.foldlM (fun acc ent => do
    let cs ← resolveEntryOne rec g selfOrig ent
    pure (acc ++ cs)) []

def resolveCopies (fuel : Nat) (g : Graph) : String → Except String CopyList :=
  Nat.rec (motive := fun _ => String → Except String CopyList)
    (fun _ => Except.error "recursion limit")
    (fun _ rec key =>
      match dlookup g.nodes key with
      | some (GNode.parsedNode c) => resolveEnts rec g c.key (inherited_field_keys c)
      | _ => Except.error "resolve on a non-parsed node")
    fuel

/-! ## Edge naming (graph.py lines 234-310) -/

def Edge.is_back_reference (e : Edge) : Except String Bool :=
  match e.originatingField with
  | some f =>
    match f.variant with
    | .reference ks => Except.ok (ks.contains e.destinationKey)
    | .exclusive fk => Except.ok (e.destinationKey == fk)
    | _ => Except.error "ValueError"
  | none => Except.ok false

def Edge.base_column_name (e : Edge) : Except String String :=
  match e.originatingField with
  | none => Except.ok e.destinationKey
  | some f =>
    if e.shares_references then Except.ok (e.destinationKey ++ "." ++ f.key)
    else if e.self_referencing_back_reference then Except.ok ("back" ++ e.destinationKey)
    else if f.is_many_to_many then Except.ok e.destinationKey
    else if f.is_polymorphic then
      Except.ok (if e.originatingIsParsed then f.key else e.destinationKey)
    else if f.is_max_one then Except.ok f.key
    else Except.error "ValueError"

def Edge.column_name (e : Edge) : Except String (List Char) :=
  match e.base_column_name with
  | Except.error s => Except.error s
  | Except.ok b =>
    match key_to_database_name ((b ++ "_id").toList) with
    | none => Except.error "IndexError"
    | some n => Except.ok n

/-! ## build_graph disambiguation passes (graph.py lines 840-872) -/

def markSelfRef (es : List (EdgeKey × Edge)) (k : EdgeKey) : List (EdgeKey × Edge) :=
  es.map (fun kv =>
    if kv.1 = k then (kv.1, { kv.2 with self_referencing_back_reference := true }) else kv)

abbrev TripKey := String × List Char × String

-- find self referencing back references
def selfRefsGo : List EdgeKey → List (EdgeKey × Edge) → List (TripKey × EdgeKey) →
    Except String (List (EdgeKey × Edge))
  | [], es, _ => Except.ok es
  | k :: rest, es, trips =>
    match dlookup es k with
    | none => Except.error "missing edge"
    | some e => do
      let col ← e.column_name
      let trip : TripKey := (k.1, col, k.2.2)
      match dlookup trips trip with
      | some k0 =>
        match dlookup es k0 with
        | none => Except.error "missing edge"
        | some e0 => do
          let b ← e.is_back_reference
          let b0 ← e0.is_back_reference
          if b && !b0 then selfRefsGo rest (markSelfRef es k) trips
          else if b0 && !b then selfRefsGo rest (markSelfRef es k0) trips
          else selfRefsGo rest es (dinsert trips trip k)
      | none => selfRefsGo rest es (dinsert trips trip k)

def selfRefsPass (es : List (EdgeKey × Edge)) : Except String (List (EdgeKey × Edge)) :=
  selfRefsGo (dkeys es) es []

def markShares (es : List (EdgeKey × Edge)) (k : EdgeKey) : List (EdgeKey × Edge) :=
  es.map (fun kv =>
    if kv.1 = k then (kv.1, { kv.2 with shares_references := true }) else kv)

-- whether the shared-reference pass skips an edge:
-- (edge.originating_field is not None and not edge.originating_field.is_many_to_many)
-- or edge.self_referencing_back_reference
def sharedSkip (e : Edge) : Bool :=
  (match e.originatingField with
   | some f => !f.is_many_to_many
   | none => false) || e.self_referencing_back_reference

-- find cases where multiple backreferences occur
def sharedRefsGo : List EdgeKey → List (EdgeKey × Edge) → List ((String × String) × EdgeKey) →
    List (EdgeKey × Edge)
  | [], es, _ => es
  | k :: rest, es, pairs =>
    match dlookup es k with
    | none => sharedRefsGo rest es pairs
    | some e =>
      if sharedSkip e then sharedRefsGo rest es pairs
      else
        match dlookup pairs (k.1, k.2.2) with
        | some k0 => sharedRefsGo rest (markShares (markShares es k) k0) pairs
        | none => sharedRefsGo rest es (dinsert pairs (k.1, k.2.2) k)

def sharedRefsPass (es : List (EdgeKey × Edge)) : List (EdgeKey × Edge) :=
  sharedRefsGo (dkeys es) es []

/-! ## build_graph -/

-- Graph._parsed_nodes, as dictionary keys
def parsedKeys (g : Graph) : List String :=
  g.nodes.filterMap (fun kv =>
    match kv.2 with
    | GNode.parsedNode _ => some kv.1
    | _ => none)

-- Graph._concrete_parsed_nodes
def concreteParsedNodes (g : Graph) : List PNode :=
  g.nodes.filterMap (fun kv =>
    match kv.2 with
    | GNode.parsedNode p => if g.metaNodes.contains p.key then none else some p
    | _ => none)

-- Graph.concrete_nodes, as node keys
def concreteNodeKeys (g : Graph) : List String :=
  g.nodes.filterMap (fun kv =>
    if g.metaNodes.contains (GNode.key kv.2) then none else some (GNode.key kv.2))

-- phase 2: one edge from the wildcard-any node to every concrete parsed entity
def universalEdges (g : Graph) (cps : List PNode) : Graph :=
  cps.foldl (fun g n =>
    add_edge g { originatingNodeKey := "Any", originatingIsParsed := false,
                 originatingField := none, destinationKey := n.key }) g

def GNode.isParsed : GNode → Bool
  | .parsedNode _ => true
  | _ => false

-- one fan-out edge from a synthesized junction node to a possible target
def polyTargetEdge (dkey : String) (f : Field) (g : Graph) (dest : String) :
    Except String Graph :=
  match dlookup g.nodes dest with
  | none => Except.error "KeyError: destination"
  | some nd => Except.ok (add_edge g
      { originatingNodeKey := dkey, originatingIsParsed := false,
        originatingField := some f, destinationKey := GNode.key nd })

-- phase 3, one field: the cardinality/polymorphism edge rules
def addFieldEdges (g : Graph) (n : PNode) (f : Field) : Except String Graph :=
  match f.variant with
  | FieldVariant.exclusive fk =>
    if f.is_max_one then
      match dlookup g.nodes fk with
      | none => Except.error "KeyError: destination"
      | some nd => Except.ok (add_edge g
          { originatingNodeKey := n.key, originatingIsParsed := true,
            originatingField := some f, destinationKey := GNode.key nd })
    else
      match dlookup g.nodes fk with
      | none => Except.error "KeyError: originating"
      | some nd => Except.ok (add_edge g
          { originatingNodeKey := GNode.key nd, originatingIsParsed := GNode.isParsed nd,
            originatingField := some f, destinationKey := n.key })
  | FieldVariant.reference ks =>
    if f.is_max_one && !f.is_polymorphic then
      match ks with
      | [] => Except.error "IndexError"
      | k0 :: _ =>
        match dlookup g.nodes k0 with
        | none => Except.error "KeyError: destination"
        | some nd => Except.ok (add_edge g
            { originatingNodeKey := n.key, originatingIsParsed := true,
              originatingField := some f, destinationKey := GNode.key nd })
    else if f.is_many_to_many && !f.is_polymorphic then
      match ks with
      | [] => Except.error "IndexError"
      | k0 :: _ =>
        match dlookup g.nodes k0 with
        | none => Except.error "KeyError: originating"
        | some nd => Except.ok (add_edge g
            { originatingNodeKey := GNode.key nd, originatingIsParsed := GNode.isParsed nd,
              originatingField := some f, destinationKey := n.key })
    else
      -- polymorphic: synthesize the junction node (direct dict write,
      -- bypassing add_node) and fan out one edge per possible target
      let dkey := n.key ++ "." ++ f.key
      let g := { g with nodes := dinsert g.nodes dkey (GNode.derivedNode dkey n.key) }
      do
        let g ← ks.foldlM (polyTargetEdge dkey f) g
        if f.is_max_one then
          Except.ok (add_edge g
            { originatingNodeKey := n.key, originatingIsParsed := true,
              originatingField := some f, destinationKey := dkey })
        else
          Except.ok (add_edge g
            { originatingNodeKey := dkey, originatingIsParsed := false,
              originatingField := some f, destinationKey := n.key })
  | _ => Except.ok g

-- phase 3 over all fields of all concrete parsed entities
def fieldEdges (g : Graph) (cps : List PNode) : Except String Graph :=
  cps.foldlM (fun g n =>
    ((fhir_fields n).map Prod.snd).foldlM (fun g f => addFieldEdges g n f) g) g

-- the opening of Graph.build_graph: the builtin singletons are written
-- directly into the node dictionary, then inheritance is resolved for
-- every parsed node (phase 1)
def buildPhase1 (g : Graph) : Except String Graph :=
  let n1 := dinsert (dinsert g.nodes "Any" GNode.anyNode) "Element" GNode.elementNode
  let g1 : Graph := { g with nodes := n1 }
  (parsedKeys g1).foldlM (fun h k => add_inherited_fields (g1.nodes.length + 1) h k) g1

-- Graph.build_graph: builtin singletons (direct dict writes), inheritance,
-- universal edges, field edges, then the two disambiguation passes
def build_graph (g : Graph) : Except String Graph := do
  let g ← buildPhase1 g
  let cps := concreteParsedNodes g
  let g := universalEdges g cps
  let g ← fieldEdges g cps
  let es ← selfRefsPass g.edges
  Except.ok { g with edges := sharedRefsPass es }

-- every stored edge's identity triple matches its dictionary key (true of
-- every edge collection the builder constructs)
def edgesWF (es : List (EdgeKey × Edge)) : Prop := ∀ kv ∈ es, Edge.ekey kv.2 = kv.1

-- every stored node's own key matches its dictionary key (true of every
-- node collection the builder constructs)
def nodesWF (nodes : List (String × GNode)) : Prop := ∀ kv ∈ nodes, GNode.key kv.2 = kv.1

-- a junction node keyed k is present
def isDerivedAt (nodes : List (String × GNode)) (k : String) : Prop :=
  ∃ df, dlookup nodes k = some (GNode.derivedNode k df)

/-! ## Writable-set selection (graph.py lines 695-748) -/

-- Python set emulation over key lists: insertion keeps the membership set
def sinsert (s : List String) (k : String) : List String :=
  if s.contains k then s else s ++ [k]

def sunion (a b : List String) : List String := b.foldl sinsert a

-- one field of Graph._get_subnodes' loop: only exclusive relationship
-- fields with a dotted (backbone) target are followed
def subStep (g : Graph) (rec : List String → String → Except String (List String × List String))
    (acc : List String × List String) (fld : Field) :
    Except String (List String × List String) :=
  match fld.variant with
  | FieldVariant.exclusive fk =>
    if fk.toList.contains '.' then
      match dlookup g.nodes fk with
      | none => Except.error "KeyError: subnode"
      | some _ => do
        let r ← rec acc.2 fk
        Except.ok (sinsert (sunion acc.1 r.1) fk, r.2)
    else Except.ok acc
  | _ => Except.ok acc

-- Graph._get_subnodes with the memoizing visited set threaded through;
-- returns (collected subnode keys, visited set)
def getSubnodes (fuel : Nat) (g : Graph) :
    List String → String → Except String (List String × List String) :=
  Nat.rec (motive := fun _ => List String → String → Except String (List String × List String))
    (fun _ _ => Except.error "fuel exhausted")
    (fun _ rec vis key =>
      match dlookup g.nodes key with
      | some (GNode.parsedNode p) =>
        if vis.contains key then Except.ok ([], vis)
        else (relationship_fields p).foldlM (subStep g rec) ([], key :: vis)
      | some _ => Except.ok ([], vis)
      | none => Except.error "missing node")
    fuel

-- one resource of the per-resource loop of get_writable_nodes
def wstep (g : Graph) (acc : List String × List String) (r : String) :
    Except String (List String × List String) :=
  match dlookup g.nodes r with
  | none => Except.error "KeyError: filter resource"
  | some _ => do
    let s ← getSubnodes (g.nodes.length + 1) g acc.2 r
    Except.ok (sinsert (sunion acc.1 s.1) r, s.2)

-- the per-resource loop of get_writable_nodes, before the derived-node pass;
-- returns (collected node keys, visited set)
def getWritableRun (g : Graph) (filterBy : List String) :
    Except String (List String × List String) :=
  filterBy.foldlM (wstep g) ([], [])

-- Graph.derived_nodes, as (node key, derived_from key) pairs
def derivedList (g : Graph) : List (String × String) :=
  g.nodes.filterMap (fun kv =>
    match kv.2 with
    | GNode.derivedNode dk df => some (dk, df)
    | _ => none)

-- one edge of the derived-node pass: the junction key is collected when the
-- edge connects it to a filtered resource, in either direction
def dEdgeStep (filterBy : List String) (dd : String × String) (ns : List String)
    (kv : EdgeKey × Edge) : List String :=
  let ns := if kv.2.originatingNodeKey = dd.1 && filterBy.contains kv.2.destinationKey
    then sinsert ns dd.1 else ns
  if kv.2.destinationKey = dd.1 && filterBy.contains kv.2.originatingNodeKey
    then sinsert ns dd.1 else ns

-- one derived node of the pass: skipped when already collected or when its
-- originating entity is not requested
def dStep (g : Graph) (filterBy : List String) (ns : List String) (dd : String × String) :
    List String :=
  if ns.contains dd.1 || !filterBy.contains dd.2 then ns
  else g.edges.foldl (dEdgeStep filterBy dd) ns

-- add derived nodes that connect two related resources in the filtered set
def derivedPhase (g : Graph) (filterBy : List String) (ns : List String) : List String :=
  (derivedList g).foldl (dStep g filterBy) ns

-- Graph.get_writable_nodes, as node keys
def get_writable_nodes (g : Graph) (filterBy : List String) : Except String (List String) :=
  if filterBy.isEmpty then Except.ok (concreteNodeKeys g)
  else do
    let r ← getWritableRun g filterBy
    Except.ok (derivedPhase g filterBy r.1)

/-! ## Auxiliary notions used by the theorems -/

-- the grouping key of the shared-reference pass
def pairOf (k : EdgeKey) : String × String := (k.1, k.2.2)

-- the first key in a processed prefix whose edge the shared-reference pass
-- considers and whose grouping pair matches
def firstConsidered (es : List (EdgeKey × Edge)) : List EdgeKey → (String × String) → Option EdgeKey
  | [], _ => none
  | k :: rest, pr =>
    match dlookup es k with
    | some e => if sharedSkip e = false ∧ pairOf k = pr then some k else firstConsidered es rest pr
    | none => firstConsidered es rest pr

-- an edge key the shared-reference pass has marked after processing a
-- prefix of the key list: it is considered and some other considered key
-- in the prefix shares its pair
def markedIn (es : List (EdgeKey × Edge)) (done : List EdgeKey) (k : EdgeKey) : Prop :=
  k ∈ done ∧ (∃ e, dlookup es k = some e ∧ sharedSkip e = false) ∧
    ∃ k' e', k' ∈ done ∧ k' ≠ k ∧ dlookup es k' = some e' ∧ sharedSkip e' = false ∧
      pairOf k' = pairOf k

/-! ## Concrete fixtures -/

-- C5: a wildcard edge (no originating field) and a many-valued reference
-- edge between the same two entities
def e5a : Edge :=
  { originatingNodeKey := "A", originatingIsParsed := false,
    originatingField := none, destinationKey := "B" }

def e5b : Edge :=
  { originatingNodeKey := "A", originatingIsParsed := true,
    originatingField := some ⟨"f", (Ordn.zero, Ordn.many), "A", FieldVariant.reference ["B"]⟩,
    destinationKey := "B" }

def es5 : List (EdgeKey × Edge) := [(e5a.ekey, e5a), (e5b.ekey, e5b)]

-- a parsed node with no rows beyond its key
def bareP (k : String) : PNode := ⟨k, [], [], []⟩

-- the BackboneElement entity as parsed from its source page: the two
-- standard extension fields, both many-valued exclusive relationships
def backboneP : PNode :=
  ⟨"BackboneElement", [],
   [⟨"extension", (Ordn.zero, Ordn.many), "BackboneElement", FieldVariant.exclusive "Extension"⟩,
    ⟨"modifierExtension", (Ordn.zero, Ordn.many), "BackboneElement", FieldVariant.exclusive "Extension"⟩],
   []⟩

-- C7: a graph already containing a parsed node "A.f" whose key collides
-- with the junction node synthesized for the polymorphic field A.f
def gC7 : Graph :=
  { nodes :=
      [("A", GNode.parsedNode
          ⟨"A", [], [⟨"f", (Ordn.zero, Ordn.one), "A", FieldVariant.reference ["B", "C"]⟩], []⟩),
       ("A.f", GNode.parsedNode (bareP "A.f")),
       ("B", GNode.parsedNode (bareP "B")),
       ("C", GNode.parsedNode (bareP "C")),
       ("BackboneElement", GNode.parsedNode backboneP),
       ("Extension", GNode.parsedNode (bareP "Extension"))],
    metaNodes := [], edges := [] }

-- C10: a pre-existing edge and a replacement edge with the same identity triple
def e10a : Edge :=
  { originatingNodeKey := "X", originatingIsParsed := true,
    originatingField := some ⟨"g", (Ordn.zero, Ordn.one), "X", FieldVariant.exclusive "Y"⟩,
    destinationKey := "Y" }

def e10b : Edge :=
  { originatingNodeKey := "X", originatingIsParsed := true,
    originatingField := some ⟨"g", (Ordn.one, Ordn.one), "X", FieldVariant.exclusive "Y"⟩,
    destinationKey := "Y" }

def g10 : Graph := { nodes := [], metaNodes := [], edges := [(e10a.ekey, e10a)] }

-- what every edge-adding step of build_graph preserves: node/edge key
-- integrity, presence of already-recorded edges, and presence of already
-- synthesized junction nodes
def presv (g g' : Graph) : Prop :=
  (nodesWF g.nodes → nodesWF g'.nodes) ∧
  (edgesWF g.edges → edgesWF g'.edges) ∧
  (∀ j, (dlookup g.edges j).isSome → (dlookup g'.edges j).isSome) ∧
  (∀ k, isDerivedAt g.nodes k → isDerivedAt g'.nodes k)

-- C1: an entity A carrying one polymorphic reference field f with the two
-- targets P and G, max-ordinality one
def fC1 : Field := ⟨"f", (Ordn.zero, Ordn.one), "A", FieldVariant.reference ["P", "G"]⟩

def nC1 : PNode := ⟨"A", [], [fC1], []⟩

def gC1 : Graph :=
  { nodes := [("A", GNode.parsedNode nC1), ("P", GNode.parsedNode (bareP "P")),
              ("G", GNode.parsedNode (bareP "G"))],
    metaNodes := [], edges := [] }

def g1C1 : Graph :=
  match buildPhase1 gC1 with
  | Except.ok g => g
  | Except.error _ => ⟨[], [], []⟩

def gfC1 : Graph :=
  match build_graph gC1 with
  | Except.ok g => g
  | Except.error _ => ⟨[], [], []⟩

-- a key naming a parsed entity
def isParsedKey (g : Graph) (b : String) : Prop :=
  ∃ q, dlookup g.nodes b = some (GNode.parsedNode q)

-- the subnode-traversal closure property of a visited key: every dotted
-- exclusive relationship target of its entity is collected, and visited
-- whenever it is itself a parsed entity
def ClosedAt (g : Graph) (X : String) (res vis : List String) : Prop :=
  ∀ p, dlookup g.nodes X = some (GNode.parsedNode p) →
  ∀ f b, f ∈ relationship_fields p → f.variant = FieldVariant.exclusive b →
    b.toList.contains '.' = true → b ∈ res ∧ (isParsedKey g b → b ∈ vis)

-- transitive reachability through exclusive relationship fields whose
-- target key contains a path separator (the backbone-subnode chains the
-- writable-set traversal follows)
inductive SubReach (g : Graph) : String → String → Prop where
  | step (a b : String) (p : PNode) (f : Field)
      (ha : dlookup g.nodes a = some (GNode.parsedNode p))
      (hf : f ∈ relationship_fields p)
      (hv : f.variant = FieldVariant.exclusive b)
      (hd : b.toList.contains '.' = true) : SubReach g a b
  | tail (a b c : String) (p : PNode) (f : Field)
      (hr : SubReach g a b)
      (hb : dlookup g.nodes b = some (GNode.parsedNode p))
      (hf : f ∈ relationship_fields p)
      (hv : f.variant = FieldVariant.exclusive c)
      (hd : c.toList.contains '.' = true) : SubReach g a c

-- C2: a resource R with a chain of two backbone subnodes
def pC2b : PNode := ⟨"R.a", [], [⟨"b", (Ordn.zero, Ordn.many), "R.a", FieldVariant.exclusive "R.a.b"⟩], []⟩

def pC2 : PNode := ⟨"R", [], [⟨"a", (Ordn.zero, Ordn.many), "R", FieldVariant.exclusive "R.a"⟩], []⟩

def gC2 : Graph :=
  { nodes := [("R", GNode.parsedNode pC2), ("R.a", GNode.parsedNode pC2b),
              ("R.a.b", GNode.parsedNode (bareP "R.a.b"))],
    metaNodes := [], edges := [] }

def wsC2 : List String :=
  match get_writable_nodes gC2 ["R"] with
  | Except.ok l => l
  | Except.error _ => []

-- C6: a junction node derived from the requested resource R, with an edge
-- connecting it to the requested resource S
def eC6 : Edge :=
  { originatingNodeKey := "R.f", originatingIsParsed := false,
    originatingField := some ⟨"f", (Ordn.zero, Ordn.one), "R", FieldVariant.reference ["S"]⟩,
    destinationKey := "S" }

def gC6 : Graph :=
  { nodes := [("R", GNode.parsedNode (bareP "R")), ("S", GNode.parsedNode (bareP "S")),
              ("R.f", GNode.derivedNode "R.f" "R")],
    metaNodes := [], edges := [(eC6.ekey, eC6)] }

-- the only way inheritance resolution ever rewrites a field dictionary: a
-- sequence of copy-writes whose stored value carries the owner's key as its
-- originating node
inductive SelfW (ck : String) : List (String × Field) → List (String × Field) → Prop where
  | refl (d : List (String × Field)) : SelfW ck d d
  | snoc (d d' : List (String × Field)) (f : Field) (h : SelfW ck d d') :
      SelfW ck d (dinsert d' f.key (f.withOrig ck))

-- what one inheritance-resolution pass can do to the graph: node keys,
-- kinds, parse data and annotations are untouched; meta-node membership
-- only grows; inherited-field dictionaries change only by self-copy writes
def StepRel (g g' : Graph) : Prop :=
  (∀ j nd, dlookup g.nodes j = some nd → GNode.isParsed nd = false →
    dlookup g'.nodes j = some nd) ∧
  (∀ j, dlookup g.nodes j = none → dlookup g'.nodes j = none) ∧
  (∀ x, g.metaNodes.contains x = true → g'.metaNodes.contains x = true) ∧
  (∀ j c, dlookup g.nodes j = some (GNode.parsedNode c) →
    ∃ c', dlookup g'.nodes j = some (GNode.parsedNode c') ∧
      c'.key = c.key ∧ c'.anns = c.anns ∧ c'.ownFields = c.ownFields ∧
      SelfW c.key c.inherited c'.inherited)

-- an inherited-field dictionary holds, at some key lowercasing to lowkey, a
-- copy whose originating node is the owner ck
def HasCopy (ck lowkey : String) (d : List (String × Field)) : Prop :=
  ∃ key f, dlookup d key = some f ∧ f.key = key ∧ strToLower key = lowkey ∧
    f.originatingNodeKey = ck

-- C8: a nested subnode with no explicit parent annotation, alongside the
-- parsed BackboneElement page entity
def gC8 : Graph :=
  { nodes := [("P.c", GNode.parsedNode (bareP "P.c")),
              ("BackboneElement", GNode.parsedNode backboneP),
              ("Extension", GNode.parsedNode (bareP "Extension"))],
    metaNodes := [], edges := [] }

def gC8r : Graph :=
  match add_inherited_fields 4 gC8 "P.c" with
  | Except.ok g => g
  | Except.error _ => ⟨[], [], []⟩

def cC8r : PNode :=
  match dlookup gC8r.nodes "P.c" with
  | some (GNode.parsedNode c) => c
  | _ => bareP ""

/-! ## Notions for idempotence of inheritance resolution (C9) -/

-- the last value a copy list writes at a key, if any
def lastW (L : CopyList) (K : String) : Option Field :=
  L.foldl (fun acc w => if w.1 = K then some w.2 else acc) none

-- add_meta_node leaves the graph unchanged exactly when the key is already
-- a meta node or is the exempt Resource key
def MetaOk (g : Graph) (pk : String) : Prop :=
  pk = "Resource" ∨ g.metaNodes.contains pk = true

-- the copies one annotation entry would produce right now, from the
-- parent's current resolved fields
def entCopiesNow (g : Graph) (selfOrig : String) (ent : String × List String) :
    Except String CopyList :=
  match dlookup g.nodes ent.1 with
  | some (GNode.parsedNode p) =>
    resolveLookups selfOrig (fieldsByLowerKey (fhir_fields p)) ent.2
  | some GNode.elementNode => resolveLookups selfOrig elementFieldsByLower ent.2
  | _ => Except.error "parent missing"

def entsCopiesNow (g : Graph) (selfOrig : String) :
    List (String × List String) → Except String CopyList
  | [] => Except.ok []
  | ent :: ents => do
    let cs ← entCopiesNow g selfOrig ent
    let rest ← entsCopiesNow g selfOrig ents
    Except.ok (cs ++ rest)

-- a fully resolved entity: every annotation entry's parent is already a
-- meta node, each entry's copies are computable from the current graph, and
-- re-applying the full copy sequence to the inherited dictionary is a no-op
def ROkAt (g : Graph) (X : String) : Prop :=
  ∀ c, dlookup g.nodes X = some (GNode.parsedNode c) →
    (∀ ent ∈ inherited_field_keys c, MetaOk g ent.1) ∧
    ∃ J, entsCopiesNow g c.key (inherited_field_keys c) = Except.ok J ∧
      c.inherited = applyCopies c.inherited J

-- one parent hop of the resolution recursion (only parsed parents recurse)
def ParentE (g : Graph) (X Y : String) : Prop :=
  ∃ c, dlookup g.nodes X = some (GNode.parsedNode c) ∧
    (∃ ent ∈ inherited_field_keys c, ent.1 = Y) ∧
    ∃ p, dlookup g.nodes Y = some (GNode.parsedNode p)

-- parent-annotation paths, with their length
inductive PPath (g : Graph) : String → String → Nat → Prop where
  | refl (X : String) : PPath g X X 0
  | step (X Y Z : String) (L : Nat) (h1 : ParentE g X Y) (h2 : PPath g Y Z L) :
      PPath g X Z (L + 1)

-- the set of entities a resolution run started at X can visit
def Touch (g : Graph) (X Y : String) : Prop := ∃ L, PPath g X Y L

-- all parent chains from k are shorter than the available fuel
def DepthBound (g : Graph) (k : String) (n : Nat) : Prop :=
  ∀ Y L, PPath g k Y L → L < n

-- dictionary well-formedness carried by every graph the program builds:
-- node keys are unique and each parsed node's inherited dictionary has
-- unique keys (Python dict invariants)
def INHWF (g : Graph) : Prop :=
  (dkeys g.nodes).Nodup ∧
  ∀ kv ∈ g.nodes, ∀ c, kv.2 = GNode.parsedNode c → (dkeys c.inherited).Nodup

-- the state of the owner entity mid-run: the prefix of the copy sequence
-- already applied to its inherited dictionary
def Wr (g : Graph) (k : String) (J : CopyList) : Graph :=
  { g with nodes := updatePNode g.nodes k (fun cc => { cc with inherited := applyCopies cc.inherited J }) }

end FhirGraph

namespace FhirGraph

/-! ## Theorems about the naming utilities -/

theorem truncLoop_ok_length {fuel : Nat} {parts : List (List Char)} {k : Nat}
    {out : List Char} (h : truncLoop fuel parts k = some out) : out.length ≤ 63 := by
  induction fuel generalizing parts k with
  | zero => simp [truncLoop] at h
  | succ n ih =>
    unfold truncLoop at h
    split at h
    · exact absurd h (by simp)
    · split at h
      · exact absurd h (by simp)
      · split at h
        · cases h; assumption
        · exact ih h

/-- C3 (amended): truncating an identifier already at most 63 characters is a
no-op, and whenever truncate_database_name returns a result at all it is at
most 63 characters long.  (Determinism is immediate: the embedding is a pure
function of its input.)  The original claim's stronger promise that every
over-long identifier is successfully truncated is refuted by
c3_counterexample below: the abbreviation loop raises an IndexError when it
runs out of name segments to collapse. -/
theorem c3_truncation_partial (full out : List Char)
    (h : truncate_database_name full = some out) :
    out.length ≤ 63 ∧ (full.length ≤ 63 → out = full) := by
  unfold truncate_database_name at h
  by_cases hle : full.length ≤ 63
  · simp [hle] at h
    subst h
    exact ⟨hle, fun _ => rfl⟩
  · simp [hle] at h
    exact ⟨truncLoop_ok_length h, fun hc => absurd hc hle⟩

/-- Witness for c3_truncation_partial: a 69-character ten-segment identifier
is successfully abbreviated to 59 characters. -/
theorem c3_truncation_partial_witness :
    truncate_database_name
      (String.toList "abcdef_abcdef_abcdef_abcdef_abcdef_abcdef_abcdef_abcdef_abcdef_abcdef") =
      some (String.toList "abcdef_abcdef_abcdef_abcdef_abcdef_a_a_abcdef_abcdef_abcdef") ∧
    (String.toList "abcdef_abcdef_abcdef_abcdef_abcdef_a_a_abcdef_abcdef_abcdef").length ≤ 63 := by
  refine ⟨by decide, ?_⟩
  exact ( c3_truncation_partial
    (String.toList "abcdef_abcdef_abcdef_abcdef_abcdef_abcdef_abcdef_abcdef_abcdef_abcdef")
    (String.toList "abcdef_abcdef_abcdef_abcdef_abcdef_a_a_abcdef_abcdef_abcdef")
    (by decide)).1

/-- C3 counterexample: a single-segment 64-character identifier exceeds the
limit, but the abbreviation loop immediately fails (name_parts[:-3] is empty
and indexing it raises IndexError), so no truncated result is produced at
all, contradicting "always returns a result of at most 63 bytes". -/
theorem c3_counterexample :
    truncate_database_name (List.replicate 64 'a') = none := by decide

/-- C4 (code bug): the table name and column name for this node/field pair
are each truncated to at most 63 characters, and the enumerated-type name
is re-truncated as well, but the explicitly-named uniqueness constraint is
the raw concatenation table_column_key of the two truncated names and comes
out 75 characters long, exceeding the storage engine's 63-byte limit. -/
theorem c4_constraint_name_overflow :
    (tableName (List.replicate 50 'a') = some (List.replicate 50 'a') ∧
      (List.replicate 50 'a').length ≤ 63) ∧
    (columnName (List.replicate 20 'b') = some (List.replicate 20 'b') ∧
      (List.replicate 20 'b').length ≤ 63) ∧
    (∃ u, uniqueConstraintName (List.replicate 50 'a') (List.replicate 20 'b') = some u ∧
      63 < u.length) := by decide

/-! ## Dictionary lemmas -/

section DictLemmas

variable {κ β : Type} [DecidableEq κ]

@[simp] theorem dkeys_nil : dkeys ([] : List (κ × β)) = [] := rfl

@[simp] theorem dkeys_cons (kv : κ × β) (d : List (κ × β)) :
    dkeys (kv :: d) = kv.1 :: dkeys d := rfl

theorem dlookup_dinsert_self : ∀ (d : List (κ × β)) (k : κ) (v : β),
    dlookup (dinsert d k v) k = some v
  | [], k, v => by simp [dinsert, dlookup]
  | (k', w) :: rest, k, v => by
    by_cases h : k' = k
    · simp [dinsert, h, dlookup]
    · simp [dinsert, h, dlookup, dlookup_dinsert_self rest k v]

theorem dlookup_dinsert_ne : ∀ (d : List (κ × β)) (k k' : κ) (v : β), k' ≠ k →
    dlookup (dinsert d k v) k' = dlookup d k'
  | [], k, k', v, h => by
    have hk : ¬(k = k') := fun hh => h hh.symm
    simp [dinsert, dlookup, hk]
  | (k₀, w) :: rest, k, k', v, h => by
    by_cases h0 : k₀ = k
    · subst h0
      have hk : ¬(k₀ = k') := fun hh => h hh.symm
      simp [dinsert, dlookup, hk]
    · simp only [dinsert, if_neg h0, dlookup]
      by_cases h1 : k₀ = k'
      · simp [h1]
      · simp [h1, dlookup_dinsert_ne rest k k' v h]

theorem mem_dkeys_of_dlookup : ∀ {d : List (κ × β)} {k : κ} {v : β},
    dlookup d k = some v → k ∈ dkeys d := by
  intro d
  induction d with
  | nil => intro k v h; simp [dlookup] at h
  | cons kv rest ih =>
    intro k v h
    obtain ⟨k₀, w⟩ := kv
    by_cases h0 : k₀ = k
    · simp [h0]
    · simp only [dlookup, if_neg h0] at h
      simp only [dkeys_cons, List.mem_cons]
      exact Or.inr (ih h)

theorem dlookup_isSome_of_mem : ∀ {d : List (κ × β)} {k : κ},
    k ∈ dkeys d → (dlookup d k).isSome := by
  intro d
  induction d with
  | nil => intro k h; simp at h
  | cons kv rest ih =>
    intro k h
    obtain ⟨k₀, w⟩ := kv
    by_cases h0 : k₀ = k
    · simp [dlookup, h0]
    · simp only [dkeys_cons, List.mem_cons] at h
      rcases h with h | h
      · exact absurd h.symm h0
      · simpa [dlookup, h0] using ih h

theorem dkeys_dinsert_mem : ∀ (d : List (κ × β)) (k : κ) (v : β), k ∈ dkeys d →
    dkeys (dinsert d k v) = dkeys d
  | [], k, v, h => by simp at h
  | (k₀, w) :: rest, k, v, h => by
    by_cases h0 : k₀ = k
    · simp [dinsert, h0]
    · have hm : k ∈ dkeys rest := by
        simp only [dkeys_cons, List.mem_cons] at h
        rcases h with h | h
        · exact absurd h.symm h0
        · exact h
      simp [dinsert, h0, dkeys_dinsert_mem rest k v hm]

theorem dkeys_dinsert_not_mem : ∀ (d : List (κ × β)) (k : κ) (v : β), k ∉ dkeys d →
    dkeys (dinsert d k v) = dkeys d ++ [k]
  | [], k, v, _ => by simp [dinsert]
  | (k₀, w) :: rest, k, v, h => by
    simp only [dkeys_cons, List.mem_cons, not_or] at h
    have h0 : ¬(k₀ = k) := fun hh => h.1 hh.symm
    simp [dinsert, h0, dkeys_dinsert_not_mem rest k v h.2]

theorem nodup_dkeys_dinsert (d : List (κ × β)) (k : κ) (v : β)
    (h : (dkeys d).Nodup) : (dkeys (dinsert d k v)).Nodup := by
  by_cases hm : k ∈ dkeys d
  · rwa [dkeys_dinsert_mem d k v hm]
  · rw [dkeys_dinsert_not_mem d k v hm]
    exact List.Nodup.append h (List.nodup_singleton k)
      (List.disjoint_singleton.mpr hm)

end DictLemmas

/-- C10: adding an edge never fails and follows plain dictionary-assignment
semantics: the new edge is stored under its identity triple, silently
replacing any previously stored edge with that triple; lookups at every
other triple are untouched; and when the edge collection held at most one
edge per triple before, it still does afterwards. -/
theorem c10_add_edge_replaces (g : Graph) (e : Edge) :
    dlookup (add_edge g e).edges e.ekey = some e ∧
    (∀ k, k ≠ e.ekey → dlookup (add_edge g e).edges k = dlookup g.edges k) ∧
    ((dkeys g.edges).Nodup → (dkeys (add_edge g e).edges).Nodup) :=
  ⟨dlookup_dinsert_self g.edges e.ekey e,
   fun k hk => dlookup_dinsert_ne g.edges e.ekey k e hk,
   fun h => nodup_dkeys_dinsert g.edges e.ekey e h⟩

/-- Witness for c10_add_edge_replaces: replacing the stored edge for an
existing identity triple succeeds, the most recent edge wins, and the
collection still holds one edge per triple. -/
theorem c10_add_edge_replaces_witness :
    dlookup (add_edge g10 e10b).edges e10b.ekey = some e10b ∧
    (dkeys g10.edges).Nodup ∧ (dkeys (add_edge g10 e10b).edges).Nodup ∧
    e10a.ekey = e10b.ekey ∧ e10a ≠ e10b := by
  refine ⟨(c10_add_edge_replaces g10 e10b).1,
          by decide, (c10_add_edge_replaces g10 e10b).2.2 (by decide), by decide, by decide⟩

/-- C7 counterexample: build_graph on gC7 completes without any error even
though the junction node synthesized for the polymorphic field A.f has the
same key as the already-present parsed node "A.f"; the parsed node is
silently replaced by the derived node instead of the build aborting. -/
theorem c7_counterexample :
    (build_graph gC7).toOption.map (fun g => dlookup g.nodes "A.f") =
      some (some (GNode.derivedNode "A.f" "A")) ∧
    (∃ p, dlookup gC7.nodes "A.f" = some (GNode.parsedNode p)) := by
  constructor
  · decide
  · exact ⟨bareP "A.f", by decide⟩

/-- C7 (amended): Graph.add_node checks duplicates — adding a node whose
key already exists in the node set fails — but the insertions build_graph
performs directly on the node dictionary (the wildcard and base-element
singletons and every synthesized junction node) bypass the check and
silently overwrite any existing node with that key, as c7_counterexample
shows. -/
theorem c7_add_node_duplicate_fails (g : Graph) (n : GNode)
    (h : (dlookup g.nodes (GNode.key n)).isSome) :
    add_node g n = Except.error "Node exists in graph" := by
  simp [add_node, h]

/-- Witness for c7_add_node_duplicate_fails: re-adding the parsed node "A"
of gC7 fails. -/
theorem c7_add_node_duplicate_fails_witness :
    add_node gC7 (GNode.parsedNode { key := "A", anns := [], ownFields := [], inherited := [] }) =
      Except.error "Node exists in graph" :=
  c7_add_node_duplicate_fails gC7 _ (by decide)

/-! ## The shared-reference disambiguation pass (C5) -/

theorem dlookup_markShares (es : List (EdgeKey × Edge)) (km k : EdgeKey) :
    dlookup (markShares es km) k =
      (dlookup es k).map (fun e => if k = km then { e with shares_references := true } else e) := by
  induction es with
  | nil => simp [markShares, dlookup]
  | cons kv rest ih =>
    obtain ⟨k₀, e₀⟩ := kv
    have hstep : markShares ((k₀, e₀) :: rest) km =
        (if k₀ = km then (k₀, { e₀ with shares_references := true }) else (k₀, e₀)) ::
          markShares rest km := by
      simp [markShares]
    rw [hstep]
    by_cases hm : k₀ = km
    · rw [if_pos hm]
      by_cases h0 : k₀ = k
      · subst h0
        rw [dlookup, if_pos rfl, dlookup, if_pos rfl]
        simp [hm]
      · rw [dlookup, if_neg h0, dlookup, if_neg h0, ih]
    · rw [if_neg hm]
      by_cases h0 : k₀ = k
      · subst h0
        rw [dlookup, if_pos rfl, dlookup, if_pos rfl]
        simp [hm]
      · rw [dlookup, if_neg h0, dlookup, if_neg h0, ih]

theorem sharedSkip_mark (e : Edge) (b : Bool) :
    sharedSkip { e with shares_references := b } = sharedSkip e := rfl

theorem firstConsidered_snoc (es : List (EdgeKey × Edge)) :
    ∀ (done : List EdgeKey) (k : EdgeKey) (pr : String × String),
    firstConsidered es (done ++ [k]) pr =
      (match firstConsidered es done pr with
       | some k0 => some k0
       | none =>
         match dlookup es k with
         | some e => if sharedSkip e = false ∧ pairOf k = pr then some k else none
         | none => none)
  | [], k, pr => by
    cases hk : dlookup es k with
    | none => simp [firstConsidered, hk]
    | some e => simp [firstConsidered, hk]
  | j :: done, k, pr => by
    cases hj : dlookup es j with
    | none => simpa [firstConsidered, hj] using firstConsidered_snoc es done k pr
    | some e =>
      by_cases hc : sharedSkip e = false ∧ pairOf j = pr
      · simp [firstConsidered, hj, hc]
      · simpa [firstConsidered, hj, hc] using firstConsidered_snoc es done k pr

theorem firstConsidered_some_spec (es : List (EdgeKey × Edge)) :
    ∀ (done : List EdgeKey) (pr : String × String) (k0 : EdgeKey),
    firstConsidered es done pr = some k0 →
    k0 ∈ done ∧ ∃ e0, dlookup es k0 = some e0 ∧ sharedSkip e0 = false ∧ pairOf k0 = pr
  | [], pr, k0 => by simp [firstConsidered]
  | j :: done, pr, k0 => by
    intro h
    cases hj : dlookup es j with
    | none =>
      simp only [firstConsidered, hj] at h
      obtain ⟨hm, hrest⟩ := firstConsidered_some_spec es done pr k0 h
      exact ⟨List.mem_cons_of_mem j hm, hrest⟩
    | some e =>
      simp only [firstConsidered, hj] at h
      by_cases hc : sharedSkip e = false ∧ pairOf j = pr
      · rw [if_pos hc] at h
        cases h
        exact ⟨List.mem_cons_self _ _, e, hj, hc.1, hc.2⟩
      · rw [if_neg hc] at h
        obtain ⟨hm, hrest⟩ := firstConsidered_some_spec es done pr k0 h
        exact ⟨List.mem_cons_of_mem j hm, hrest⟩

theorem firstConsidered_none_spec (es : List (EdgeKey × Edge)) :
    ∀ (done : List EdgeKey) (pr : String × String),
    firstConsidered es done pr = none →
    ∀ j ∈ done, ∀ e, dlookup es j = some e → sharedSkip e = false → pairOf j ≠ pr
  | [], pr, _, j, hj => by simp at hj
  | j0 :: done, pr, h, j, hj => by
    intro e hje hsk
    rcases List.mem_cons.mp hj with hj | hj
    · subst hj
      simp only [firstConsidered, hje] at h
      intro hpr
      rw [if_pos ⟨hsk, hpr⟩] at h
      exact Option.noConfusion h
    · cases hj0 : dlookup es j0 with
      | none =>
        simp only [firstConsidered, hj0] at h
        exact firstConsidered_none_spec es done pr h j hj e hje hsk
      | some e0 =>
        simp only [firstConsidered, hj0] at h
        by_cases hc : sharedSkip e0 = false ∧ pairOf j0 = pr
        · rw [if_pos hc] at h; exact Option.noConfusion h
        · rw [if_neg hc] at h
          exact firstConsidered_none_spec es done pr h j hj e hje hsk

theorem sharedRefsGo_spec :
    ∀ (rest done : List EdgeKey) (es es' : List (EdgeKey × Edge))
      (pairs : List ((String × String) × EdgeKey)),
    dkeys es = done ++ rest →
    (dkeys es).Nodup →
    (∀ k e, dlookup es k = some e →
      (markedIn es done k → dlookup es' k = some { e with shares_references := true }) ∧
      (¬ markedIn es done k → dlookup es' k = some e)) →
    (∀ pr, dlookup pairs pr = firstConsidered es done pr) →
    ∀ k e, dlookup es k = some e →
      (markedIn es (done ++ rest) k →
        dlookup (sharedRefsGo rest es' pairs) k = some { e with shares_references := true }) ∧
      (¬ markedIn es (done ++ rest) k →
        dlookup (sharedRefsGo rest es' pairs) k = some e)
  | [], done, es, es', pairs, hks, hnd, hes, hpairs, k, e, hk => by
    simpa [sharedRefsGo] using hes k e hk
  | kc :: rest, done, es, es', pairs, hks, hnd, hes, hpairs, k, e, hk => by
    -- the processed key kc is a genuine key of es and not yet in done
    have hkcmem : kc ∈ dkeys es := by rw [hks]; simp
    have hkcnotdone : kc ∉ done := by
      rw [hks] at hnd
      rcases List.nodup_append.mp hnd with ⟨_, _, hdisj⟩
      exact fun hmem => hdisj hmem (by simp)
    obtain ⟨ec, hec⟩ := Option.isSome_iff_exists.mp (dlookup_isSome_of_mem hkcmem)
    have hkc_es' := hes kc ec hec
    have hkc_notmarked : ¬ markedIn es done kc := fun hm => hkcnotdone hm.1
    have hkc_lookup : dlookup es' kc = some ec := hkc_es'.2 hkc_notmarked
    have hsplit : done ++ kc :: rest = (done ++ [kc]) ++ rest := by simp
    simp only [sharedRefsGo, hkc_lookup]
    by_cases hskip : sharedSkip ec = true
    · -- skipped edge: nothing changes, markedIn is unchanged by the step
      have hmark_same : ∀ j, markedIn es (done ++ [kc]) j ↔ markedIn es done j := by
        intro j
        constructor
        · rintro ⟨hj, hcons, k', e', hk', hne, hke', hsk', hpr'⟩
          have hk'done : k' ∈ done := by
            rcases List.mem_append.mp hk' with h | h
            · exact h
            · simp at h
              subst h
              rw [hec] at hke'
              cases hke'
              rw [hskip] at hsk'
              exact absurd hsk' (by simp)
          have hjdone : j ∈ done := by
            rcases List.mem_append.mp hj with h | h
            · exact h
            · simp at h
              subst h
              obtain ⟨ej, hej, hskj⟩ := hcons
              rw [hec] at hej
              cases hej
              rw [hskip] at hskj
              exact absurd hskj (by simp)
          exact ⟨hjdone, hcons, k', e', hk'done, hne, hke', hsk', hpr'⟩
        · rintro ⟨hj, hcons, k', e', hk', hne, hke', hsk', hpr'⟩
          exact ⟨List.mem_append_left _ hj, hcons, k', e',
            List.mem_append_left _ hk', hne, hke', hsk', hpr'⟩
      have hfc_same : ∀ pr, firstConsidered es (done ++ [kc]) pr = firstConsidered es done pr := by
        intro pr
        rw [firstConsidered_snoc]
        cases hfc : firstConsidered es done pr with
        | some k0 => rfl
        | none => simp [hec, hskip]
      rw [if_pos hskip]
      have := sharedRefsGo_spec rest (done ++ [kc]) es es' pairs
        (by rw [hks, hsplit]) hnd
        (fun j ej hj => ⟨fun hm => (hes j ej hj).1 ((hmark_same j).mp hm),
                         fun hm => (hes j ej hj).2 (fun hmm => hm ((hmark_same j).mpr hmm))⟩)
        (fun pr => (hpairs pr).trans (hfc_same pr).symm)
        k e hk
      rw [hsplit] at *
      exact this
    · -- considered edge
      have hskipf : sharedSkip ec = false := by
        cases hsk : sharedSkip ec
        · rfl
        · exact absurd hsk hskip
      rw [if_neg hskip, hpairs]
      have hprfl : ((kc.1, kc.2.2) : String × String) = pairOf kc := rfl
      rw [hprfl]
      cases hfc : firstConsidered es done (pairOf kc) with
      | some k0 =>
        -- a considered edge with the same pair was seen before: mark both
        obtain ⟨hk0done, e0, he0, hsk0, hpr0⟩ := firstConsidered_some_spec es done (pairOf kc) k0 hfc
        have hk0ne : k0 ≠ kc := fun h => hkcnotdone (h ▸ hk0done)
        -- the new marked set
        have hmark_new : ∀ j, markedIn es (done ++ [kc]) j ↔
            (markedIn es done j ∨ j = kc ∨ j = k0) := by
          intro j
          constructor
          · rintro ⟨hj, hcons, k', e', hk', hne, hke', hsk', hpr'⟩
            by_cases hjkc : j = kc
            · exact Or.inr (Or.inl hjkc)
            · by_cases hjk0 : j = k0
              · exact Or.inr (Or.inr hjk0)
              · left
                have hjdone : j ∈ done := by
                  rcases List.mem_append.mp hj with h | h
                  · exact h
                  · simp at h; exact absurd h hjkc
                by_cases hk'kc : k' = kc
                · -- partner is the new key: but k0 is an old partner for j
                  rw [hk'kc] at hpr'
                  exact ⟨hjdone, hcons, k0, e0, hk0done, fun h => hjk0 h.symm,
                    he0, hsk0, hpr0.trans hpr'⟩
                · have hk'done : k' ∈ done := by
                    rcases List.mem_append.mp hk' with h | h
                    · exact h
                    · simp at h; exact absurd h hk'kc
                  exact ⟨hjdone, hcons, k', e', hk'done, hne, hke', hsk', hpr'⟩
          · rintro (hm | hj | hj)
            · obtain ⟨hj, hcons, k', e', hk', hne, hke', hsk', hpr'⟩ := hm
              exact ⟨List.mem_append_left _ hj, hcons, k', e',
                List.mem_append_left _ hk', hne, hke', hsk', hpr'⟩
            · subst hj
              exact ⟨List.mem_append_right _ (by simp), ⟨ec, hec, hskipf⟩,
                k0, e0, List.mem_append_left _ hk0done, hk0ne, he0, hsk0, hpr0⟩
            · subst hj
              exact ⟨List.mem_append_left _ hk0done, ⟨e0, he0, hsk0⟩,
                kc, ec, List.mem_append_right _ (by simp),
                fun h => hk0ne h.symm, hec, hskipf, hpr0.symm⟩
        have hfc_same : ∀ pr, firstConsidered es (done ++ [kc]) pr = firstConsidered es done pr := by
          intro pr
          rw [firstConsidered_snoc]
          by_cases hpr : pr = pairOf kc
          · subst hpr; rw [hfc]
          · cases hfc' : firstConsidered es done pr with
            | some k1 => rfl
            | none =>
              simp only [hec]
              exact if_neg (fun hcon : sharedSkip ec = false ∧ pairOf kc = pr => hpr hcon.2.symm)
        -- the doubly-marked edge collection satisfies the invariant for done ++ [kc]
        have hes'' : ∀ j ej, dlookup es j = some ej →
            (markedIn es (done ++ [kc]) j →
              dlookup (markShares (markShares es' kc) k0) j = some { ej with shares_references := true }) ∧
            (¬ markedIn es (done ++ [kc]) j →
              dlookup (markShares (markShares es' kc) k0) j = some ej) := by
          intro j ej hj
          constructor
          · intro hm
            rcases (hmark_new j).mp hm with hm | hj' | hj'
            · have := (hes j ej hj).1 hm
              rw [dlookup_markShares, dlookup_markShares, this]
              by_cases h1 : j = kc <;> by_cases h2 : j = k0 <;> simp [h1, h2]
            · rw [hj'] at hj ⊢
              rw [hec] at hj
              have hje : ej = ec := (Option.some.inj hj).symm
              rw [hje]
              rw [dlookup_markShares, dlookup_markShares, hkc_lookup]
              have hkcne : kc ≠ k0 := fun h => hk0ne h.symm
              simp [hkcne]
            · rw [hj'] at hj ⊢
              rw [he0] at hj
              have hje : ej = e0 := (Option.some.inj hj).symm
              rw [hje]
              by_cases hm0 : markedIn es done k0
              · have hl := (hes k0 e0 he0).1 hm0
                rw [dlookup_markShares, dlookup_markShares, hl]
                simp [hk0ne]
              · have hl := (hes k0 e0 he0).2 hm0
                rw [dlookup_markShares, dlookup_markShares, hl]
                simp [hk0ne]
          · intro hm
            have hmold : ¬ markedIn es done j := fun h => hm ((hmark_new j).mpr (Or.inl h))
            have hjkc : j ≠ kc := fun h => hm ((hmark_new j).mpr (Or.inr (Or.inl h)))
            have hjk0 : j ≠ k0 := fun h => hm ((hmark_new j).mpr (Or.inr (Or.inr h)))
            have := (hes j ej hj).2 hmold
            rw [dlookup_markShares, dlookup_markShares, this]
            simp [hjkc, hjk0]
        have := sharedRefsGo_spec rest (done ++ [kc]) es
          (markShares (markShares es' kc) k0) pairs
          (by rw [hks, hsplit]) hnd hes''
          (fun pr => (hpairs pr).trans (hfc_same pr).symm)
          k e hk
        rw [hsplit] at *
        exact this
      | none =>
        -- first considered edge with this pair: record it, mark nothing
        have hmark_same : ∀ j, markedIn es (done ++ [kc]) j ↔ markedIn es done j := by
          intro j
          constructor
          · rintro ⟨hj, hcons, k', e', hk', hne, hke', hsk', hpr'⟩
            by_cases hk'kc : k' = kc
            · -- the partner would be kc itself: then j is an older considered
              -- edge with kc's pair, contradicting firstConsidered = none
              rw [hk'kc] at hpr'
              have hjdone : j ∈ done := by
                rcases List.mem_append.mp hj with h | h
                · exact h
                · simp at h
                  exact absurd (hk'kc.trans h.symm) hne
              obtain ⟨ej, hej, hskj⟩ := hcons
              exact absurd hpr'.symm
                (firstConsidered_none_spec es done (pairOf kc) hfc j hjdone ej hej hskj)
            · have hk'done : k' ∈ done := by
                rcases List.mem_append.mp hk' with h | h
                · exact h
                · simp at h; exact absurd h hk'kc
              have hjdone : j ∈ done := by
                rcases List.mem_append.mp hj with h | h
                · exact h
                · simp at h
                  rw [h] at hpr'
                  exact absurd hpr'
                    (firstConsidered_none_spec es done (pairOf kc) hfc k' hk'done e' hke' hsk')
              exact ⟨hjdone, hcons, k', e', hk'done, hne, hke', hsk', hpr'⟩
          · rintro ⟨hj, hcons, k', e', hk', hne, hke', hsk', hpr'⟩
            exact ⟨List.mem_append_left _ hj, hcons, k', e',
              List.mem_append_left _ hk', hne, hke', hsk', hpr'⟩
        have hpairs' : ∀ pr, dlookup (dinsert pairs (pairOf kc) kc) pr =
            firstConsidered es (done ++ [kc]) pr := by
          intro pr
          rw [firstConsidered_snoc]
          by_cases hpr : pr = pairOf kc
          · subst hpr
            rw [dlookup_dinsert_self, hfc]
            simp [hec, hskipf]
          · rw [dlookup_dinsert_ne pairs (pairOf kc) pr kc hpr, hpairs pr]
            cases hfc' : firstConsidered es done pr with
            | some k1 => rfl
            | none =>
              simp only [hec]
              exact (if_neg (fun hcon : sharedSkip ec = false ∧ pairOf kc = pr => hpr hcon.2.symm)).symm
        have := sharedRefsGo_spec rest (done ++ [kc]) es es'
          (dinsert pairs (pairOf kc) kc)
          (by rw [hks, hsplit]) hnd
          (fun j ej hj => ⟨fun hm => (hes j ej hj).1 ((hmark_same j).mp hm),
                           fun hm => (hes j ej hj).2 (fun hmm => hm ((hmark_same j).mpr hmm))⟩)
          hpairs' k e hk
        rw [hsplit] at *
        exact this

/-- C5 counterexample: the shared-reference pass does not exclude edges
with no originating field.  In es5 a wildcard edge (originating field
None, not a self-referencing back reference, unmarked on entry) shares its
(origin, destination) pair with a many-valued reference edge, and the pass
marks the wildcard edge shares_references = true, contradicting the claim
that every edge with no originating field is excluded and never marked. -/
theorem c5_counterexample :
    e5a.originatingField = none ∧ e5a.self_referencing_back_reference = false ∧
    e5a.shares_references = false ∧
    (dlookup (sharedRefsPass es5) e5a.ekey).map Edge.shares_references = some true := by
  decide

/-- C5 (amended): the shared-reference pass groups edges by (originating
entity key, destination entity key), excluding self-referencing-back-
reference edges and edges whose originating field exists and is not
many-valued — edges with no originating field are considered, not
excluded.  For every stored edge, its flag after the pass is true exactly
when it was already true or the edge is considered and some other
considered edge shares its origin/destination pair; all other stored
data is unchanged, and excluded edges are never marked by the pass. -/
theorem c5_shared_reference_marking (es : List (EdgeKey × Edge))
    (hnd : (dkeys es).Nodup) (k : EdgeKey) (e : Edge) (hk : dlookup es k = some e) :
    ∃ e2, dlookup (sharedRefsPass es) k = some e2 ∧
      e2 = { e with shares_references := e2.shares_references } ∧
      (e2.shares_references = true ↔
        (e.shares_references = true ∨ (sharedSkip e = false ∧
          ∃ k' e', k' ≠ k ∧ dlookup es k' = some e' ∧ sharedSkip e' = false ∧
            pairOf k' = pairOf k))) := by
  have hspec := sharedRefsGo_spec (dkeys es) [] es es []
    (by simp) hnd
    (fun j ej hj => ⟨fun hm => absurd hm.1 (List.not_mem_nil j), fun _ => hj⟩)
    (fun pr => rfl) k e hk
  by_cases hm : markedIn es ([] ++ dkeys es) k
  · refine ⟨{ e with shares_references := true }, hspec.1 hm, rfl, ?_⟩
    constructor
    · intro _
      obtain ⟨hkm, ⟨ec, hec, hsk⟩, k', e', hk'm, hne, hke', hsk', hpr'⟩ := hm
      rw [hk] at hec
      cases hec
      exact Or.inr ⟨hsk, k', e', hne, hke', hsk', hpr'⟩
    · intro _; rfl
  · refine ⟨e, hspec.2 hm, rfl, ?_⟩
    constructor
    · intro h; exact Or.inl h
    · rintro (h | ⟨hsk, k', e', hne, hke', hsk', hpr'⟩)
      · exact h
      · exact absurd ⟨by simpa using mem_dkeys_of_dlookup hk, ⟨e, hk, hsk⟩,
          k', e', by simpa using mem_dkeys_of_dlookup hke', hne, hke', hsk', hpr'⟩ hm

/-- Witness for c5_shared_reference_marking: in es5 the many-valued
reference edge is marked because the wildcard edge shares its pair. -/
theorem c5_shared_reference_marking_witness :
    dlookup (sharedRefsPass es5) e5b.ekey = some { e5b with shares_references := true } := by
  obtain ⟨e2, h1, h2, h3⟩ := c5_shared_reference_marking es5 (by decide) e5b.ekey e5b (by decide)
  have ht : e2.shares_references = true :=
    h3.mpr (Or.inr ⟨by decide, e5a.ekey, e5a, by decide, by decide, by decide, rfl⟩)
  rw [h1, h2, ht]

/-! ## Plumbing lemmas for build_graph (used by C1) -/

theorem except_bind_ok {α β : Type} {x : Except String α} {f : α → Except String β} {c : β}
    (h : (x >>= f) = Except.ok c) : ∃ b, x = Except.ok b ∧ f b = Except.ok c := by
  cases x with
  | error e => simp [Bind.bind, Except.bind] at h
  | ok b => exact ⟨b, rfl, by simpa [Bind.bind, Except.bind] using h⟩

theorem dlookup_mem {κ β : Type} [DecidableEq κ] :
    ∀ {d : List (κ × β)} {k : κ} {v : β}, dlookup d k = some v → (k, v) ∈ d := by
  intro d
  induction d with
  | nil => intro k v h; simp [dlookup] at h
  | cons kv rest ih =>
    intro k v h
    obtain ⟨k₀, w⟩ := kv
    by_cases h0 : k₀ = k
    · subst h0
      rw [dlookup, if_pos rfl] at h
      cases h
      exact List.mem_cons_self _ _
    · rw [dlookup, if_neg h0] at h
      exact List.mem_cons_of_mem _ (ih h)

theorem dinsert_mem_forall {κ β : Type} [DecidableEq κ] (P : κ × β → Prop) :
    ∀ (d : List (κ × β)) (k : κ) (v : β),
    (∀ kv ∈ d, P kv) → P (k, v) → ∀ kv ∈ dinsert d k v, P kv
  | [], k, v, _, hp, kv, hkv => by
    simp [dinsert] at hkv
    exact hkv ▸ hp
  | (k₀, w) :: rest, k, v, hall, hp, kv, hkv => by
    by_cases h0 : k₀ = k
    · rw [dinsert, if_pos h0] at hkv
      rcases List.mem_cons.mp hkv with h | h
      · subst h; exact h0 ▸ hp
      · exact hall _ (List.mem_cons_of_mem _ h)
    · rw [dinsert, if_neg h0] at hkv
      rcases List.mem_cons.mp hkv with h | h
      · exact h ▸ hall _ (List.mem_cons_self _ _)
      · exact dinsert_mem_forall P rest k v (fun kv hkv => hall _ (List.mem_cons_of_mem _ hkv)) hp _ h

theorem isSome_dlookup_dinsert {κ β : Type} [DecidableEq κ]
    (d : List (κ × β)) (k : κ) (v : β) (j : κ) (h : (dlookup d j).isSome) :
    (dlookup (dinsert d k v) j).isSome := by
  by_cases hj : j = k
  · subst hj
    simp [dlookup_dinsert_self]
  · rwa [dlookup_dinsert_ne d k j v hj]

theorem edgesWF_add_edge (g : Graph) (e : Edge) (h : edgesWF g.edges) :
    edgesWF (add_edge g e).edges :=
  dinsert_mem_forall _ g.edges e.ekey e h rfl

theorem nodesWF_dinsert (nodes : List (String × GNode)) (k : String) (v : GNode)
    (h : nodesWF nodes) (hv : GNode.key v = k) : nodesWF (dinsert nodes k v) :=
  dinsert_mem_forall _ nodes k v h hv

theorem isDerivedAt_dinsert_derived (nodes : List (String × GNode)) (k dk df : String)
    (h : isDerivedAt nodes k) : isDerivedAt (dinsert nodes dk (GNode.derivedNode dk df)) k := by
  by_cases hk : k = dk
  · subst hk
    exact ⟨df, dlookup_dinsert_self nodes k (GNode.derivedNode k df)⟩
  · obtain ⟨df0, h0⟩ := h
    exact ⟨df0, by rwa [dlookup_dinsert_ne nodes dk k (GNode.derivedNode dk df) hk]⟩

theorem dlookup_markSelfRef (es : List (EdgeKey × Edge)) (km k : EdgeKey) :
    dlookup (markSelfRef es km) k =
      (dlookup es k).map
        (fun e => if k = km then { e with self_referencing_back_reference := true } else e) := by
  induction es with
  | nil => simp [markSelfRef, dlookup]
  | cons kv rest ih =>
    obtain ⟨k₀, e₀⟩ := kv
    have hstep : markSelfRef ((k₀, e₀) :: rest) km =
        (if k₀ = km then (k₀, { e₀ with self_referencing_back_reference := true }) else (k₀, e₀)) ::
          markSelfRef rest km := by
      simp [markSelfRef]
    rw [hstep]
    by_cases hm : k₀ = km
    · rw [if_pos hm]
      by_cases h0 : k₀ = k
      · subst h0
        rw [dlookup, if_pos rfl, dlookup, if_pos rfl]
        simp [hm]
      · rw [dlookup, if_neg h0, dlookup, if_neg h0, ih]
    · rw [if_neg hm]
      by_cases h0 : k₀ = k
      · subst h0
        rw [dlookup, if_pos rfl, dlookup, if_pos rfl]
        simp [hm]
      · rw [dlookup, if_neg h0, dlookup, if_neg h0, ih]

theorem edgesWF_markSelfRef (es : List (EdgeKey × Edge)) (km : EdgeKey) (h : edgesWF es) :
    edgesWF (markSelfRef es km) := by
  intro kv hkv
  rw [markSelfRef] at hkv
  obtain ⟨kv₀, hkv₀, rfl⟩ := List.mem_map.mp hkv
  by_cases hk : kv₀.1 = km
  · rw [if_pos hk]
    exact h kv₀ hkv₀
  · rw [if_neg hk]
    exact h kv₀ hkv₀

theorem edgesWF_markShares (es : List (EdgeKey × Edge)) (km : EdgeKey) (h : edgesWF es) :
    edgesWF (markShares es km) := by
  intro kv hkv
  rw [markShares] at hkv
  obtain ⟨kv₀, hkv₀, rfl⟩ := List.mem_map.mp hkv
  by_cases hk : kv₀.1 = km
  · rw [if_pos hk]
    exact h kv₀ hkv₀
  · rw [if_neg hk]
    exact h kv₀ hkv₀

theorem isSome_markSelfRef (es : List (EdgeKey × Edge)) (km j : EdgeKey)
    (h : (dlookup es j).isSome) : (dlookup (markSelfRef es km) j).isSome := by
  rw [dlookup_markSelfRef]
  cases hjl : dlookup es j with
  | none => rw [hjl] at h; simp at h
  | some e => rfl

theorem isSome_markShares (es : List (EdgeKey × Edge)) (km j : EdgeKey)
    (h : (dlookup es j).isSome) : (dlookup (markShares es km) j).isSome := by
  rw [dlookup_markShares]
  cases hjl : dlookup es j with
  | none => rw [hjl] at h; simp at h
  | some e => rfl

theorem selfRefsGo_preserves :
    ∀ (ks : List EdgeKey) (es : List (EdgeKey × Edge)) (trips : List (TripKey × EdgeKey))
      (es' : List (EdgeKey × Edge)), selfRefsGo ks es trips = Except.ok es' →
    (∀ j, (dlookup es j).isSome → (dlookup es' j).isSome) ∧ (edgesWF es → edgesWF es')
  | [], es, trips, es', h => by
    rw [selfRefsGo] at h
    cases h
    exact ⟨fun j hj => hj, fun h => h⟩
  | k :: rest, es, trips, es', h => by
    cases hke : dlookup es k with
    | none => simp [selfRefsGo, hke] at h
    | some e =>
      cases hcol : e.column_name with
      | error s => simp [selfRefsGo, hke, hcol, bind, Except.bind] at h
      | ok col =>
        simp only [selfRefsGo, hke, hcol, bind, Except.bind] at h
        cases htr : dlookup trips (k.1, col, k.2.2) with
        | none =>
          simp only [htr] at h
          exact selfRefsGo_preserves rest es _ es' h
        | some k0 =>
          simp only [htr] at h
          cases hke0 : dlookup es k0 with
          | none => simp [hke0] at h
          | some e0 =>
            simp only [hke0] at h
            cases hb : e.is_back_reference with
            | error s => simp [hb, bind, Except.bind] at h
            | ok b =>
              cases hb0 : e0.is_back_reference with
              | error s => simp [hb, hb0, bind, Except.bind] at h
              | ok b0 =>
                simp only [hb, hb0, bind, Except.bind] at h
                by_cases hc1 : (b && !b0) = true
                · rw [if_pos hc1] at h
                  obtain ⟨hp, hwf⟩ := selfRefsGo_preserves rest _ _ es' h
                  exact ⟨fun j hj => hp j (isSome_markSelfRef es k j hj),
                         fun hw => hwf (edgesWF_markSelfRef es k hw)⟩
                · rw [if_neg hc1] at h
                  by_cases hc2 : (b0 && !b) = true
                  · rw [if_pos hc2] at h
                    obtain ⟨hp, hwf⟩ := selfRefsGo_preserves rest _ _ es' h
                    exact ⟨fun j hj => hp j (isSome_markSelfRef es k0 j hj),
                           fun hw => hwf (edgesWF_markSelfRef es k0 hw)⟩
                  · rw [if_neg hc2] at h
                    exact selfRefsGo_preserves rest es _ es' h

theorem sharedRefsGo_preserves :
    ∀ (ks : List EdgeKey) (es : List (EdgeKey × Edge))
      (pairs : List ((String × String) × EdgeKey)),
    (∀ j, (dlookup es j).isSome → (dlookup (sharedRefsGo ks es pairs) j).isSome) ∧
    (edgesWF es → edgesWF (sharedRefsGo ks es pairs))
  | [], es, pairs => by
    rw [sharedRefsGo]
    exact ⟨fun j hj => hj, fun h => h⟩
  | k :: rest, es, pairs => by
    cases hke : dlookup es k with
    | none =>
      simp only [sharedRefsGo, hke]
      exact sharedRefsGo_preserves rest es pairs
    | some e =>
      by_cases hsk : sharedSkip e = true
      · simp only [sharedRefsGo, hke, if_pos hsk]
        exact sharedRefsGo_preserves rest es pairs
      · cases hpr : dlookup pairs (k.1, k.2.2) with
        | some k0 =>
          simp only [sharedRefsGo, hke, if_neg hsk, hpr]
          obtain ⟨hp, hwf⟩ := sharedRefsGo_preserves rest (markShares (markShares es k) k0) pairs
          exact ⟨fun j hj => hp j (isSome_markShares _ k0 j (isSome_markShares es k j hj)),
                 fun hw => hwf (edgesWF_markShares _ k0 (edgesWF_markShares es k hw))⟩
        | none =>
          simp only [sharedRefsGo, hke, if_neg hsk, hpr]
          exact sharedRefsGo_preserves rest es _

theorem foldlM_ok_split {α γ : Type} (f : γ → α → Except String γ) :
    ∀ (l1 : List α) (x : α) (l2 : List α) (g g' : γ),
    (l1 ++ x :: l2).foldlM f g = Except.ok g' →
    ∃ ga gb, l1.foldlM f g = Except.ok ga ∧ f ga x = Except.ok gb ∧
      l2.foldlM f gb = Except.ok g'
  | [], x, l2, g, g', h => by
    rw [List.nil_append, List.foldlM_cons] at h
    obtain ⟨gb, h1, h2⟩ := except_bind_ok h
    exact ⟨g, gb, rfl, h1, h2⟩
  | a :: l1, x, l2, g, g', h => by
    rw [List.cons_append, List.foldlM_cons] at h
    obtain ⟨ga0, h1, h2⟩ := except_bind_ok h
    obtain ⟨ga, gb, h3, h4, h5⟩ := foldlM_ok_split f l1 x l2 ga0 g' h2
    refine ⟨ga, gb, ?_, h4, h5⟩
    rw [List.foldlM_cons, h1]
    simpa using h3

theorem presv_refl (g : Graph) : presv g g :=
  ⟨fun h => h, fun h => h, fun _ hj => hj, fun _ hk => hk⟩

theorem presv_trans {g1 g2 g3 : Graph} (h12 : presv g1 g2) (h23 : presv g2 g3) :
    presv g1 g3 :=
  ⟨fun h => h23.1 (h12.1 h), fun h => h23.2.1 (h12.2.1 h),
   fun j hj => h23.2.2.1 j (h12.2.2.1 j hj), fun k hk => h23.2.2.2 k (h12.2.2.2 k hk)⟩

theorem presv_add_edge (g : Graph) (e : Edge) : presv g (add_edge g e) :=
  ⟨fun h => h, fun h => edgesWF_add_edge g e h,
   fun j hj => isSome_dlookup_dinsert g.edges e.ekey e j hj, fun _ hk => hk⟩

theorem presv_derived_insert (g : Graph) (dk d : String) :
    presv g { g with nodes := dinsert g.nodes dk (GNode.derivedNode dk d) } :=
  ⟨fun h => nodesWF_dinsert g.nodes dk (GNode.derivedNode dk d) h rfl, fun h => h,
   fun _ hj => hj, fun k hk => isDerivedAt_dinsert_derived g.nodes k dk d hk⟩

theorem polyFold_presv (dkey : String) (f : Field) :
    ∀ (ks : List String) (g g' : Graph),
    ks.foldlM (polyTargetEdge dkey f) g = Except.ok g' →
    presv g g' ∧ g'.nodes = g.nodes
  | [], g, g', h => by
    rw [List.foldlM_nil] at h
    cases h
    exact ⟨presv_refl g, rfl⟩
  | k :: rest, g, g', h => by
    rw [List.foldlM_cons] at h
    obtain ⟨gb, h1, h2⟩ := except_bind_ok h
    cases hlk : dlookup g.nodes k with
    | none => rw [polyTargetEdge, hlk] at h1; simp at h1
    | some nd =>
      rw [polyTargetEdge, hlk] at h1
      cases h1
      obtain ⟨hp, hn⟩ := polyFold_presv dkey f rest _ g' h2
      exact ⟨presv_trans (presv_add_edge g _) hp, hn⟩

theorem polyFold_adds (dkey : String) (f : Field) :
    ∀ (ks : List String) (g g' : Graph),
    ks.foldlM (polyTargetEdge dkey f) g = Except.ok g' →
    nodesWF g.nodes → ∀ t ∈ ks, (dlookup g'.edges (dkey, f.key, t)).isSome
  | [], _, _, _, _, t, ht => absurd ht (List.not_mem_nil t)
  | k :: rest, g, g', h, hwf, t, ht => by
    rw [List.foldlM_cons] at h
    obtain ⟨gb, h1, h2⟩ := except_bind_ok h
    cases hlk : dlookup g.nodes k with
    | none => rw [polyTargetEdge, hlk] at h1; simp at h1
    | some nd =>
      rw [polyTargetEdge, hlk] at h1
      cases h1
      rcases List.mem_cons.mp ht with rfl | ht'
      · have hkey : GNode.key nd = t := hwf (t, nd) (dlookup_mem hlk)
        have hin : (dlookup (add_edge g
            { originatingNodeKey := dkey, originatingIsParsed := false,
              originatingField := some f, destinationKey := GNode.key nd }).edges
            (dkey, f.key, t)).isSome := by
          rw [hkey]
          have : dlookup (add_edge g
              { originatingNodeKey := dkey, originatingIsParsed := false,
                originatingField := some f, destinationKey := t }).edges
              (dkey, f.key, t) = some
              { originatingNodeKey := dkey, originatingIsParsed := false,
                originatingField := some f, destinationKey := t } :=
            dlookup_dinsert_self g.edges _ _
          rw [this]
          rfl
        exact (polyFold_presv dkey f rest _ g' h2).1.2.2.1 _ hin
      · exact polyFold_adds dkey f rest _ g' h2 hwf t ht'

theorem addFieldEdges_presv (g : Graph) (n : PNode) (f : Field) (g' : Graph)
    (h : addFieldEdges g n f = Except.ok g') : presv g g' := by
  cases hv : f.variant with
  | primitive u i =>
    simp only [addFieldEdges, hv] at h
    cases h
    exact presv_refl g
  | code os =>
    simp only [addFieldEdges, hv] at h
    cases h
    exact presv_refl g
  | xhtml =>
    simp only [addFieldEdges, hv] at h
    cases h
    exact presv_refl g
  | exclusive fk =>
    simp only [addFieldEdges, hv] at h
    by_cases hm : f.is_max_one = true
    · rw [if_pos hm] at h
      cases hlk : dlookup g.nodes fk with
      | none => rw [hlk] at h; simp at h
      | some nd =>
        rw [hlk] at h
        cases h
        exact presv_add_edge g _
    · rw [if_neg hm] at h
      cases hlk : dlookup g.nodes fk with
      | none => rw [hlk] at h; simp at h
      | some nd =>
        rw [hlk] at h
        cases h
        exact presv_add_edge g _
  | reference ks =>
    simp only [addFieldEdges, hv] at h
    by_cases hc1 : (f.is_max_one && !f.is_polymorphic) = true
    · rw [if_pos hc1] at h
      cases ks with
      | nil => simp at h
      | cons k0 _ =>
        cases hlk : dlookup g.nodes k0 with
        | none => simp [hlk] at h
        | some nd =>
          simp only [hlk] at h
          cases h
          exact presv_add_edge g _
    · rw [if_neg hc1] at h
      by_cases hc2 : (f.is_many_to_many && !f.is_polymorphic) = true
      · rw [if_pos hc2] at h
        cases ks with
        | nil => simp at h
        | cons k0 _ =>
          cases hlk : dlookup g.nodes k0 with
          | none => simp [hlk] at h
          | some nd =>
            simp only [hlk] at h
            cases h
            exact presv_add_edge g _
      · rw [if_neg hc2] at h
        obtain ⟨g3, hfold, hrest⟩ := except_bind_ok h
        have hp1 := presv_derived_insert g (n.key ++ "." ++ f.key) n.key
        have hp2 := (polyFold_presv (n.key ++ "." ++ f.key) f ks _ g3 hfold).1
        by_cases hm : f.is_max_one = true
        · rw [if_pos hm] at hrest
          cases hrest
          exact presv_trans hp1 (presv_trans hp2 (presv_add_edge g3 _))
        · rw [if_neg hm] at hrest
          cases hrest
          exact presv_trans hp1 (presv_trans hp2 (presv_add_edge g3 _))

theorem addFieldEdges_poly (g : Graph) (n : PNode) (f : Field) (ks : List String) (g' : Graph)
    (hv : f.variant = FieldVariant.reference ks) (hp : 1 < ks.length)
    (hwf : nodesWF g.nodes) (h : addFieldEdges g n f = Except.ok g') :
    isDerivedAt g'.nodes (n.key ++ "." ++ f.key) ∧
    (∀ t ∈ ks, (dlookup g'.edges (n.key ++ "." ++ f.key, f.key, t)).isSome) ∧
    (f.is_max_one = true →
      (dlookup g'.edges (n.key, f.key, n.key ++ "." ++ f.key)).isSome) ∧
    (f.is_max_one = false →
      (dlookup g'.edges (n.key ++ "." ++ f.key, f.key, n.key)).isSome) := by
  have hpoly : f.is_polymorphic = true := by
    rw [Field.is_polymorphic, hv]
    exact decide_eq_true hp
  have hc1 : ¬ ((f.is_max_one && !f.is_polymorphic) = true) := by
    rw [hpoly]
    simp
  have hc2 : ¬ ((f.is_many_to_many && !f.is_polymorphic) = true) := by
    rw [hpoly]
    simp
  simp only [addFieldEdges, hv, if_neg hc1, if_neg hc2] at h
  obtain ⟨g3, hfold, hrest⟩ := except_bind_ok h
  have hg2wf : nodesWF (dinsert g.nodes (n.key ++ "." ++ f.key)
      (GNode.derivedNode (n.key ++ "." ++ f.key) n.key)) :=
    nodesWF_dinsert g.nodes _ _ hwf rfl
  have hder2 : isDerivedAt (dinsert g.nodes (n.key ++ "." ++ f.key)
      (GNode.derivedNode (n.key ++ "." ++ f.key) n.key)) (n.key ++ "." ++ f.key) :=
    ⟨n.key, dlookup_dinsert_self g.nodes _ _⟩
  have hp3 := (polyFold_presv (n.key ++ "." ++ f.key) f ks _ g3 hfold).1
  have hadds := polyFold_adds (n.key ++ "." ++ f.key) f ks _ g3 hfold hg2wf
  by_cases hm : f.is_max_one = true
  · rw [if_pos hm] at hrest
    cases hrest
    refine ⟨(presv_add_edge g3 _).2.2.2 _ (hp3.2.2.2 _ hder2), ?_, ?_, ?_⟩
    · intro t ht
      exact (presv_add_edge g3 _).2.2.1 _ (hadds t ht)
    · intro _
      have : dlookup (add_edge g3
          { originatingNodeKey := n.key, originatingIsParsed := true,
            originatingField := some f, destinationKey := n.key ++ "." ++ f.key }).edges
          (n.key, f.key, n.key ++ "." ++ f.key) = some
          { originatingNodeKey := n.key, originatingIsParsed := true,
            originatingField := some f, destinationKey := n.key ++ "." ++ f.key } :=
        dlookup_dinsert_self g3.edges _ _
      rw [this]
      rfl
    · intro hm'
      rw [hm] at hm'
      exact absurd hm' (by decide)
  · rw [if_neg hm] at hrest
    cases hrest
    refine ⟨(presv_add_edge g3 _).2.2.2 _ (hp3.2.2.2 _ hder2), ?_, ?_, ?_⟩
    · intro t ht
      exact (presv_add_edge g3 _).2.2.1 _ (hadds t ht)
    · intro hm'
      exact absurd hm' hm
    · intro _
      have : dlookup (add_edge g3
          { originatingNodeKey := n.key ++ "." ++ f.key, originatingIsParsed := false,
            originatingField := some f, destinationKey := n.key }).edges
          (n.key ++ "." ++ f.key, f.key, n.key) = some
          { originatingNodeKey := n.key ++ "." ++ f.key, originatingIsParsed := false,
            originatingField := some f, destinationKey := n.key } :=
        dlookup_dinsert_self g3.edges _ _
      rw [this]
      rfl

theorem fieldFold_presv (n : PNode) :
    ∀ (fs : List Field) (g g' : Graph),
    fs.foldlM (fun g f => addFieldEdges g n f) g = Except.ok g' → presv g g'
  | [], g, g', h => by
    rw [List.foldlM_nil] at h
    cases h
    exact presv_refl g
  | f :: rest, g, g', h => by
    rw [List.foldlM_cons] at h
    obtain ⟨gb, h1, h2⟩ := except_bind_ok h
    exact presv_trans (addFieldEdges_presv g n f gb h1) (fieldFold_presv n rest gb g' h2)

theorem nodeFold_presv :
    ∀ (cps : List PNode) (g g' : Graph),
    cps.foldlM (fun g n =>
      ((fhir_fields n).map Prod.snd).foldlM (fun g f => addFieldEdges g n f) g) g =
      Except.ok g' → presv g g'
  | [], g, g', h => by
    rw [List.foldlM_nil] at h
    cases h
    exact presv_refl g
  | n :: rest, g, g', h => by
    rw [List.foldlM_cons] at h
    obtain ⟨gb, h1, h2⟩ := except_bind_ok h
    exact presv_trans (fieldFold_presv n _ g gb h1) (nodeFold_presv rest gb g' h2)

theorem universalEdges_presv :
    ∀ (cps : List PNode) (g : Graph),
    presv g (universalEdges g cps) ∧ (universalEdges g cps).nodes = g.nodes
  | [], g => ⟨presv_refl g, rfl⟩
  | n :: rest, g => by
    have hstep : universalEdges g (n :: rest) =
        universalEdges (add_edge g
          { originatingNodeKey := "Any", originatingIsParsed := false,
            originatingField := none, destinationKey := n.key }) rest := rfl
    rw [hstep]
    obtain ⟨hp, hn⟩ := universalEdges_presv rest (add_edge g
      { originatingNodeKey := "Any", originatingIsParsed := false,
        originatingField := none, destinationKey := n.key })
    exact ⟨presv_trans (presv_add_edge g _) hp, hn⟩

/-- C1: in any successful run of build_graph, for every polymorphic
reference field f (two or more possible targets) of a concrete parsed
entity n, the final graph holds a synthesized DerivedNode at key
n.key ++ "." ++ f.key, one edge from that junction key to every possible
target, and one edge between the junction and the owner whose direction
follows the field's max-ordinality: owner-to-junction when is_max_one,
junction-to-owner otherwise.  (Each stored edge's endpoints are pinned by
its identity triple, which the whole build preserves.) -/
theorem c1_polymorphic_reference_edges
    (g g1 gf : Graph) (n : PNode) (f : Field) (ks : List String)
    (h1 : buildPhase1 g = Except.ok g1)
    (hb : build_graph g = Except.ok gf)
    (hn : n ∈ concreteParsedNodes g1)
    (hf : f ∈ (fhir_fields n).map Prod.snd)
    (hv : f.variant = FieldVariant.reference ks)
    (hp : 1 < ks.length)
    (hnw : nodesWF g1.nodes)
    (hew : edgesWF g1.edges) :
    (∃ df, dlookup gf.nodes (n.key ++ "." ++ f.key) =
        some (GNode.derivedNode (n.key ++ "." ++ f.key) df)) ∧
    (∀ t ∈ ks, ∃ e : Edge,
        dlookup gf.edges (n.key ++ "." ++ f.key, f.key, t) = some e ∧
        e.originatingNodeKey = n.key ++ "." ++ f.key ∧ e.destinationKey = t) ∧
    (f.is_max_one = true → ∃ e : Edge,
        dlookup gf.edges (n.key, f.key, n.key ++ "." ++ f.key) = some e ∧
        e.originatingNodeKey = n.key ∧ e.destinationKey = n.key ++ "." ++ f.key) ∧
    (f.is_max_one = false → ∃ e : Edge,
        dlookup gf.edges (n.key ++ "." ++ f.key, f.key, n.key) = some e ∧
        e.originatingNodeKey = n.key ++ "." ++ f.key ∧ e.destinationKey = n.key) := by
  simp only [build_graph, h1, bind, Except.bind] at hb
  obtain ⟨g3, hfe, hb⟩ := except_bind_ok hb
  obtain ⟨es4, hes, hb2⟩ := except_bind_ok hb
  have hgf : gf = { g3 with edges := sharedRefsPass es4 } := (Except.ok.inj hb2).symm
  -- split phase 3 at the entity n, then at the field f
  obtain ⟨l1, l2, hcps⟩ := List.append_of_mem hn
  rw [fieldEdges, hcps] at hfe
  -- phase 2 preserves everything and leaves the nodes untouched
  obtain ⟨hp2, hn2⟩ := universalEdges_presv (l1 ++ n :: l2) g1
  obtain ⟨ga, gb, hfa, hstep, hfb⟩ := foldlM_ok_split _ l1 n l2 _ g3 hfe
  obtain ⟨m1, m2, hfs⟩ := List.append_of_mem hf
  rw [hfs] at hstep
  obtain ⟨gc, gd, hma, hmid, hmb⟩ := foldlM_ok_split _ m1 f m2 _ gb hstep
  -- state reaching the decisive addFieldEdges call
  have hpa : presv (universalEdges g1 (l1 ++ n :: l2)) ga := nodeFold_presv l1 _ ga hfa
  have hpc : presv ga gc := fieldFold_presv n m1 ga gc hma
  have hnwc : nodesWF gc.nodes :=
    hpc.1 (hpa.1 (by rw [hn2]; exact hnw))
  obtain ⟨hder, hfan, hone, hmany⟩ := addFieldEdges_poly gc n f ks gd hv hp hnwc hmid
  -- everything after the decisive call preserves what it established
  have hpmid : presv gc gd := addFieldEdges_presv gc n f gd hmid
  have hpd : presv gd g3 :=
    presv_trans (fieldFold_presv n m2 gd gb hmb) (nodeFold_presv l2 gb g3 hfb)
  obtain ⟨hsp, hswf⟩ := selfRefsGo_preserves (dkeys g3.edges) g3.edges [] es4 hes
  have hshp := sharedRefsGo_preserves (dkeys es4) es4 []
  -- final edge-key integrity
  have hewf : edgesWF (sharedRefsPass es4) := by
    rw [sharedRefsPass]
    exact hshp.2 (hswf (hpd.2.1 (hpmid.2.1 (hpc.2.1 (hpa.2.1 (hp2.2.1 hew))))))
  have hkeep : ∀ j, (dlookup gd.edges j).isSome → (dlookup gf.edges j).isSome := by
    intro j hj
    rw [hgf]
    exact hshp.1 j (hsp j (hpd.2.2.1 j hj))
  have hpin : ∀ a b c, (dlookup gf.edges (a, b, c)).isSome →
      ∃ e : Edge, dlookup gf.edges (a, b, c) = some e ∧
        e.originatingNodeKey = a ∧ e.destinationKey = c := by
    intro a b c hj
    obtain ⟨e, he⟩ := Option.isSome_iff_exists.mp hj
    have hk : Edge.ekey e = (a, b, c) := by
      have hm := dlookup_mem he
      have := hewf ((a, b, c), e) (by rw [hgf] at hm; exact hm)
      exact this
    rw [Edge.ekey] at hk
    exact ⟨e, he, congrArg (fun p => p.1) hk,
      congrArg (fun p => p.2.2) hk⟩
  refine ⟨?_, ?_, ?_, ?_⟩
  · have : isDerivedAt gf.nodes (n.key ++ "." ++ f.key) := by
      rw [hgf]
      exact hpd.2.2.2 _ hder
    exact this
  · intro t ht
    exact hpin _ _ _ (hkeep _ (hfan t ht))
  · intro hm
    exact hpin _ _ _ (hkeep _ (hone hm))
  · intro hm
    exact hpin _ _ _ (hkeep _ (hmany hm))

/-- Witness for c1_polymorphic_reference_edges: on gC1 (entity A with the
single-valued polymorphic reference field f targeting P and G) the build
succeeds and synthesizes DerivedNode "A.f", the fan-out edges to P and G,
and the owner edge from A to "A.f". -/
theorem c1_polymorphic_reference_edges_witness :
    (∃ df, dlookup gfC1.nodes (nC1.key ++ "." ++ fC1.key) =
        some (GNode.derivedNode (nC1.key ++ "." ++ fC1.key) df)) ∧
    (∀ t ∈ ["P", "G"], ∃ e : Edge,
        dlookup gfC1.edges (nC1.key ++ "." ++ fC1.key, fC1.key, t) = some e ∧
        e.originatingNodeKey = nC1.key ++ "." ++ fC1.key ∧ e.destinationKey = t) ∧
    (fC1.is_max_one = true → ∃ e : Edge,
        dlookup gfC1.edges (nC1.key, fC1.key, nC1.key ++ "." ++ fC1.key) = some e ∧
        e.originatingNodeKey = nC1.key ∧ e.destinationKey = nC1.key ++ "." ++ fC1.key) ∧
    (fC1.is_max_one = false → ∃ e : Edge,
        dlookup gfC1.edges (nC1.key ++ "." ++ fC1.key, fC1.key, nC1.key) = some e ∧
        e.originatingNodeKey = nC1.key ++ "." ++ fC1.key ∧ e.destinationKey = nC1.key) :=
  c1_polymorphic_reference_edges gC1 g1C1 gfC1 nC1 fC1 ["P", "G"]
    (by rfl) (by rfl) (by decide) (by decide) (by rfl) (by decide)
    (by unfold nodesWF; decide) (by unfold edgesWF; decide)

/-! ## Set-emulation lemmas and the writable-set traversal (C2) -/

theorem sinsert_mem (s : List String) (k x : String) (h : x ∈ s) : x ∈ sinsert s k := by
  rw [sinsert]
  by_cases hc : s.contains k = true
  · rwa [if_pos hc]
  · rw [if_neg hc]
    exact List.mem_append_left _ h

theorem sinsert_self (s : List String) (k : String) : k ∈ sinsert s k := by
  rw [sinsert]
  by_cases hc : s.contains k = true
  · rw [if_pos hc]
    exact List.elem_iff.mp hc
  · rw [if_neg hc]
    exact List.mem_append_right _ (List.mem_singleton.mpr rfl)

theorem sunion_mem_left : ∀ (b a : List String) (x : String), x ∈ a → x ∈ sunion a b
  | [], _, _, h => h
  | y :: b, a, x, h => sunion_mem_left b (sinsert a y) x (sinsert_mem a y x h)

theorem sunion_mem_right : ∀ (b a : List String) (x : String), x ∈ b → x ∈ sunion a b
  | y :: b, a, x, h => by
    rcases List.mem_cons.mp h with rfl | h'
    · exact sunion_mem_left b (sinsert a x) x (sinsert_self a x)
    · exact sunion_mem_right b (sinsert a y) x h'

theorem ClosedAt_mono (g : Graph) (X : String) (r1 v1 r2 v2 : List String)
    (hr : ∀ x ∈ r1, x ∈ r2) (hv : ∀ x ∈ v1, x ∈ v2) (h : ClosedAt g X r1 v1) :
    ClosedAt g X r2 v2 := by
  intro p hp f b hf hfv hd
  obtain ⟨h1, h2⟩ := h p hp f b hf hfv hd
  exact ⟨hr b h1, fun hpk => hv b (h2 hpk)⟩

theorem getSubnodes_zero (g : Graph) (vis : List String) (key : String) :
    getSubnodes 0 g vis key = Except.error "fuel exhausted" := rfl

theorem getSubnodes_succ (m : Nat) (g : Graph) (vis : List String) (key : String) :
    getSubnodes (m + 1) g vis key =
      (match dlookup g.nodes key with
      | some (GNode.parsedNode p) =>
        if vis.contains key then Except.ok ([], vis)
        else (relationship_fields p).foldlM (subStep g (getSubnodes m g)) ([], key :: vis)
      | some _ => Except.ok ([], vis)
      | none => Except.error "missing node") := rfl

theorem subFold_spec (g : Graph)
    (rec : List String → String → Except String (List String × List String))
    (hrec : ∀ (vis : List String) (key : String) (res vis' : List String),
      rec vis key = Except.ok (res, vis') →
      (∀ x ∈ vis, x ∈ vis') ∧ (isParsedKey g key → key ∈ vis') ∧
      (∀ X, X ∈ vis' → X ∈ vis ∨ ClosedAt g X res vis')) :
    ∀ (fs : List Field) (acc out : List String × List String),
    fs.foldlM (subStep g rec) acc = Except.ok out →
    (∀ x ∈ acc.1, x ∈ out.1) ∧ (∀ x ∈ acc.2, x ∈ out.2) ∧
    (∀ X, X ∈ out.2 → X ∈ acc.2 ∨ ClosedAt g X out.1 out.2) ∧
    (∀ f b, f ∈ fs → f.variant = FieldVariant.exclusive b →
      b.toList.contains '.' = true → b ∈ out.1 ∧ (isParsedKey g b → b ∈ out.2))
  | [], acc, out, h => by
    rw [List.foldlM_nil] at h
    cases h
    exact ⟨fun x hx => hx, fun x hx => hx, fun X hX => Or.inl hX,
           fun f b hf => absurd hf (List.not_mem_nil f)⟩
  | f :: fs, acc, out, h => by
    rw [List.foldlM_cons] at h
    obtain ⟨acc1, h1, h2⟩ := except_bind_ok h
    have ih := subFold_spec g rec hrec fs acc1 out h2
    cases hfv : f.variant with
    | exclusive fk =>
      simp only [subStep, hfv] at h1
      by_cases hd : fk.toList.contains '.' = true
      · rw [if_pos hd] at h1
        cases hlk : dlookup g.nodes fk with
        | none => rw [hlk] at h1; simp at h1
        | some nd =>
          rw [hlk] at h1
          obtain ⟨r, hr, h1'⟩ := except_bind_ok h1
          obtain ⟨r1, r2⟩ := r
          have hacc1 : acc1 = (sinsert (sunion acc.1 r1) fk, r2) := (Except.ok.inj h1').symm
          subst hacc1
          obtain ⟨hm, hk, hcl⟩ := hrec acc.2 fk r1 r2 hr
          refine ⟨?_, ?_, ?_, ?_⟩
          · intro x hx
            exact ih.1 x (sinsert_mem _ fk x (sunion_mem_left r1 acc.1 x hx))
          · intro x hx
            exact ih.2.1 x (hm x hx)
          · intro X hX
            rcases ih.2.2.1 X hX with hX' | hcl'
            · rcases hcl X hX' with hX'' | hclX
              · exact Or.inl hX''
              · refine Or.inr (ClosedAt_mono g X r1 r2 out.1 out.2 ?_ ih.2.1 hclX)
                intro x hx
                exact ih.1 x (sinsert_mem _ fk x (sunion_mem_right r1 acc.1 x hx))
            · exact Or.inr hcl'
          · intro f' b hf' hfv' hd'
            rcases List.mem_cons.mp hf' with rfl | hf''
            · rw [hfv] at hfv'
              have hb : fk = b := FieldVariant.exclusive.inj hfv'
              subst hb
              exact ⟨ih.1 fk (sinsert_self _ fk), fun hpk => ih.2.1 fk (hk hpk)⟩
            · exact ih.2.2.2 f' b hf'' hfv' hd'
      · rw [if_neg hd] at h1
        cases h1
        refine ⟨ih.1, ih.2.1, ih.2.2.1, ?_⟩
        intro f' b hf' hfv' hd'
        rcases List.mem_cons.mp hf' with rfl | hf''
        · rw [hfv] at hfv'
          have hb : fk = b := FieldVariant.exclusive.inj hfv'
          subst hb
          exact absurd hd' hd
        · exact ih.2.2.2 f' b hf'' hfv' hd'
    | primitive u i =>
      simp only [subStep, hfv] at h1
      cases h1
      refine ⟨ih.1, ih.2.1, ih.2.2.1, ?_⟩
      intro f' b hf' hfv' hd'
      rcases List.mem_cons.mp hf' with rfl | hf''
      · rw [hfv] at hfv'
        exact FieldVariant.noConfusion hfv'
      · exact ih.2.2.2 f' b hf'' hfv' hd'
    | code os =>
      simp only [subStep, hfv] at h1
      cases h1
      refine ⟨ih.1, ih.2.1, ih.2.2.1, ?_⟩
      intro f' b hf' hfv' hd'
      rcases List.mem_cons.mp hf' with rfl | hf''
      · rw [hfv] at hfv'
        exact FieldVariant.noConfusion hfv'
      · exact ih.2.2.2 f' b hf'' hfv' hd'
    | xhtml =>
      simp only [subStep, hfv] at h1
      cases h1
      refine ⟨ih.1, ih.2.1, ih.2.2.1, ?_⟩
      intro f' b hf' hfv' hd'
      rcases List.mem_cons.mp hf' with rfl | hf''
      · rw [hfv] at hfv'
        exact FieldVariant.noConfusion hfv'
      · exact ih.2.2.2 f' b hf'' hfv' hd'
    | reference ks =>
      simp only [subStep, hfv] at h1
      cases h1
      refine ⟨ih.1, ih.2.1, ih.2.2.1, ?_⟩
      intro f' b hf' hfv' hd'
      rcases List.mem_cons.mp hf' with rfl | hf''
      · rw [hfv] at hfv'
        exact FieldVariant.noConfusion hfv'
      · exact ih.2.2.2 f' b hf'' hfv' hd'

theorem getSubnodes_spec :
    ∀ (fuel : Nat) (g : Graph) (vis : List String) (key : String) (res vis' : List String),
    getSubnodes fuel g vis key = Except.ok (res, vis') →
    (∀ x ∈ vis, x ∈ vis') ∧ (isParsedKey g key → key ∈ vis') ∧
    (∀ X, X ∈ vis' → X ∈ vis ∨ ClosedAt g X res vis')
  | 0, g, vis, key, res, vis', h => by
    rw [getSubnodes_zero] at h
    exact absurd h (by simp)
  | (m + 1), g, vis, key, res, vis', h => by
    rw [getSubnodes_succ] at h
    cases hlk : dlookup g.nodes key with
    | none => simp [hlk] at h
    | some nd =>
      cases nd with
      | parsedNode p =>
        simp only [hlk] at h
        by_cases hv : vis.contains key = true
        · rw [if_pos hv] at h
          cases h
          exact ⟨fun x hx => hx, fun _ => List.elem_iff.mp hv, fun X hX => Or.inl hX⟩
        · rw [if_neg hv] at h
          obtain ⟨c1, c2, c3, c4⟩ :=
            subFold_spec g (getSubnodes m g) (getSubnodes_spec m g)
              (relationship_fields p) ([], key :: vis) (res, vis') h
          refine ⟨?_, ?_, ?_⟩
          · intro x hx
            exact c2 x (List.mem_cons_of_mem key hx)
          · intro _
            exact c2 key (List.mem_cons_self key vis)
          · intro X hX
            rcases c3 X hX with hX' | hcl'
            · rcases List.mem_cons.mp hX' with rfl | hXv
              · refine Or.inr ?_
                intro p' hp' f b hf hfv hd
                have hpp : p' = p := by
                  rw [hlk] at hp'
                  exact (GNode.parsedNode.inj (Option.some.inj hp')).symm
                subst hpp
                exact c4 f b hf hfv hd
              · exact Or.inl hXv
            · exact Or.inr hcl'
      | anyNode =>
        simp only [hlk] at h
        cases h
        refine ⟨fun x hx => hx, ?_, fun X hX => Or.inl hX⟩
        intro hpk
        obtain ⟨q, hq⟩ := hpk
        rw [hlk] at hq
        exact GNode.noConfusion (Option.some.inj hq)
      | elementNode =>
        simp only [hlk] at h
        cases h
        refine ⟨fun x hx => hx, ?_, fun X hX => Or.inl hX⟩
        intro hpk
        obtain ⟨q, hq⟩ := hpk
        rw [hlk] at hq
        exact GNode.noConfusion (Option.some.inj hq)
      | derivedNode dk df =>
        simp only [hlk] at h
        cases h
        refine ⟨fun x hx => hx, ?_, fun X hX => Or.inl hX⟩
        intro hpk
        obtain ⟨q, hq⟩ := hpk
        rw [hlk] at hq
        exact GNode.noConfusion (Option.some.inj hq)

theorem wFold_spec (g : Graph) :
    ∀ (F : List String) (acc out : List String × List String),
    F.foldlM (wstep g) acc = Except.ok out →
    (∀ x ∈ acc.1, x ∈ out.1) ∧ (∀ x ∈ acc.2, x ∈ out.2) ∧
    (∀ X, X ∈ out.2 → X ∈ acc.2 ∨ ClosedAt g X out.1 out.2) ∧
    (∀ r ∈ F, r ∈ out.1 ∧ (isParsedKey g r → r ∈ out.2))
  | [], acc, out, h => by
    rw [List.foldlM_nil] at h
    cases h
    exact ⟨fun x hx => hx, fun x hx => hx, fun X hX => Or.inl hX,
           fun r hr => absurd hr (List.not_mem_nil r)⟩
  | r :: F, acc, out, h => by
    rw [List.foldlM_cons] at h
    obtain ⟨acc1, h1, h2⟩ := except_bind_ok h
    have ih := wFold_spec g F acc1 out h2
    cases hlk : dlookup g.nodes r with
    | none => rw [wstep, hlk] at h1; simp at h1
    | some nd =>
      rw [wstep, hlk] at h1
      obtain ⟨s, hs, h1'⟩ := except_bind_ok h1
      obtain ⟨s1, s2⟩ := s
      have hacc1 : acc1 = (sinsert (sunion acc.1 s1) r, s2) := (Except.ok.inj h1').symm
      subst hacc1
      obtain ⟨hm, hk, hcl⟩ := getSubnodes_spec (g.nodes.length + 1) g acc.2 r s1 s2 hs
      refine ⟨?_, ?_, ?_, ?_⟩
      · intro x hx
        exact ih.1 x (sinsert_mem _ r x (sunion_mem_left s1 acc.1 x hx))
      · intro x hx
        exact ih.2.1 x (hm x hx)
      · intro X hX
        rcases ih.2.2.1 X hX with hX' | hcl'
        · rcases hcl X hX' with hX'' | hclX
          · exact Or.inl hX''
          · refine Or.inr (ClosedAt_mono g X s1 s2 out.1 out.2 ?_ ih.2.1 hclX)
            intro x hx
            exact ih.1 x (sinsert_mem _ r x (sunion_mem_right s1 acc.1 x hx))
        · exact Or.inr hcl'
      · intro r' hr'
        rcases List.mem_cons.mp hr' with rfl | hr''
        · exact ⟨ih.1 r' (sinsert_self _ r'), fun hpk => ih.2.1 r' (hk hpk)⟩
        · exact ih.2.2.2 r' hr''

theorem reach_src_parsed (g : Graph) :
    ∀ {a t : String}, SubReach g a t → isParsedKey g a := by
  intro a t hr
  induction hr with
  | step b p f ha hf hv hd => exact ⟨p, ha⟩
  | tail b c p f hr hb hf hv hd ih => exact ih

theorem reach_in (g : Graph) (ns vis : List String)
    (hcl : ∀ X, X ∈ vis → ClosedAt g X ns vis) :
    ∀ {a t : String}, SubReach g a t → a ∈ vis →
      t ∈ ns ∧ (isParsedKey g t → t ∈ vis) := by
  intro a t hr
  induction hr with
  | step b p f ha hf hv hd =>
    intro hav
    exact hcl a hav p ha f b hf hv hd
  | tail b c p f hr hb hf hv hd ih =>
    intro hav
    have hbv : b ∈ vis := (ih hav).2 ⟨p, hb⟩
    exact hcl b hbv p hb f c hf hv hd

theorem foldl_mem_mono {α : Type} (step : List String → α → List String)
    (hstep : ∀ (ns : List String) (a : α) (x : String), x ∈ ns → x ∈ step ns a) :
    ∀ (l : List α) (ns : List String) (x : String), x ∈ ns → x ∈ l.foldl step ns
  | [], _, _, h => h
  | a :: l, ns, x, h => foldl_mem_mono step hstep l (step ns a) x (hstep ns a x h)

theorem derivedPhase_mono (g : Graph) (F ns : List String) (x : String) (h : x ∈ ns) :
    x ∈ derivedPhase g F ns := by
  rw [derivedPhase]
  refine foldl_mem_mono _ ?_ (derivedList g) ns x h
  intro ns dd y hy
  rw [dStep]
  by_cases hc : (ns.contains dd.1 || !F.contains dd.2) = true
  · rw [if_pos hc]
    exact hy
  · rw [if_neg hc]
    refine foldl_mem_mono _ ?_ g.edges ns y hy
    intro ns kv z hz
    rw [dEdgeStep]
    by_cases hc1 : (kv.2.originatingNodeKey = dd.1 && F.contains kv.2.destinationKey) = true
    · rw [if_pos hc1]
      by_cases hc2 : (kv.2.destinationKey = dd.1 && F.contains kv.2.originatingNodeKey) = true
      · rw [if_pos hc2]
        exact sinsert_mem _ dd.1 z (sinsert_mem ns dd.1 z hz)
      · rw [if_neg hc2]
        exact sinsert_mem ns dd.1 z hz
    · rw [if_neg hc1]
      by_cases hc2 : (kv.2.destinationKey = dd.1 && F.contains kv.2.originatingNodeKey) = true
      · rw [if_pos hc2]
        exact sinsert_mem ns dd.1 z hz
      · rw [if_neg hc2]
        exact hz

theorem concreteNodeKeys_mem (g : Graph) (hnw : nodesWF g.nodes) (k : String) :
    k ∈ concreteNodeKeys g ↔
      ((dlookup g.nodes k).isSome ∧ g.metaNodes.contains k = false) := by
  rw [concreteNodeKeys, List.mem_filterMap]
  constructor
  · rintro ⟨kv, hkv, hf⟩
    by_cases hc : g.metaNodes.contains (GNode.key kv.2) = true
    · rw [if_pos hc] at hf
      exact absurd hf (by simp)
    · rw [if_neg hc] at hf
      have hk : GNode.key kv.2 = k := Option.some.inj hf
      have hkey : kv.1 = k := by rw [← hnw kv hkv, hk]
      constructor
      · refine dlookup_isSome_of_mem ?_
        rw [← hkey]
        exact List.mem_map_of_mem Prod.fst hkv
      · rw [← hk]
        cases hmc : g.metaNodes.contains (GNode.key kv.2) with
        | false => rfl
        | true => exact absurd hmc hc
  · rintro ⟨hsome, hnc⟩
    obtain ⟨v, hv⟩ := Option.isSome_iff_exists.mp hsome
    refine ⟨(k, v), dlookup_mem hv, ?_⟩
    have hk : GNode.key v = k := hnw (k, v) (dlookup_mem hv)
    rw [hk]
    rw [if_neg (by rw [hnc]; exact Bool.false_ne_true)]

/-- C2: get_writable_nodes with the empty filter returns exactly the keys of
the concrete (non-meta) nodes; and for a single-resource filter [R] on which
the call succeeds, the result contains R together with every backbone
subnode transitively reachable from R through exclusive relationship fields
whose target key contains a path separator. -/
theorem c2_writable_nodes (g : Graph) (R : String) (ws : List String)
    (hnw : nodesWF g.nodes)
    (h : get_writable_nodes g [R] = Except.ok ws) :
    (∃ cs, get_writable_nodes g [] = Except.ok cs ∧
      ∀ k, k ∈ cs ↔ ((dlookup g.nodes k).isSome ∧ g.metaNodes.contains k = false)) ∧
    R ∈ ws ∧ (∀ t, SubReach g R t → t ∈ ws) := by
  refine ⟨⟨concreteNodeKeys g, rfl, concreteNodeKeys_mem g hnw⟩, ?_⟩
  rw [get_writable_nodes] at h
  simp only [List.isEmpty_cons, Bool.false_eq_true, if_false, bind, Except.bind] at h
  cases hrun : getWritableRun g [R] with
  | error s => rw [hrun] at h; simp at h
  | ok r =>
    rw [hrun] at h
    obtain ⟨r1, r2⟩ := r
    have hws : ws = derivedPhase g [R] r1 := (Except.ok.inj h).symm
    rw [getWritableRun] at hrun
    obtain ⟨w1, w2, w3, w4⟩ := wFold_spec g [R] ([], []) (r1, r2) hrun
    have hRmem : R ∈ r1 ∧ (isParsedKey g R → R ∈ r2) :=
      w4 R (List.mem_cons_self R [])
    have hcl : ∀ X, X ∈ r2 → ClosedAt g X r1 r2 := by
      intro X hX
      rcases w3 X hX with hX' | hcl'
      · exact absurd hX' (List.not_mem_nil X)
      · exact hcl'
    constructor
    · rw [hws]
      exact derivedPhase_mono g [R] r1 R hRmem.1
    · intro t hr
      have hRv : R ∈ r2 := hRmem.2 (reach_src_parsed g hr)
      have := (reach_in g r1 r2 hcl hr hRv).1
      rw [hws]
      exact derivedPhase_mono g [R] r1 t this

/-- Witness for c2_writable_nodes: on gC2 the writable set for ["R"]
contains R, its backbone subnode R.a, and the transitively reached R.a.b. -/
theorem c2_writable_nodes_witness :
    "R" ∈ wsC2 ∧ "R.a" ∈ wsC2 ∧ "R.a.b" ∈ wsC2 := by
  obtain ⟨h1, h2, h3⟩ :=
    c2_writable_nodes gC2 "R" wsC2 (by unfold nodesWF; decide) (by rfl)
  refine ⟨h2, h3 _ ?_, h3 _ ?_⟩
  · exact SubReach.step "R" "R.a" pC2
      ⟨"a", (Ordn.zero, Ordn.many), "R", FieldVariant.exclusive "R.a"⟩
      (by rfl) (by decide) (by rfl) (by decide)
  · exact SubReach.tail "R" "R.a" "R.a.b" pC2b
      ⟨"b", (Ordn.zero, Ordn.many), "R.a", FieldVariant.exclusive "R.a.b"⟩
      (SubReach.step "R" "R.a" pC2
        ⟨"a", (Ordn.zero, Ordn.many), "R", FieldVariant.exclusive "R.a"⟩
        (by rfl) (by decide) (by rfl) (by decide))
      (by rfl) (by decide) (by rfl) (by decide)

/-! ## The derived-node pass of get_writable_nodes (C6) -/

theorem sinsert_mem_iff (s : List String) (k x : String) :
    x ∈ sinsert s k ↔ x ∈ s ∨ x = k := by
  rw [sinsert]
  by_cases hc : s.contains k = true
  · rw [if_pos hc]
    constructor
    · exact Or.inl
    · rintro (h | rfl)
      · exact h
      · exact List.elem_iff.mp hc
  · rw [if_neg hc]
    rw [List.mem_append, List.mem_singleton]

theorem dEdgeStep_mem (F : List String) (dd : String × String) (ns : List String)
    (kv : EdgeKey × Edge) (x : String) :
    x ∈ dEdgeStep F dd ns kv ↔ x ∈ ns ∨ (x = dd.1 ∧
      ((kv.2.originatingNodeKey = dd.1 ∧ F.contains kv.2.destinationKey = true) ∨
       (kv.2.destinationKey = dd.1 ∧ F.contains kv.2.originatingNodeKey = true))) := by
  rw [dEdgeStep]
  by_cases hc1 : (kv.2.originatingNodeKey = dd.1 && F.contains kv.2.destinationKey) = true
  · rw [if_pos hc1]
    obtain ⟨hc1a, hc1b⟩ := Bool.and_eq_true_iff.mp hc1
    have hc1a' := of_decide_eq_true hc1a
    by_cases hc2 : (kv.2.destinationKey = dd.1 && F.contains kv.2.originatingNodeKey) = true
    · rw [if_pos hc2]
      rw [sinsert_mem_iff, sinsert_mem_iff]
      constructor
      · rintro ((h | h) | h)
        · exact Or.inl h
        · exact Or.inr ⟨h, Or.inl ⟨hc1a', hc1b⟩⟩
        · exact Or.inr ⟨h, Or.inl ⟨hc1a', hc1b⟩⟩
      · rintro (h | ⟨rfl, _⟩)
        · exact Or.inl (Or.inl h)
        · exact Or.inr rfl
    · rw [if_neg hc2]
      rw [sinsert_mem_iff]
      constructor
      · rintro (h | h)
        · exact Or.inl h
        · exact Or.inr ⟨h, Or.inl ⟨hc1a', hc1b⟩⟩
      · rintro (h | ⟨rfl, _⟩)
        · exact Or.inl h
        · exact Or.inr rfl
  · rw [if_neg hc1]
    by_cases hc2 : (kv.2.destinationKey = dd.1 && F.contains kv.2.originatingNodeKey) = true
    · rw [if_pos hc2]
      obtain ⟨hc2a, hc2b⟩ := Bool.and_eq_true_iff.mp hc2
      have hc2a' := of_decide_eq_true hc2a
      rw [sinsert_mem_iff]
      constructor
      · rintro (h | h)
        · exact Or.inl h
        · exact Or.inr ⟨h, Or.inr ⟨hc2a', hc2b⟩⟩
      · rintro (h | ⟨rfl, _⟩)
        · exact Or.inl h
        · exact Or.inr rfl
    · rw [if_neg hc2]
      constructor
      · exact Or.inl
      · rintro (h | ⟨rfl, hcon | hcon⟩)
        · exact h
        · exact absurd (Bool.and_eq_true_iff.mpr ⟨decide_eq_true hcon.1, hcon.2⟩) hc1
        · exact absurd (Bool.and_eq_true_iff.mpr ⟨decide_eq_true hcon.1, hcon.2⟩) hc2

theorem dEdgeFold_mem (F : List String) (dd : String × String) :
    ∀ (es : List (EdgeKey × Edge)) (ns : List String) (x : String),
    x ∈ es.foldl (dEdgeStep F dd) ns ↔ x ∈ ns ∨ (x = dd.1 ∧
      ∃ kv ∈ es,
        (kv.2.originatingNodeKey = dd.1 ∧ F.contains kv.2.destinationKey = true) ∨
        (kv.2.destinationKey = dd.1 ∧ F.contains kv.2.originatingNodeKey = true))
  | [], ns, x => by simp
  | kv :: es, ns, x => by
    rw [List.foldl_cons, dEdgeFold_mem F dd es (dEdgeStep F dd ns kv) x]
    rw [dEdgeStep_mem]
    constructor
    · rintro ((h | ⟨rfl, hcond⟩) | ⟨rfl, kv', hkv', hcond⟩)
      · exact Or.inl h
      · exact Or.inr ⟨rfl, kv, List.mem_cons_self kv es, hcond⟩
      · exact Or.inr ⟨rfl, kv', List.mem_cons_of_mem kv hkv', hcond⟩
    · rintro (h | ⟨rfl, kv', hkv', hcond⟩)
      · exact Or.inl (Or.inl h)
      · rcases List.mem_cons.mp hkv' with rfl | hkv''
        · exact Or.inl (Or.inr ⟨rfl, hcond⟩)
        · exact Or.inr ⟨rfl, kv', hkv'', hcond⟩

theorem dFold_adds (g : Graph) (F : List String) :
    ∀ (l : List (String × String)) (ns : List String) (x : String),
    x ∈ l.foldl (dStep g F) ns → x ∈ ns ∨ x ∈ l.map Prod.fst
  | [], _, _, h => Or.inl h
  | dd :: l, ns, x, h => by
    rw [List.foldl_cons] at h
    rcases dFold_adds g F l (dStep g F ns dd) x h with h' | h'
    · rw [dStep] at h'
      by_cases hc : (ns.contains dd.1 || !F.contains dd.2) = true
      · rw [if_pos hc] at h'
        exact Or.inl h'
      · rw [if_neg hc] at h'
        rcases (dEdgeFold_mem F dd g.edges ns x).mp h' with h'' | h''
        · exact Or.inl h''
        · refine Or.inr ?_
          rw [List.map_cons, h''.1]
          exact List.mem_cons_self dd.1 (l.map Prod.fst)
    · refine Or.inr ?_
      rw [List.map_cons]
      exact List.mem_cons_of_mem dd.1 h'

theorem dStep_mono (g : Graph) (F : List String) (ns : List String) (dd : String × String)
    (x : String) (h : x ∈ ns) : x ∈ dStep g F ns dd := by
  rw [dStep]
  by_cases hc : (ns.contains dd.1 || !F.contains dd.2) = true
  · rwa [if_pos hc]
  · rw [if_neg hc]
    refine foldl_mem_mono _ ?_ g.edges ns x h
    intro ns kv z hz
    exact (dEdgeStep_mem F dd ns kv z).mpr (Or.inl hz)

/-- C6: for a filter list F on which the traversal phase succeeds with
collected set ns0, and a synthesized junction node (dk, derived-from df) in
the node dictionary whose originating entity df is requested and whose key
dk was not already collected, the final writable set is the derived-node
pass over ns0, and it contains dk if and only if some stored edge connects
dk to a resource in F (in either direction). -/
theorem c6_junction_filter (g : Graph) (F : List String) (ns0 vis0 : List String)
    (dk df : String)
    (hrun : getWritableRun g F = Except.ok (ns0, vis0))
    (hd : (dk, df) ∈ derivedList g)
    (hdf : df ∈ F)
    (hnotin : dk ∉ ns0)
    (hnd : ((derivedList g).map Prod.fst).Nodup) :
    get_writable_nodes g F = Except.ok (derivedPhase g F ns0) ∧
    (dk ∈ derivedPhase g F ns0 ↔
      ∃ kv ∈ g.edges,
        (kv.2.originatingNodeKey = dk ∧ kv.2.destinationKey ∈ F) ∨
        (kv.2.destinationKey = dk ∧ kv.2.originatingNodeKey ∈ F)) := by
  constructor
  · cases F with
    | nil => exact absurd hdf (List.not_mem_nil df)
    | cons a F' =>
      rw [get_writable_nodes]
      simp only [List.isEmpty_cons, Bool.false_eq_true, if_false, bind, Except.bind, hrun]
  · obtain ⟨l1, l2, hsplit⟩ := List.append_of_mem hd
    have hnd' := hnd
    rw [hsplit, List.map_append, List.map_cons] at hnd'
    have hdisj := List.nodup_append.mp hnd'
    have hdk_l1 : dk ∉ l1.map Prod.fst := by
      intro hin
      exact (hdisj.2.2 hin) (List.mem_cons_self dk (l2.map Prod.fst))
    have hdk_l2 : dk ∉ l2.map Prod.fst := (List.nodup_cons.mp hdisj.2.1).1
    rw [derivedPhase, hsplit, List.foldl_append, List.foldl_cons]
    have hdk_ns1 : dk ∉ List.foldl (dStep g F) ns0 l1 := by
      intro hin
      rcases dFold_adds g F l1 ns0 dk hin with h' | h'
      · exact hnotin h'
      · exact hdk_l1 h'
    have hcond : (((List.foldl (dStep g F) ns0 l1).contains dk) || !F.contains df) = false := by
      have h1 : (List.foldl (dStep g F) ns0 l1).contains dk = false := by
        cases hc : (List.foldl (dStep g F) ns0 l1).contains dk with
        | false => rfl
        | true => exact absurd (List.elem_iff.mp hc) hdk_ns1
      have h2 : F.contains df = true := List.elem_iff.mpr hdf
      rw [h1, h2]
      rfl
    have hstep : dStep g F (List.foldl (dStep g F) ns0 l1) (dk, df) =
        g.edges.foldl (dEdgeStep F (dk, df)) (List.foldl (dStep g F) ns0 l1) := by
      rw [dStep, if_neg (by rw [hcond]; exact Bool.false_ne_true)]
    rw [hstep]
    constructor
    · intro hin
      rcases dFold_adds g F l2 _ dk hin with h' | h'
      · rcases (dEdgeFold_mem F (dk, df) g.edges _ dk).mp h' with h'' | h''
        · exact absurd h'' hdk_ns1
        · obtain ⟨_, kv, hkv, hcond'⟩ := h''
          refine ⟨kv, hkv, ?_⟩
          rcases hcond' with ⟨ha, hb⟩ | ⟨ha, hb⟩
          · exact Or.inl ⟨ha, List.elem_iff.mp hb⟩
          · exact Or.inr ⟨ha, List.elem_iff.mp hb⟩
      · exact absurd h' hdk_l2
    · rintro ⟨kv, hkv, hcond'⟩
      refine foldl_mem_mono _ (dStep_mono g F) l2 _ dk ?_
      refine (dEdgeFold_mem F (dk, df) g.edges _ dk).mpr (Or.inr ⟨rfl, kv, hkv, ?_⟩)
      rcases hcond' with ⟨ha, hb⟩ | ⟨ha, hb⟩
      · exact Or.inl ⟨ha, List.elem_iff.mpr hb⟩
      · exact Or.inr ⟨ha, List.elem_iff.mpr hb⟩

/-- Witness for c6_junction_filter: on gC6 with filter ["R", "S"], the
junction node R.f (derived from the requested R, not collected by the
traversal) is included because its stored edge reaches S, which is also
requested. -/
theorem c6_junction_filter_witness :
    get_writable_nodes gC6 ["R", "S"] =
      Except.ok (derivedPhase gC6 ["R", "S"] ["R", "S"]) ∧
    "R.f" ∈ derivedPhase gC6 ["R", "S"] ["R", "S"] := by
  obtain ⟨h1, h2⟩ := c6_junction_filter gC6 ["R", "S"] ["R", "S"] ["S", "R"] "R.f" "R"
    (by rfl) (by decide) (by decide) (by decide) (by decide)
  exact ⟨h1, h2.mpr ⟨(eC6.ekey, eC6), by decide, Or.inl ⟨by decide, by decide⟩⟩⟩

/-! ## Inheritance resolution: what a run can change (C8, C9) -/

theorem addInh_zero (g : Graph) (k : String) :
    add_inherited_fields 0 g k = Except.error "recursion limit" := rfl

theorem addInh_succ (n : Nat) (g : Graph) (k : String) :
    add_inherited_fields (n + 1) g k =
      (match dlookup g.nodes k with
      | some (GNode.parsedNode c) =>
        (inherited_field_keys c).foldlM (inhEntryStep (add_inherited_fields n) k c.key) g
      | _ => Except.error "add_inherited_fields on a non-parsed node") := rfl

theorem dlookup_updatePNode_ne :
    ∀ (nodes : List (String × GNode)) (k : String) (fn : PNode → PNode) (j : String),
    j ≠ k → dlookup (updatePNode nodes k fn) j = dlookup nodes j
  | [], _, _, _, _ => rfl
  | (k', v) :: rest, k, fn, j, hne => by
    cases v with
    | parsedNode p =>
      by_cases hk : k' = k
      · simp only [updatePNode, List.map_cons, if_pos hk]
        by_cases hj : k' = j
        · exact absurd (hj ▸ hk) hne
        · rw [dlookup, if_neg hj, dlookup, if_neg hj]
          exact dlookup_updatePNode_ne rest k fn j hne
      · simp only [updatePNode, List.map_cons, if_neg hk]
        by_cases hj : k' = j
        · rw [dlookup, if_pos hj, dlookup, if_pos hj]
        · rw [dlookup, if_neg hj, dlookup, if_neg hj]
          exact dlookup_updatePNode_ne rest k fn j hne
    | anyNode =>
      simp only [updatePNode, List.map_cons]
      by_cases hj : k' = j
      · rw [dlookup, if_pos hj, dlookup, if_pos hj]
      · rw [dlookup, if_neg hj, dlookup, if_neg hj]
        exact dlookup_updatePNode_ne rest k fn j hne
    | elementNode =>
      simp only [updatePNode, List.map_cons]
      by_cases hj : k' = j
      · rw [dlookup, if_pos hj, dlookup, if_pos hj]
      · rw [dlookup, if_neg hj, dlookup, if_neg hj]
        exact dlookup_updatePNode_ne rest k fn j hne
    | derivedNode dk df =>
      simp only [updatePNode, List.map_cons]
      by_cases hj : k' = j
      · rw [dlookup, if_pos hj, dlookup, if_pos hj]
      · rw [dlookup, if_neg hj, dlookup, if_neg hj]
        exact dlookup_updatePNode_ne rest k fn j hne

theorem dlookup_updatePNode_self :
    ∀ (nodes : List (String × GNode)) (k : String) (fn : PNode → PNode),
    dlookup (updatePNode nodes k fn) k =
      (dlookup nodes k).map (fun nd =>
        match nd with
        | GNode.parsedNode p => GNode.parsedNode (fn p)
        | x => x)
  | [], _, _ => rfl
  | (k', v) :: rest, k, fn => by
    cases v with
    | parsedNode p =>
      by_cases hk : k' = k
      · simp only [updatePNode, List.map_cons, if_pos hk]
        rw [dlookup, if_pos hk, dlookup, if_pos hk]
        rfl
      · simp only [updatePNode, List.map_cons, if_neg hk]
        rw [dlookup, if_neg hk, dlookup, if_neg hk]
        exact dlookup_updatePNode_self rest k fn
    | anyNode =>
      simp only [updatePNode, List.map_cons]
      by_cases hk : k' = k
      · rw [dlookup, if_pos hk, dlookup, if_pos hk]
        rfl
      · rw [dlookup, if_neg hk, dlookup, if_neg hk]
        exact dlookup_updatePNode_self rest k fn
    | elementNode =>
      simp only [updatePNode, List.map_cons]
      by_cases hk : k' = k
      · rw [dlookup, if_pos hk, dlookup, if_pos hk]
        rfl
      · rw [dlookup, if_neg hk, dlookup, if_neg hk]
        exact dlookup_updatePNode_self rest k fn
    | derivedNode dk df =>
      simp only [updatePNode, List.map_cons]
      by_cases hk : k' = k
      · rw [dlookup, if_pos hk, dlookup, if_pos hk]
        rfl
      · rw [dlookup, if_neg hk, dlookup, if_neg hk]
        exact dlookup_updatePNode_self rest k fn

theorem add_meta_nodes (g : Graph) (k : String) : (add_meta_node g k).nodes = g.nodes := by
  rw [add_meta_node]
  by_cases h1 : k = "Resource"
  · rw [if_pos h1]
  · rw [if_neg h1]
    by_cases h2 : g.metaNodes.contains k = true
    · rw [if_pos h2]
    · rw [if_neg h2]

theorem add_meta_contains_mono (g : Graph) (k x : String)
    (h : g.metaNodes.contains x = true) : (add_meta_node g k).metaNodes.contains x = true := by
  rw [add_meta_node]
  by_cases h1 : k = "Resource"
  · rwa [if_pos h1]
  · rw [if_neg h1]
    by_cases h2 : g.metaNodes.contains k = true
    · rwa [if_pos h2]
    · rw [if_neg h2]
      exact List.elem_iff.mpr (List.mem_append_left _ (List.elem_iff.mp h))

theorem SelfW_trans {ck : String} {d d' d'' : List (String × Field)}
    (h1 : SelfW ck d d') (h2 : SelfW ck d' d'') : SelfW ck d d'' := by
  induction h2 with
  | refl => exact h1
  | snoc b f hh ih => exact SelfW.snoc _ _ f ih

theorem StepRel_refl (g : Graph) : StepRel g g :=
  ⟨fun _ _ h _ => h, fun _ h => h, fun _ h => h,
   fun _ c h => ⟨c, h, rfl, rfl, rfl, SelfW.refl c.inherited⟩⟩

theorem StepRel_trans {g g' g'' : Graph} (h1 : StepRel g g') (h2 : StepRel g' g'') :
    StepRel g g'' := by
  refine ⟨fun j nd h hp => h2.1 j nd (h1.1 j nd h hp) hp,
          fun j h => h2.2.1 j (h1.2.1 j h),
          fun x h => h2.2.2.1 x (h1.2.2.1 x h), ?_⟩
  intro j c h
  obtain ⟨c', hc', hk', ha', ho', hw'⟩ := h1.2.2.2 j c h
  obtain ⟨c'', hc'', hk'', ha'', ho'', hw''⟩ := h2.2.2.2 j c' hc'
  refine ⟨c'', hc'', hk''.trans hk', ha''.trans ha', ho''.trans ho', ?_⟩
  rw [hk'] at hw''
  exact SelfW_trans hw' hw''

theorem StepRel_add_meta (g : Graph) (k : String) : StepRel g (add_meta_node g k) := by
  refine ⟨?_, ?_, fun x h => add_meta_contains_mono g k x h, ?_⟩
  · intro j nd h _
    rw [add_meta_nodes]
    exact h
  · intro j h
    rw [add_meta_nodes]
    exact h
  · intro j c h
    refine ⟨c, ?_, rfl, rfl, rfl, SelfW.refl c.inherited⟩
    rw [add_meta_nodes]
    exact h

theorem StepRel_write (g : Graph) (selfKey selfOrig : String) (fld : Field)
    (hko : ∀ c0, dlookup g.nodes selfKey = some (GNode.parsedNode c0) → c0.key = selfOrig) :
    StepRel g { g with nodes := updatePNode g.nodes selfKey (fun c => { c with inherited := dinsert c.inherited fld.key (fld.withOrig selfOrig) }) } := by
  refine ⟨?_, ?_, fun x h => h, ?_⟩
  · intro j nd h hp
    by_cases hj : j = selfKey
    · subst hj
      show dlookup (updatePNode g.nodes j _) j = some nd
      rw [dlookup_updatePNode_self, h]
      cases nd with
      | parsedNode p => simp [GNode.isParsed] at hp
      | anyNode => rfl
      | elementNode => rfl
      | derivedNode dk df => rfl
    · show dlookup (updatePNode g.nodes selfKey _) j = some nd
      rw [dlookup_updatePNode_ne g.nodes selfKey _ j hj]
      exact h
  · intro j h
    by_cases hj : j = selfKey
    · subst hj
      show dlookup (updatePNode g.nodes j _) j = none
      rw [dlookup_updatePNode_self, h]
      rfl
    · show dlookup (updatePNode g.nodes selfKey _) j = none
      rw [dlookup_updatePNode_ne g.nodes selfKey _ j hj]
      exact h
  · intro j c h
    by_cases hj : j = selfKey
    · subst hj
      refine ⟨{ c with inherited := dinsert c.inherited fld.key (fld.withOrig selfOrig) }, ?_,
        rfl, rfl, rfl, ?_⟩
      · show dlookup (updatePNode g.nodes j _) j = _
        rw [dlookup_updatePNode_self, h]
        rfl
      · rw [hko c h]
        exact SelfW.snoc _ _ fld (SelfW.refl c.inherited)
    · refine ⟨c, ?_, rfl, rfl, rfl, SelfW.refl c.inherited⟩
      show dlookup (updatePNode g.nodes selfKey _) j = _
      rw [dlookup_updatePNode_ne g.nodes selfKey _ j hj]
      exact h

theorem hko_step {g g₁ : Graph} (selfKey selfOrig : String) (hs : StepRel g g₁)
    (hko : ∀ c0, dlookup g.nodes selfKey = some (GNode.parsedNode c0) → c0.key = selfOrig) :
    ∀ c1, dlookup g₁.nodes selfKey = some (GNode.parsedNode c1) → c1.key = selfOrig := by
  intro c1 h1
  cases h0 : dlookup g.nodes selfKey with
  | none =>
    rw [hs.2.1 selfKey h0] at h1
    exact Option.noConfusion h1
  | some nd =>
    cases nd with
    | parsedNode c0 =>
      obtain ⟨c', hc', hkey, _, _, _⟩ := hs.2.2.2 selfKey c0 h0
      rw [hc'] at h1
      have : c1 = c' := (GNode.parsedNode.inj (Option.some.inj h1)).symm
      rw [this, hkey]
      exact hko c0 h0
    | anyNode =>
      rw [hs.1 selfKey GNode.anyNode h0 rfl] at h1
      exact GNode.noConfusion (Option.some.inj h1)
    | elementNode =>
      rw [hs.1 selfKey GNode.elementNode h0 rfl] at h1
      exact GNode.noConfusion (Option.some.inj h1)
    | derivedNode dk df =>
      rw [hs.1 selfKey (GNode.derivedNode dk df) h0 rfl] at h1
      exact GNode.noConfusion (Option.some.inj h1)

theorem inhCopies_rel :
    ∀ (pfs : List String) (selfKey selfOrig : String) (pl : List (String × Field)) (g g' : Graph),
    inhCopies selfKey selfOrig pl pfs g = Except.ok g' →
    (∀ c0, dlookup g.nodes selfKey = some (GNode.parsedNode c0) → c0.key = selfOrig) →
    StepRel g g'
  | [], selfKey, selfOrig, pl, g, g', h, _ => by
    rw [inhCopies] at h
    cases h
    exact StepRel_refl g
  | pf :: rest, selfKey, selfOrig, pl, g, g', h, hko => by
    cases hfl : dlookup pl (strToLower pf) with
    | none => simp [inhCopies, hfl] at h
    | some fld =>
      simp only [inhCopies, hfl] at h
      have hw := StepRel_write g selfKey selfOrig fld hko
      exact StepRel_trans hw
        (inhCopies_rel rest selfKey selfOrig pl _ g' h (hko_step selfKey selfOrig hw hko))

theorem inhEntryStep_rel (n : Nat)
    (hrec : ∀ (g : Graph) (k : String) (g' : Graph),
      add_inherited_fields n g k = Except.ok g' → StepRel g g')
    (selfKey selfOrig : String) (ent : String × List String) (g g' : Graph)
    (h : inhEntryStep (add_inherited_fields n) selfKey selfOrig g ent = Except.ok g')
    (hko : ∀ c0, dlookup g.nodes selfKey = some (GNode.parsedNode c0) → c0.key = selfOrig) :
    StepRel g g' := by
  cases hlk : dlookup g.nodes ent.1 with
  | none => simp [inhEntryStep, hlk] at h
  | some nd =>
    cases nd with
    | parsedNode p =>
      simp only [inhEntryStep, hlk, bind, Except.bind] at h
      cases hr : add_inherited_fields n (add_meta_node g ent.1) ent.1 with
      | error s => simp [hr] at h
      | ok g3 =>
        simp only [hr] at h
        have s1 : StepRel g (add_meta_node g ent.1) := StepRel_add_meta g ent.1
        have s2 : StepRel (add_meta_node g ent.1) g3 := hrec _ _ _ hr
        have s12 : StepRel g g3 := StepRel_trans s1 s2
        cases hlk3 : dlookup g3.nodes ent.1 with
        | none => simp [hlk3] at h
        | some nd3 =>
          cases nd3 with
          | parsedNode p' =>
            simp only [hlk3] at h
            exact StepRel_trans s12
              (inhCopies_rel ent.2 selfKey selfOrig _ g3 g' h
                (hko_step selfKey selfOrig s12 hko))
          | anyNode => simp [hlk3] at h
          | elementNode => simp [hlk3] at h
          | derivedNode dk df => simp [hlk3] at h
    | elementNode =>
      simp only [inhEntryStep, hlk] at h
      have s1 : StepRel g (add_meta_node g ent.1) := StepRel_add_meta g ent.1
      exact StepRel_trans s1
        (inhCopies_rel ent.2 selfKey selfOrig _ _ g' h (hko_step selfKey selfOrig s1 hko))
    | anyNode => simp [inhEntryStep, hlk] at h
    | derivedNode dk df => simp [inhEntryStep, hlk] at h

theorem inhEnts_rel (n : Nat)
    (hrec : ∀ (g : Graph) (k : String) (g' : Graph),
      add_inherited_fields n g k = Except.ok g' → StepRel g g') :
    ∀ (ents : List (String × List String)) (selfKey selfOrig : String) (g g' : Graph),
    ents.foldlM (inhEntryStep (add_inherited_fields n) selfKey selfOrig) g = Except.ok g' →
    (∀ c0, dlookup g.nodes selfKey = some (GNode.parsedNode c0) → c0.key = selfOrig) →
    StepRel g g'
  | [], selfKey, selfOrig, g, g', h, _ => by
    rw [List.foldlM_nil] at h
    cases h
    exact StepRel_refl g
  | ent :: ents, selfKey, selfOrig, g, g', h, hko => by
    rw [List.foldlM_cons] at h
    obtain ⟨g1, h1, h2⟩ := except_bind_ok h
    have s1 : StepRel g g1 := inhEntryStep_rel n hrec selfKey selfOrig ent g g1 h1 hko
    exact StepRel_trans s1
      (inhEnts_rel n hrec ents selfKey selfOrig g1 g' h2 (hko_step selfKey selfOrig s1 hko))

theorem addInh_rel :
    ∀ (n : Nat) (g : Graph) (k : String) (g' : Graph),
    add_inherited_fields n g k = Except.ok g' → StepRel g g'
  | 0, g, k, g', h => by
    rw [addInh_zero] at h
    exact absurd h (by simp)
  | n + 1, g, k, g', h => by
    rw [addInh_succ] at h
    cases hlk : dlookup g.nodes k with
    | none => simp [hlk] at h
    | some nd =>
      cases nd with
      | parsedNode c =>
        simp only [hlk] at h
        refine inhEnts_rel n (addInh_rel n) (inherited_field_keys c) k c.key g g' h ?_
        intro c0 h0
        rw [hlk] at h0
        rw [(GNode.parsedNode.inj (Option.some.inj h0)).symm]
      | anyNode => simp [hlk] at h
      | elementNode => simp [hlk] at h
      | derivedNode dk df => simp [hlk] at h

theorem foldl_dinsert_forall {α κ β : Type} [DecidableEq κ] (P : κ × β → Prop)
    (keyf : α → κ) (valf : α → β) :
    ∀ (l : List α) (d0 : List (κ × β)), (∀ kv ∈ d0, P kv) → (∀ a ∈ l, P (keyf a, valf a)) →
    ∀ kv ∈ l.foldl (fun d a => dinsert d (keyf a) (valf a)) d0, P kv
  | [], d0, h0, _, kv, hkv => h0 kv hkv
  | a :: l, d0, h0, hl, kv, hkv => by
    rw [List.foldl_cons] at hkv
    exact foldl_dinsert_forall P keyf valf l (dinsert d0 (keyf a) (valf a))
      (dinsert_mem_forall P d0 (keyf a) (valf a) h0 (hl a (List.mem_cons_self a l)))
      (fun b hb => hl b (List.mem_cons_of_mem a hb)) kv hkv

theorem fhir_fields_wf (n : PNode) : ∀ kv ∈ fhir_fields n, kv.1 = kv.2.key := by
  rw [fhir_fields]
  refine foldl_dinsert_forall (fun kv => kv.1 = kv.2.key)
    (fun f => f.key) (fun f => f) n.ownFields _ ?_ ?_
  · refine foldl_dinsert_forall (fun kv => kv.1 = kv.2.key)
      (fun kv => kv.2.key) (fun kv => kv.2) n.inherited [] ?_ ?_
    · intro kv hkv
      exact absurd hkv (List.not_mem_nil kv)
    · intro a _
      rfl
  · intro a _
    rfl

theorem fieldsByLowerKey_wf (entries : List (String × Field))
    (hw : ∀ kv ∈ entries, kv.1 = kv.2.key) :
    ∀ kv ∈ fieldsByLowerKey entries, kv.1 = strToLower kv.2.key := by
  rw [fieldsByLowerKey]
  refine foldl_dinsert_forall (fun kv => kv.1 = strToLower kv.2.key)
    (fun kv => strToLower kv.1) (fun kv => kv.2) entries [] ?_ ?_
  · intro kv hkv
    exact absurd hkv (List.not_mem_nil kv)
  · intro a ha
    show strToLower a.1 = strToLower a.2.key
    rw [hw a ha]

theorem dlookup_fblk_lower (entries : List (String × Field))
    (hw : ∀ kv ∈ entries, kv.1 = kv.2.key) (L : String) (f : Field)
    (h : dlookup (fieldsByLowerKey entries) L = some f) : strToLower f.key = L :=
  (fieldsByLowerKey_wf entries hw (L, f) (dlookup_mem h)).symm

theorem HasCopy_SelfW (ck lowkey : String) {d d' : List (String × Field)}
    (hw : SelfW ck d d') (h : HasCopy ck lowkey d) : HasCopy ck lowkey d' := by
  induction hw with
  | refl => exact h
  | snoc d2 f hsw ih =>
    obtain ⟨key, fv, h1, h2, h3, h4⟩ := ih
    by_cases hk : f.key = key
    · refine ⟨key, f.withOrig ck, ?_, hk, h3, rfl⟩
      rw [← hk]
      exact dlookup_dinsert_self d2 f.key (f.withOrig ck)
    · exact ⟨key, fv,
        by rw [dlookup_dinsert_ne d2 f.key key (f.withOrig ck) (fun hh => hk hh.symm)]; exact h1,
        h2, h3, h4⟩

/-- C8 counterexample: on gC8 the nested subnode P.c resolves successfully
and its inherited modifierExtension copy comes from the parsed
BackboneElement entity; the built-in base element entity has no field at
the lowercase key modifierextension at all, so the copy cannot have been
obtained from the base element entity as the claim states. -/
theorem c8_counterexample :
    add_inherited_fields 4 gC8 "P.c" = Except.ok gC8r ∧
    dlookup gC8r.nodes "P.c" = some (GNode.parsedNode cC8r) ∧
    dlookup cC8r.inherited "modifierExtension" =
      some ⟨"modifierExtension", (Ordn.zero, Ordn.many), "P.c", FieldVariant.exclusive "Extension"⟩ ∧
    dlookup elementFieldsByLower (strToLower "modifierExtension") = none :=
  ⟨by rfl, by rfl, by decide, by decide⟩

/-- C8 (amended): for every parsed entity with a path separator in its key,
whenever inheritance resolution succeeds the entity's inherited-field
dictionary ends up holding copies at keys lowercasing to extension and to
modifierextension, each with its originating-node pointer rewritten to the
entity itself, independent of any explicit parent annotations; the copies
are looked up (case-insensitively) in the graph entity stored under the key
BackboneElement — resolution through the built-in base element entity is
impossible, since it lacks a modifierExtension field (c8_counterexample). -/
theorem c8_implicit_extension_fields (n : Nat) (g g' : Graph) (k : String) (c : PNode)
    (hc : dlookup g.nodes k = some (GNode.parsedNode c))
    (hch : c.is_child_element = true)
    (h : add_inherited_fields (n + 1) g k = Except.ok g') :
    ∃ c', dlookup g'.nodes k = some (GNode.parsedNode c') ∧ c'.key = c.key ∧
      HasCopy c.key (strToLower "extension") c'.inherited ∧
      HasCopy c.key (strToLower "modifierExtension") c'.inherited := by
  rw [addInh_succ] at h
  simp only [hc] at h
  have himp : ("BackboneElement", ["extension", "modifierExtension"]) ∈ inherited_field_keys c := by
    rw [inherited_field_keys]
    rw [if_pos hch]
    exact dlookup_mem (dlookup_dinsert_self _ _ _)
  obtain ⟨l1, l2, hsplit⟩ := List.append_of_mem himp
  rw [hsplit] at h
  obtain ⟨gpre, gmid, hpre, hstep, hpost⟩ := foldlM_ok_split _ l1 _ l2 g g' h
  have hko0 : ∀ c0, dlookup g.nodes k = some (GNode.parsedNode c0) → c0.key = c.key := by
    intro c0 h0
    rw [hc] at h0
    rw [(GNode.parsedNode.inj (Option.some.inj h0)).symm]
  have spre : StepRel g gpre := inhEnts_rel n (addInh_rel n) l1 k c.key g gpre hpre hko0
  have hkopre := hko_step k c.key spre hko0
  cases hbb : dlookup gpre.nodes "BackboneElement" with
  | none => simp [inhEntryStep, hbb] at hstep
  | some nd =>
    cases nd with
    | parsedNode p =>
      simp only [inhEntryStep, hbb, bind, Except.bind] at hstep
      cases hr : add_inherited_fields n (add_meta_node gpre "BackboneElement") "BackboneElement" with
      | error s => simp [hr] at hstep
      | ok g3 =>
        simp only [hr] at hstep
        have s3 : StepRel gpre g3 :=
          StepRel_trans (StepRel_add_meta gpre "BackboneElement") (addInh_rel n _ _ _ hr)
        have hko3 := hko_step k c.key s3 hkopre
        cases hlk3 : dlookup g3.nodes "BackboneElement" with
        | none => simp [hlk3] at hstep
        | some nd3 =>
          cases nd3 with
          | parsedNode p' =>
            simp only [hlk3] at hstep
            -- the two copies of the implicit entry, written in order
            cases hfe : dlookup (fieldsByLowerKey (fhir_fields p')) (strToLower "extension") with
            | none => simp [inhCopies, hfe] at hstep
            | some fe =>
              simp only [inhCopies, hfe] at hstep
              cases hfm : dlookup (fieldsByLowerKey (fhir_fields p'))
                  (strToLower "modifierExtension") with
              | none => simp [inhCopies, hfm] at hstep
              | some fm =>
                simp only [inhCopies, hfm] at hstep
                cases hstep
                -- child node through the prefix and the parent resolution
                obtain ⟨c3, hc3, hk3, _, _, _⟩ := (StepRel_trans spre s3).2.2.2 k c hc
                -- the two writes, made explicit
                have hw1 : dlookup (updatePNode g3.nodes k (fun cc => { cc with inherited := dinsert cc.inherited fe.key (fe.withOrig c.key) })) k = some (GNode.parsedNode { c3 with inherited := dinsert c3.inherited fe.key (fe.withOrig c.key) }) := by
                  rw [dlookup_updatePNode_self, hc3]
                  rfl
                have hw2 : dlookup (updatePNode (updatePNode g3.nodes k (fun cc => { cc with inherited := dinsert cc.inherited fe.key (fe.withOrig c.key) })) k (fun cc => { cc with inherited := dinsert cc.inherited fm.key (fm.withOrig c.key) })) k = some (GNode.parsedNode { c3 with inherited := dinsert (dinsert c3.inherited fe.key (fe.withOrig c.key)) fm.key (fm.withOrig c.key) }) := by
                  rw [dlookup_updatePNode_self, hw1]
                  rfl
                have hlfe : strToLower fe.key = strToLower "extension" :=
                  dlookup_fblk_lower _ (fhir_fields_wf p') _ fe hfe
                have hlfm : strToLower fm.key = strToLower "modifierExtension" :=
                  dlookup_fblk_lower _ (fhir_fields_wf p') _ fm hfm
                have hne : fe.key ≠ fm.key := by
                  intro hcontra
                  rw [hcontra, hlfm] at hlfe
                  exact absurd hlfe (by decide)
                -- the suffix of the entry list only performs self-copy writes
                have hkog4 : ∀ c0, dlookup (updatePNode (updatePNode g3.nodes k (fun cc => { cc with inherited := dinsert cc.inherited fe.key (fe.withOrig c.key) })) k (fun cc => { cc with inherited := dinsert cc.inherited fm.key (fm.withOrig c.key) })) k = some (GNode.parsedNode c0) → c0.key = c.key := by
                  intro c0 h0
                  rw [hw2] at h0
                  rw [(GNode.parsedNode.inj (Option.some.inj h0)).symm, hk3]
                have spost : StepRel _ g' := inhEnts_rel n (addInh_rel n) l2 k c.key _ g' hpost hkog4
                obtain ⟨c', hc', hk', _, _, hsw⟩ := spost.2.2.2 k _ hw2
                have hk5 : ({ c3 with inherited := dinsert (dinsert c3.inherited fe.key (fe.withOrig c.key)) fm.key (fm.withOrig c.key) } : PNode).key = c.key := hk3
                have hsw' := hk5 ▸ hsw
                refine ⟨c', hc', ?_, ?_, ?_⟩
                · rw [hk']
                  exact hk3
                · refine HasCopy_SelfW _ _ hsw' ?_
                  refine ⟨fe.key, fe.withOrig c.key, ?_, rfl, hlfe, rfl⟩
                  show dlookup (dinsert (dinsert c3.inherited fe.key (fe.withOrig c.key)) fm.key
                    (fm.withOrig c.key)) fe.key = some (fe.withOrig c.key)
                  rw [dlookup_dinsert_ne _ fm.key fe.key _ hne]
                  exact dlookup_dinsert_self _ _ _
                · refine HasCopy_SelfW _ _ hsw' ?_
                  exact ⟨fm.key, fm.withOrig c.key, dlookup_dinsert_self _ _ _, rfl, hlfm, rfl⟩
          | anyNode => simp [hlk3] at hstep
          | elementNode => simp [hlk3] at hstep
          | derivedNode dk df => simp [hlk3] at hstep
    | elementNode =>
      simp only [inhEntryStep, hbb] at hstep
      have : dlookup elementFieldsByLower (strToLower "extension") =
          some ⟨"extension", (Ordn.zero, Ordn.many), "Element", FieldVariant.exclusive "Extension"⟩ := by
        decide
      simp only [inhCopies, this] at hstep
      have hnone : dlookup elementFieldsByLower (strToLower "modifierExtension") = none := by
        decide
      simp [inhCopies, hnone] at hstep
    | anyNode => simp [inhEntryStep, hbb] at hstep
    | derivedNode dk df => simp [inhEntryStep, hbb] at hstep

/-! ## Copy-list and dictionary algebra (C9) -/

theorem applyCopies_append (d : List (String × Field)) (L1 L2 : CopyList) :
    applyCopies d (L1 ++ L2) = applyCopies (applyCopies d L1) L2 := by
  rw [applyCopies, applyCopies, applyCopies, List.foldl_append]

theorem lastW_acc (K : String) :
    ∀ (L : CopyList) (acc : Option Field),
    L.foldl (fun a w => if w.1 = K then some w.2 else a) acc =
      (match lastW L K with
      | some v => some v
      | none => acc)
  | [], acc => rfl
  | w :: L, acc => by
    rw [List.foldl_cons]
    rw [lastW_acc K L (if w.1 = K then some w.2 else acc)]
    have hR : lastW (w :: L) K =
        L.foldl (fun a w => if w.1 = K then some w.2 else a) (if w.1 = K then some w.2 else none) := by
      rw [lastW, List.foldl_cons]
    rw [hR, lastW_acc K L (if w.1 = K then some w.2 else none)]
    cases hl : lastW L K with
    | some v => rfl
    | none =>
      by_cases hw : w.1 = K
      · simp only [if_pos hw]
      · simp only [if_neg hw]

theorem dlookup_applyCopies :
    ∀ (L : CopyList) (d : List (String × Field)) (K : String),
    dlookup (applyCopies d L) K =
      (match lastW L K with
      | some v => some v
      | none => dlookup d K)
  | [], d, K => rfl
  | w :: L, d, K => by
    have hstep : applyCopies d (w :: L) = applyCopies (dinsert d w.1 w.2) L := rfl
    rw [hstep, dlookup_applyCopies L (dinsert d w.1 w.2) K]
    have hR : lastW (w :: L) K =
        L.foldl (fun a w => if w.1 = K then some w.2 else a) (if w.1 = K then some w.2 else none) := by
      rw [lastW, List.foldl_cons]
    rw [hR, lastW_acc K L (if w.1 = K then some w.2 else none)]
    cases hl : lastW L K with
    | some v => rfl
    | none =>
      by_cases hw : w.1 = K
      · rw [if_pos hw]
        rw [← hw]
        exact dlookup_dinsert_self d w.1 w.2
      · rw [if_neg hw]
        exact dlookup_dinsert_ne d w.1 K w.2 (fun hh => hw hh.symm)

theorem mem_dkeys_dinsert_self {κ β : Type} [DecidableEq κ] (d : List (κ × β)) (k : κ) (v : β) :
    k ∈ dkeys (dinsert d k v) := by
  by_cases hm : k ∈ dkeys d
  · rw [dkeys_dinsert_mem d k v hm]
    exact hm
  · rw [dkeys_dinsert_not_mem d k v hm]
    exact List.mem_append_right _ (List.mem_singleton.mpr rfl)

theorem mem_dkeys_dinsert_of_mem {κ β : Type} [DecidableEq κ] (d : List (κ × β)) (k x : κ)
    (v : β) (h : x ∈ dkeys d) : x ∈ dkeys (dinsert d k v) := by
  by_cases hm : k ∈ dkeys d
  · rwa [dkeys_dinsert_mem d k v hm]
  · rw [dkeys_dinsert_not_mem d k v hm]
    exact List.mem_append_left _ h

theorem dkeys_applyCopies_mono :
    ∀ (L : CopyList) (d : List (String × Field)) (x : String),
    x ∈ dkeys d → x ∈ dkeys (applyCopies d L)
  | [], _, _, h => h
  | w :: L, d, x, h =>
    dkeys_applyCopies_mono L (dinsert d w.1 w.2) x (mem_dkeys_dinsert_of_mem d w.1 x w.2 h)

theorem mem_dkeys_applyCopies :
    ∀ (L : CopyList) (d : List (String × Field)) (w : String × Field),
    w ∈ L → w.1 ∈ dkeys (applyCopies d L)
  | w0 :: L, d, w, h => by
    rcases List.mem_cons.mp h with rfl | h'
    · exact dkeys_applyCopies_mono L (dinsert d w.1 w.2) w.1
        (mem_dkeys_dinsert_self d w.1 w.2)
    · exact mem_dkeys_applyCopies L (dinsert d w0.1 w0.2) w h'

theorem dkeys_applyCopies_of_sub :
    ∀ (L : CopyList) (d : List (String × Field)),
    (∀ w ∈ L, w.1 ∈ dkeys d) → dkeys (applyCopies d L) = dkeys d
  | [], _, _ => rfl
  | w :: L, d, h => by
    have h0 : w.1 ∈ dkeys d := h w (List.mem_cons_self w L)
    have hstep : applyCopies d (w :: L) = applyCopies (dinsert d w.1 w.2) L := rfl
    rw [hstep]
    rw [dkeys_applyCopies_of_sub L (dinsert d w.1 w.2) ?_]
    · exact dkeys_dinsert_mem d w.1 w.2 h0
    · intro w' hw'
      exact mem_dkeys_dinsert_of_mem d w.1 w'.1 w.2 (h w' (List.mem_cons_of_mem w hw'))

theorem nodup_dkeys_applyCopies :
    ∀ (L : CopyList) (d : List (String × Field)),
    (dkeys d).Nodup → (dkeys (applyCopies d L)).Nodup
  | [], _, h => h
  | w :: L, d, h =>
    nodup_dkeys_applyCopies L (dinsert d w.1 w.2) (nodup_dkeys_dinsert d w.1 w.2 h)

theorem dlookup_eq_none_of_not_mem {κ β : Type} [DecidableEq κ] (d : List (κ × β)) (k : κ)
    (h : k ∉ dkeys d) : dlookup d k = none := by
  cases hl : dlookup d k with
  | none => rfl
  | some v => exact absurd (mem_dkeys_of_dlookup hl) h

theorem dict_ext {κ β : Type} [DecidableEq κ] :
    ∀ (d1 d2 : List (κ × β)), (dkeys d1).Nodup → dkeys d1 = dkeys d2 →
    (∀ K, dlookup d1 K = dlookup d2 K) → d1 = d2
  | [], d2, _, hk, _ => by
    cases d2 with
    | nil => rfl
    | cons kv d2' => exact absurd hk.symm (by simp [dkeys])
  | (k, v) :: d1', d2, hnd, hk, hl => by
    cases d2 with
    | nil => exact absurd hk (by simp [dkeys])
    | cons kv2 d2' =>
      obtain ⟨k2, v2⟩ := kv2
      rw [dkeys_cons, dkeys_cons] at hk
      have hkk : k = k2 := by
        have := congrArg (fun l => List.headD l k) hk
        simpa using this
      subst hkk
      have hv : v = v2 := by
        have h1 := hl k
        rw [dlookup, if_pos rfl, dlookup, if_pos rfl] at h1
        exact Option.some.inj h1
      subst hv
      have hktl : dkeys d1' = dkeys d2' := by
        have := congrArg List.tail hk
        simpa using this
      have hnd' : (dkeys d1').Nodup := (List.nodup_cons.mp hnd).2
      have hknotin : k ∉ dkeys d1' := (List.nodup_cons.mp hnd).1
      have hltl : ∀ K, dlookup d1' K = dlookup d2' K := by
        intro K
        by_cases hK : K = k
        · subst hK
          rw [dlookup_eq_none_of_not_mem d1' K hknotin,
              dlookup_eq_none_of_not_mem d2' K (hktl ▸ hknotin)]
        · have h1 := hl K
          rw [dlookup, if_neg (fun hh => hK hh.symm), dlookup,
              if_neg (fun hh => hK hh.symm)] at h1
          exact h1
      rw [dict_ext d1' d2' hnd' hktl hltl]

theorem applyCopies_absorb (d : List (String × Field)) (L : CopyList)
    (hnd : (dkeys d).Nodup) :
    applyCopies (applyCopies d L) L = applyCopies d L := by
  refine dict_ext _ _ ?_ ?_ ?_
  · exact nodup_dkeys_applyCopies L _ (nodup_dkeys_applyCopies L d hnd)
  · exact dkeys_applyCopies_of_sub L (applyCopies d L)
      (fun w hw => mem_dkeys_applyCopies L d w hw)
  · intro K
    rw [dlookup_applyCopies]
    cases hl : lastW L K with
    | some v =>
      rw [dlookup_applyCopies, hl]
    | none => rfl

/-! ## Skeleton stability: transfers along StepRel (C9) -/

theorem ifk_congr {c c' : PNode} (hk : c'.key = c.key) (ha : c'.anns = c.anns) :
    inherited_field_keys c' = inherited_field_keys c := by
  rw [inherited_field_keys, inherited_field_keys, ha, PNode.is_child_element,
      PNode.is_child_element, hk]

theorem parsed_back {g g' : Graph} (hs : StepRel g g') {X : String} {c' : PNode}
    (h : dlookup g'.nodes X = some (GNode.parsedNode c')) :
    ∃ c, dlookup g.nodes X = some (GNode.parsedNode c) ∧ c'.key = c.key ∧
      c'.anns = c.anns ∧ SelfW c.key c.inherited c'.inherited := by
  cases h0 : dlookup g.nodes X with
  | none =>
    rw [hs.2.1 X h0] at h
    exact Option.noConfusion h
  | some nd =>
    cases nd with
    | parsedNode c =>
      obtain ⟨c'', hc'', hk, ha, _, hw⟩ := hs.2.2.2 X c h0
      rw [hc''] at h
      have : c' = c'' := (GNode.parsedNode.inj (Option.some.inj h)).symm
      subst this
      exact ⟨c, rfl, hk, ha, hw⟩
    | anyNode =>
      rw [hs.1 X GNode.anyNode h0 rfl] at h
      exact GNode.noConfusion (Option.some.inj h)
    | elementNode =>
      rw [hs.1 X GNode.elementNode h0 rfl] at h
      exact GNode.noConfusion (Option.some.inj h)
    | derivedNode dk df =>
      rw [hs.1 X (GNode.derivedNode dk df) h0 rfl] at h
      exact GNode.noConfusion (Option.some.inj h)

theorem ParentE_fwd {g g' : Graph} (hs : StepRel g g') {X Y : String}
    (h : ParentE g X Y) : ParentE g' X Y := by
  obtain ⟨c, hc, ⟨ent, hent, hY⟩, p, hp⟩ := h
  obtain ⟨c', hc', hk, ha, _, _⟩ := hs.2.2.2 X c hc
  obtain ⟨p', hp', _, _, _, _⟩ := hs.2.2.2 Y p hp
  exact ⟨c', hc', ⟨ent, by rw [ifk_congr hk ha]; exact hent, hY⟩, p', hp'⟩

theorem ParentE_bwd {g g' : Graph} (hs : StepRel g g') {X Y : String}
    (h : ParentE g' X Y) : ParentE g X Y := by
  obtain ⟨c', hc', ⟨ent, hent, hY⟩, p', hp'⟩ := h
  obtain ⟨c, hc, hk, ha, _⟩ := parsed_back hs hc'
  obtain ⟨p, hp, _, _, _⟩ := parsed_back hs hp'
  refine ⟨c, hc, ⟨ent, ?_, hY⟩, p, hp⟩
  rw [← ifk_congr hk ha]
  exact hent

theorem PPath_fwd {g g' : Graph} (hs : StepRel g g') {X Y : String} {L : Nat}
    (h : PPath g X Y L) : PPath g' X Y L := by
  induction h with
  | refl X => exact PPath.refl X
  | step X Y Z L h1 h2 ih => exact PPath.step X Y Z L (ParentE_fwd hs h1) ih

theorem PPath_bwd {g g' : Graph} (hs : StepRel g g') {X Y : String} {L : Nat}
    (h : PPath g' X Y L) : PPath g X Y L := by
  induction h with
  | refl X => exact PPath.refl X
  | step X Y Z L h1 h2 ih => exact PPath.step X Y Z L (ParentE_bwd hs h1) ih

theorem Touch_fwd {g g' : Graph} (hs : StepRel g g') {X Y : String}
    (h : Touch g X Y) : Touch g' X Y := by
  obtain ⟨L, hL⟩ := h
  exact ⟨L, PPath_fwd hs hL⟩

theorem Touch_bwd {g g' : Graph} (hs : StepRel g g') {X Y : String}
    (h : Touch g' X Y) : Touch g X Y := by
  obtain ⟨L, hL⟩ := h
  exact ⟨L, PPath_bwd hs hL⟩

theorem DepthBound_transfer {g g' : Graph} (hs : StepRel g g') {k : String} {n : Nat}
    (h : DepthBound g k n) : DepthBound g' k n := by
  intro Y L hp
  exact h Y L (PPath_bwd hs hp)

theorem entCopiesNow_congr {g g' : Graph} (selfOrig : String) (ent : String × List String)
    (hpar : dlookup g'.nodes ent.1 = dlookup g.nodes ent.1) :
    entCopiesNow g' selfOrig ent = entCopiesNow g selfOrig ent := by
  rw [entCopiesNow, entCopiesNow, hpar]

theorem entsCopiesNow_congr {g g' : Graph} (selfOrig : String) :
    ∀ (ents : List (String × List String)),
    (∀ ent ∈ ents, dlookup g'.nodes ent.1 = dlookup g.nodes ent.1) →
    entsCopiesNow g' selfOrig ents = entsCopiesNow g selfOrig ents
  | [], _ => rfl
  | ent :: ents, h => by
    rw [entsCopiesNow, entsCopiesNow,
        entCopiesNow_congr selfOrig ent (h ent (List.mem_cons_self ent ents)),
        entsCopiesNow_congr selfOrig ents (fun e he => h e (List.mem_cons_of_mem ent he))]

theorem ROkAt_local {g g' : Graph} {Y : String}
    (hn : dlookup g'.nodes Y = dlookup g.nodes Y)
    (hpar : ∀ c ent, dlookup g.nodes Y = some (GNode.parsedNode c) →
      ent ∈ inherited_field_keys c → dlookup g'.nodes ent.1 = dlookup g.nodes ent.1)
    (hm : ∀ x, g.metaNodes.contains x = true → g'.metaNodes.contains x = true)
    (h : ROkAt g Y) : ROkAt g' Y := by
  intro c hc'
  rw [hn] at hc'
  obtain ⟨hmeta, J, hJ, hfix⟩ := h c hc'
  refine ⟨?_, J, ?_, hfix⟩
  · intro ent hent
    rcases hmeta ent hent with h1 | h1
    · exact Or.inl h1
    · exact Or.inr (hm ent.1 h1)
  · rw [entsCopiesNow_congr c.key (inherited_field_keys c) (fun e he => hpar c e hc' he)]
    exact hJ

theorem add_meta_noop (g : Graph) (pk : String) (h : MetaOk g pk) :
    add_meta_node g pk = g := by
  rw [add_meta_node]
  by_cases h1 : pk = "Resource"
  · rw [if_pos h1]
  · rw [if_neg h1]
    rw [if_pos (Or.resolve_left h h1)]

theorem SelfW_nodup {ck : String} {d d' : List (String × Field)} (hw : SelfW ck d d')
    (h : (dkeys d).Nodup) : (dkeys d').Nodup := by
  induction hw with
  | refl => exact h
  | snoc d2 f hsw ih => exact nodup_dkeys_dinsert d2 f.key (f.withOrig ck) ih

theorem dlookup_of_mem_nodup {κ β : Type} [DecidableEq κ] :
    ∀ {d : List (κ × β)}, (dkeys d).Nodup → ∀ kv ∈ d, dlookup d kv.1 = some kv.2 := by
  intro d
  induction d with
  | nil =>
    intro _ kv hkv
    exact absurd hkv (List.not_mem_nil kv)
  | cons hd rest ih =>
    intro hnd kv hkv
    obtain ⟨k0, v0⟩ := hd
    rcases List.mem_cons.mp hkv with rfl | hkv'
    · rw [dlookup, if_pos rfl]
    · rw [dlookup]
      have hne : k0 ≠ kv.1 := by
        intro hcontra
        have : kv.1 ∈ dkeys rest := List.mem_map_of_mem Prod.fst hkv'
        rw [← hcontra] at this
        exact (List.nodup_cons.mp hnd).1 this
      rw [if_neg hne]
      exact ih (List.nodup_cons.mp hnd).2 kv hkv'

/-! ## What a resolution run leaves alone, and how deep it can recurse (C9) -/

theorem dkeys_updatePNode :
    ∀ (nodes : List (String × GNode)) (k : String) (fn : PNode → PNode),
    dkeys (updatePNode nodes k fn) = dkeys nodes
  | [], _, _ => rfl
  | (k', v) :: rest, k, fn => by
    cases v with
    | parsedNode p =>
      by_cases hk : k' = k
      · simp only [updatePNode, List.map_cons, if_pos hk]
        rw [dkeys_cons, dkeys_cons]
        rw [show dkeys (List.map _ rest) = dkeys (updatePNode rest k fn) from rfl]
        rw [dkeys_updatePNode rest k fn]
      · simp only [updatePNode, List.map_cons, if_neg hk]
        rw [dkeys_cons, dkeys_cons]
        rw [show dkeys (List.map _ rest) = dkeys (updatePNode rest k fn) from rfl]
        rw [dkeys_updatePNode rest k fn]
    | anyNode =>
      simp only [updatePNode, List.map_cons]
      rw [dkeys_cons, dkeys_cons]
      rw [show dkeys (List.map _ rest) = dkeys (updatePNode rest k fn) from rfl]
      rw [dkeys_updatePNode rest k fn]
    | elementNode =>
      simp only [updatePNode, List.map_cons]
      rw [dkeys_cons, dkeys_cons]
      rw [show dkeys (List.map _ rest) = dkeys (updatePNode rest k fn) from rfl]
      rw [dkeys_updatePNode rest k fn]
    | derivedNode dk df =>
      simp only [updatePNode, List.map_cons]
      rw [dkeys_cons, dkeys_cons]
      rw [show dkeys (List.map _ rest) = dkeys (updatePNode rest k fn) from rfl]
      rw [dkeys_updatePNode rest k fn]

theorem inhCopies_keys :
    ∀ (pfs : List String) (selfKey selfOrig : String) (pl : List (String × Field)) (g g' : Graph),
    inhCopies selfKey selfOrig pl pfs g = Except.ok g' → dkeys g'.nodes = dkeys g.nodes
  | [], _, _, _, g, g', h => by
    rw [inhCopies] at h
    cases h
    rfl
  | pf :: rest, selfKey, selfOrig, pl, g, g', h => by
    cases hfl : dlookup pl (strToLower pf) with
    | none => simp [inhCopies, hfl] at h
    | some fld =>
      simp only [inhCopies, hfl] at h
      rw [inhCopies_keys rest selfKey selfOrig pl _ g' h]
      exact dkeys_updatePNode g.nodes selfKey _

theorem inhEntryStep_keys (n : Nat)
    (hrec : ∀ (g : Graph) (k : String) (g' : Graph),
      add_inherited_fields n g k = Except.ok g' → dkeys g'.nodes = dkeys g.nodes)
    (selfKey selfOrig : String) (ent : String × List String) (g g' : Graph)
    (h : inhEntryStep (add_inherited_fields n) selfKey selfOrig g ent = Except.ok g') :
    dkeys g'.nodes = dkeys g.nodes := by
  cases hlk : dlookup g.nodes ent.1 with
  | none => simp [inhEntryStep, hlk] at h
  | some nd =>
    cases nd with
    | parsedNode p =>
      simp only [inhEntryStep, hlk, bind, Except.bind] at h
      cases hr : add_inherited_fields n (add_meta_node g ent.1) ent.1 with
      | error s => simp [hr] at h
      | ok g3 =>
        simp only [hr] at h
        cases hlk3 : dlookup g3.nodes ent.1 with
        | none => simp [hlk3] at h
        | some nd3 =>
          cases nd3 with
          | parsedNode p' =>
            simp only [hlk3] at h
            rw [inhCopies_keys ent.2 selfKey selfOrig _ g3 g' h, hrec _ _ _ hr,
                add_meta_nodes]
          | anyNode => simp [hlk3] at h
          | elementNode => simp [hlk3] at h
          | derivedNode dk df => simp [hlk3] at h
    | elementNode =>
      simp only [inhEntryStep, hlk] at h
      rw [inhCopies_keys ent.2 selfKey selfOrig _ _ g' h, add_meta_nodes]
    | anyNode => simp [inhEntryStep, hlk] at h
    | derivedNode dk df => simp [inhEntryStep, hlk] at h

theorem inhEnts_keys (n : Nat)
    (hrec : ∀ (g : Graph) (k : String) (g' : Graph),
      add_inherited_fields n g k = Except.ok g' → dkeys g'.nodes = dkeys g.nodes) :
    ∀ (ents : List (String × List String)) (selfKey selfOrig : String) (g g' : Graph),
    ents.foldlM (inhEntryStep (add_inherited_fields n) selfKey selfOrig) g = Except.ok g' →
    dkeys g'.nodes = dkeys g.nodes
  | [], _, _, g, g', h => by
    rw [List.foldlM_nil] at h
    cases h
    rfl
  | ent :: ents, selfKey, selfOrig, g, g', h => by
    rw [List.foldlM_cons] at h
    obtain ⟨g1, h1, h2⟩ := except_bind_ok h
    rw [inhEnts_keys n hrec ents selfKey selfOrig g1 g' h2,
        inhEntryStep_keys n hrec selfKey selfOrig ent g g1 h1]

theorem addInh_keys :
    ∀ (n : Nat) (g : Graph) (k : String) (g' : Graph),
    add_inherited_fields n g k = Except.ok g' → dkeys g'.nodes = dkeys g.nodes
  | 0, g, k, g', h => by
    rw [addInh_zero] at h
    exact absurd h (by simp)
  | n + 1, g, k, g', h => by
    rw [addInh_succ] at h
    cases hlk : dlookup g.nodes k with
    | none => simp [hlk] at h
    | some nd =>
      cases nd with
      | parsedNode c =>
        simp only [hlk] at h
        exact inhEnts_keys n (addInh_keys n) (inherited_field_keys c) k c.key g g' h
      | anyNode => simp [hlk] at h
      | elementNode => simp [hlk] at h
      | derivedNode dk df => simp [hlk] at h

theorem INHWF_run {n : Nat} {g g' : Graph} {k : String}
    (h : add_inherited_fields n g k = Except.ok g') (hwf : INHWF g) : INHWF g' := by
  have hkeys := addInh_keys n g k g' h
  have hs := addInh_rel n g k g' h
  refine ⟨by rw [hkeys]; exact hwf.1, ?_⟩
  intro kv hkv c' hc'
  have hl' : dlookup g'.nodes kv.1 = some kv.2 := by
    refine dlookup_of_mem_nodup ?_ kv hkv
    rw [hkeys]
    exact hwf.1
  rw [hc'] at hl'
  obtain ⟨c, hc, _, _, hw⟩ := parsed_back hs hl'
  refine SelfW_nodup hw ?_
  exact hwf.2 (kv.1, GNode.parsedNode c) (dlookup_mem hc) c rfl

theorem Touch_refl (g : Graph) (X : String) : Touch g X X := ⟨0, PPath.refl X⟩

theorem Touch_prepend {g : Graph} {X Y Z : String} (h1 : ParentE g X Y)
    (h2 : Touch g Y Z) : Touch g X Z := by
  obtain ⟨L, hL⟩ := h2
  exact ⟨L + 1, PPath.step X Y Z L h1 hL⟩

theorem inhCopies_untouched :
    ∀ (pfs : List String) (selfKey selfOrig : String) (pl : List (String × Field))
      (g g' : Graph) (Z : String),
    inhCopies selfKey selfOrig pl pfs g = Except.ok g' → Z ≠ selfKey →
    dlookup g'.nodes Z = dlookup g.nodes Z
  | [], _, _, _, g, g', Z, h, _ => by
    rw [inhCopies] at h
    cases h
    rfl
  | pf :: rest, selfKey, selfOrig, pl, g, g', Z, h, hz => by
    cases hfl : dlookup pl (strToLower pf) with
    | none => simp [inhCopies, hfl] at h
    | some fld =>
      simp only [inhCopies, hfl] at h
      rw [inhCopies_untouched rest selfKey selfOrig pl _ g' Z h hz]
      exact dlookup_updatePNode_ne g.nodes selfKey _ Z hz

theorem inhEntryStep_untouched (n : Nat)
    (hrec : ∀ (g : Graph) (P : String) (g₁ : Graph),
      add_inherited_fields n g P = Except.ok g₁ →
      ∀ Z, ¬ Touch g P Z → dlookup g₁.nodes Z = dlookup g.nodes Z)
    (selfKey selfOrig : String) (ent : String × List String) (g g' : Graph) (Z : String)
    (h : inhEntryStep (add_inherited_fields n) selfKey selfOrig g ent = Except.ok g')
    (hz : Z ≠ selfKey)
    (hze : (∃ p, dlookup g.nodes ent.1 = some (GNode.parsedNode p)) → ¬ Touch g ent.1 Z) :
    dlookup g'.nodes Z = dlookup g.nodes Z := by
  cases hlk : dlookup g.nodes ent.1 with
  | none => simp [inhEntryStep, hlk] at h
  | some nd =>
    cases nd with
    | parsedNode p =>
      simp only [inhEntryStep, hlk, bind, Except.bind] at h
      cases hr : add_inherited_fields n (add_meta_node g ent.1) ent.1 with
      | error s => simp [hr] at h
      | ok g3 =>
        simp only [hr] at h
        cases hlk3 : dlookup g3.nodes ent.1 with
        | none => simp [hlk3] at h
        | some nd3 =>
          cases nd3 with
          | parsedNode p' =>
            simp only [hlk3] at h
            have hmeta : StepRel g (add_meta_node g ent.1) := StepRel_add_meta g ent.1
            have hnt : ¬ Touch (add_meta_node g ent.1) ent.1 Z := by
              intro ht
              exact hze ⟨p, hlk⟩ (Touch_bwd hmeta ht)
            rw [inhCopies_untouched ent.2 selfKey selfOrig _ g3 g' Z h hz,
                hrec _ _ _ hr Z hnt, add_meta_nodes]
          | anyNode => simp [hlk3] at h
          | elementNode => simp [hlk3] at h
          | derivedNode dk df => simp [hlk3] at h
    | elementNode =>
      simp only [inhEntryStep, hlk] at h
      rw [inhCopies_untouched ent.2 selfKey selfOrig _ _ g' Z h hz, add_meta_nodes]
    | anyNode => simp [inhEntryStep, hlk] at h
    | derivedNode dk df => simp [inhEntryStep, hlk] at h

theorem inhEnts_untouched (n : Nat)
    (hrec : ∀ (g : Graph) (P : String) (g₁ : Graph),
      add_inherited_fields n g P = Except.ok g₁ →
      ∀ Z, ¬ Touch g P Z → dlookup g₁.nodes Z = dlookup g.nodes Z) :
    ∀ (ents : List (String × List String)) (selfKey selfOrig : String) (g g' : Graph)
      (Z : String),
    ents.foldlM (inhEntryStep (add_inherited_fields n) selfKey selfOrig) g = Except.ok g' →
    Z ≠ selfKey →
    (∀ c0, dlookup g.nodes selfKey = some (GNode.parsedNode c0) → c0.key = selfOrig) →
    (∀ ent ∈ ents, (∃ p, dlookup g.nodes ent.1 = some (GNode.parsedNode p)) →
      ¬ Touch g ent.1 Z) →
    dlookup g'.nodes Z = dlookup g.nodes Z
  | [], _, _, g, g', Z, h, _, _, _ => by
    rw [List.foldlM_nil] at h
    cases h
    rfl
  | ent :: ents, selfKey, selfOrig, g, g', Z, h, hz, hko, hze => by
    rw [List.foldlM_cons] at h
    obtain ⟨g1, h1, h2⟩ := except_bind_ok h
    have hs1 : StepRel g g1 :=
      inhEntryStep_rel n (addInh_rel n) selfKey selfOrig ent g g1 h1 hko
    have h1eq : dlookup g1.nodes Z = dlookup g.nodes Z :=
      inhEntryStep_untouched n hrec selfKey selfOrig ent g g1 Z h1 hz
        (hze ent (List.mem_cons_self ent ents))
    have hze1 : ∀ ent' ∈ ents, (∃ p, dlookup g1.nodes ent'.1 = some (GNode.parsedNode p)) →
        ¬ Touch g1 ent'.1 Z := by
      intro ent' hm hp1 ht
      obtain ⟨p1, hp1'⟩ := hp1
      obtain ⟨p0, hp0, _, _, _⟩ := parsed_back hs1 hp1'
      exact hze ent' (List.mem_cons_of_mem ent hm) ⟨p0, hp0⟩ (Touch_bwd hs1 ht)
    rw [inhEnts_untouched n hrec ents selfKey selfOrig g1 g' Z h2 hz
        (hko_step selfKey selfOrig hs1 hko) hze1, h1eq]

theorem addInh_untouched :
    ∀ (n : Nat) (g : Graph) (X : String) (g₁ : Graph),
    add_inherited_fields n g X = Except.ok g₁ →
    ∀ Z, ¬ Touch g X Z → dlookup g₁.nodes Z = dlookup g.nodes Z
  | 0, g, X, g₁, h => by
    rw [addInh_zero] at h
    exact absurd h (by simp)
  | n + 1, g, X, g₁, h => by
    rw [addInh_succ] at h
    cases hlk : dlookup g.nodes X with
    | none => simp [hlk] at h
    | some nd =>
      cases nd with
      | parsedNode c =>
        simp only [hlk] at h
        intro Z hnt
        refine inhEnts_untouched n (addInh_untouched n) (inherited_field_keys c) X c.key
          g g₁ Z h ?_ ?_ ?_
        · intro hzx
          exact hnt (hzx ▸ Touch_refl g X)
        · intro c0 h0
          rw [hlk] at h0
          rw [(GNode.parsedNode.inj (Option.some.inj h0)).symm]
        · intro ent hm hp ht
          obtain ⟨p, hp'⟩ := hp
          exact hnt (Touch_prepend ⟨c, hlk, ⟨ent, hm, rfl⟩, p, hp'⟩ ht)
      | anyNode => simp [hlk] at h
      | elementNode => simp [hlk] at h
      | derivedNode dk df => simp [hlk] at h

theorem inhEnts_subcall (n : Nat) :
    ∀ (ents : List (String × List String)) (selfKey selfOrig : String) (g g' : Graph),
    ents.foldlM (inhEntryStep (add_inherited_fields n) selfKey selfOrig) g = Except.ok g' →
    (∀ c0, dlookup g.nodes selfKey = some (GNode.parsedNode c0) → c0.key = selfOrig) →
    ∀ ent ∈ ents, ∀ p, dlookup g.nodes ent.1 = some (GNode.parsedNode p) →
    ∃ (gpre g3 : Graph), StepRel g gpre ∧
      add_inherited_fields n (add_meta_node gpre ent.1) ent.1 = Except.ok g3 := by
  intro ents selfKey selfOrig g g' h hko ent hment p hp
  obtain ⟨l1, l2, hsplit⟩ := List.append_of_mem hment
  rw [hsplit] at h
  obtain ⟨gpre, gmid, hpre, hstep, _⟩ := foldlM_ok_split _ l1 _ l2 g g' h
  have spre : StepRel g gpre := inhEnts_rel n (addInh_rel n) l1 selfKey selfOrig g gpre hpre hko
  obtain ⟨p', hp', _, _, _, _⟩ := spre.2.2.2 ent.1 p hp
  refine ⟨gpre, ?_⟩
  simp only [inhEntryStep, hp', bind, Except.bind] at hstep
  cases hr : add_inherited_fields n (add_meta_node gpre ent.1) ent.1 with
  | error s => simp [hr] at hstep
  | ok g3 => exact ⟨g3, spre, rfl⟩

theorem addInh_depth :
    ∀ (n : Nat) (g : Graph) (X : String) (g₁ : Graph),
    add_inherited_fields n g X = Except.ok g₁ →
    ∀ Y L, PPath g X Y L → L < n
  | 0, g, X, g₁, h => by
    rw [addInh_zero] at h
    exact absurd h (by simp)
  | n + 1, g, X, g₁, h => by
    rw [addInh_succ] at h
    cases hlk : dlookup g.nodes X with
    | none => simp [hlk] at h
    | some nd =>
      cases nd with
      | parsedNode c =>
        simp only [hlk] at h
        intro Y L hp
        rcases hp with _ | ⟨X1, M, Y2, L2, hPE, hp2⟩
        · exact Nat.succ_pos n
        · obtain ⟨cm, hcm, ⟨ent, hent, hent1⟩, p, hpp⟩ := hPE
          have hcc : cm = c := by
            rw [hlk] at hcm
            exact (GNode.parsedNode.inj (Option.some.inj hcm)).symm
          subst hcc
          have hko0 : ∀ c0, dlookup g.nodes X = some (GNode.parsedNode c0) → c0.key = cm.key := by
            intro c0 h0
            rw [hlk] at h0
            rw [(GNode.parsedNode.inj (Option.some.inj h0)).symm]
          obtain ⟨gpre, g3, spre, hr⟩ := inhEnts_subcall n (inherited_field_keys cm) X cm.key
            g g₁ h hko0 ent hent p (hent1 ▸ hpp)
          have strans : StepRel g (add_meta_node gpre ent.1) :=
            StepRel_trans spre (StepRel_add_meta gpre ent.1)
          have hp2' : PPath (add_meta_node gpre ent.1) ent.1 Y L2 := by
            rw [← hent1] at hp2
            exact PPath_fwd strans hp2
          have := addInh_depth n _ ent.1 g3 hr Y L2 hp2'
          exact Nat.succ_lt_succ this
      | anyNode => simp [hlk] at h
      | elementNode => simp [hlk] at h
      | derivedNode dk df => simp [hlk] at h

theorem PPath_append {g : Graph} :
    ∀ {X Y Z : String} {a b : Nat}, PPath g X Y a → PPath g Y Z b → PPath g X Z (a + b)
  | _, _, Z, _, b, PPath.refl X, h2 => by simpa using h2
  | _, _, Z, _, b, PPath.step X M Y L h1 h1', h2 => by
    have h3 := PPath_append h1' h2
    have h4 := PPath.step X M Z (L + b) h1 h3
    rwa [Nat.add_right_comm]

theorem PPath_pump {g : Graph} {X : String} {c : Nat} (h : PPath g X X c) :
    ∀ m, PPath g X X (m * c)
  | 0 => by
    rw [Nat.zero_mul]
    exact PPath.refl X
  | m + 1 => by
    rw [Nat.succ_mul]
    exact PPath_append (PPath_pump h m) h

theorem no_touch_cycle {n : Nat} {g : Graph} {X : String} {g₁ : Graph} {P : String}
    (h : add_inherited_fields n g X = Except.ok g₁) (hPE : ParentE g X P) :
    ¬ Touch g P X := by
  rintro ⟨L, hp⟩
  have hcyc : PPath g X X (L + 1) := PPath.step X P X L hPE hp
  have hlong := PPath_pump hcyc n
  have hd := addInh_depth n g X g₁ h X (n * (L + 1)) hlong
  have hle : n ≤ n * (L + 1) := Nat.le_mul_of_pos_right n (Nat.succ_pos L)
  omega

theorem updatePNode_comp :
    ∀ (nodes : List (String × GNode)) (k : String) (fn fn' : PNode → PNode),
    updatePNode (updatePNode nodes k fn) k fn' = updatePNode nodes k (fun p => fn' (fn p))
  | [], _, _, _ => rfl
  | (k', v) :: rest, k, fn, fn' => by
    cases v with
    | parsedNode p =>
      by_cases hk : k' = k
      · simp only [updatePNode, List.map_cons, if_pos hk]
        exact congrArg _ (updatePNode_comp rest k fn fn')
      · simp only [updatePNode, List.map_cons, if_neg hk]
        exact congrArg _ (updatePNode_comp rest k fn fn')
    | anyNode =>
      simp only [updatePNode, List.map_cons]
      exact congrArg _ (updatePNode_comp rest k fn fn')
    | elementNode =>
      simp only [updatePNode, List.map_cons]
      exact congrArg _ (updatePNode_comp rest k fn fn')
    | derivedNode dk df =>
      simp only [updatePNode, List.map_cons]
      exact congrArg _ (updatePNode_comp rest k fn fn')

theorem updatePNode_congr :
    ∀ (nodes : List (String × GNode)) (k : String) (fn fn' : PNode → PNode),
    (∀ p, fn p = fn' p) → updatePNode nodes k fn = updatePNode nodes k fn'
  | [], _, _, _, _ => rfl
  | (k', v) :: rest, k, fn, fn', hf => by
    cases v with
    | parsedNode p =>
      by_cases hk : k' = k
      · simp only [updatePNode, List.map_cons, if_pos hk, hf p]
        exact congrArg _ (updatePNode_congr rest k fn fn' hf)
      · simp only [updatePNode, List.map_cons, if_neg hk]
        exact congrArg _ (updatePNode_congr rest k fn fn' hf)
    | anyNode =>
      simp only [updatePNode, List.map_cons]
      exact congrArg _ (updatePNode_congr rest k fn fn' hf)
    | elementNode =>
      simp only [updatePNode, List.map_cons]
      exact congrArg _ (updatePNode_congr rest k fn fn' hf)
    | derivedNode dk df =>
      simp only [updatePNode, List.map_cons]
      exact congrArg _ (updatePNode_congr rest k fn fn' hf)

theorem updatePNode_id :
    ∀ (nodes : List (String × GNode)) (k : String),
    updatePNode nodes k (fun p => p) = nodes
  | [], _ => rfl
  | (k', v) :: rest, k => by
    cases v with
    | parsedNode p =>
      by_cases hk : k' = k
      · simp only [updatePNode, List.map_cons, if_pos hk]
        exact congrArg _ (updatePNode_id rest k)
      · simp only [updatePNode, List.map_cons, if_neg hk]
        exact congrArg _ (updatePNode_id rest k)
    | anyNode =>
      simp only [updatePNode, List.map_cons]
      exact congrArg _ (updatePNode_id rest k)
    | elementNode =>
      simp only [updatePNode, List.map_cons]
      exact congrArg _ (updatePNode_id rest k)
    | derivedNode dk df =>
      simp only [updatePNode, List.map_cons]
      exact congrArg _ (updatePNode_id rest k)

theorem updatePNode_not_mem :
    ∀ (nodes : List (String × GNode)) (k : String) (fn : PNode → PNode),
    k ∉ dkeys nodes → updatePNode nodes k fn = nodes
  | [], _, _, _ => rfl
  | (k', v) :: rest, k, fn, h => by
    have hk : k' ≠ k := by
      intro hcontra
      exact h (hcontra ▸ List.mem_cons_self k' (dkeys rest))
    have hrest : k ∉ dkeys rest := fun hm => h (List.mem_cons_of_mem k' hm)
    cases v with
    | parsedNode p =>
      simp only [updatePNode, List.map_cons, if_neg hk]
      exact congrArg _ (updatePNode_not_mem rest k fn hrest)
    | anyNode =>
      simp only [updatePNode, List.map_cons]
      exact congrArg _ (updatePNode_not_mem rest k fn hrest)
    | elementNode =>
      simp only [updatePNode, List.map_cons]
      exact congrArg _ (updatePNode_not_mem rest k fn hrest)
    | derivedNode dk df =>
      simp only [updatePNode, List.map_cons]
      exact congrArg _ (updatePNode_not_mem rest k fn hrest)

theorem updatePNode_fix :
    ∀ (nodes : List (String × GNode)) (k : String) (fn : PNode → PNode),
    (dkeys nodes).Nodup → (∀ p, (k, GNode.parsedNode p) ∈ nodes → fn p = p) →
    updatePNode nodes k fn = nodes
  | [], _, _, _, _ => rfl
  | (k', v) :: rest, k, fn, hnd, hfix => by
    have hndr : (dkeys rest).Nodup := (List.nodup_cons.mp hnd).2
    have hfr : ∀ p, (k, GNode.parsedNode p) ∈ rest → fn p = p :=
      fun p hm => hfix p (List.mem_cons_of_mem _ hm)
    cases v with
    | parsedNode p =>
      by_cases hk : k' = k
      · subst hk
        simp only [updatePNode, List.map_cons, if_pos rfl,
          hfix p (List.mem_cons_self _ _)]
        have hnotin : k' ∉ dkeys rest := (List.nodup_cons.mp hnd).1
        exact congrArg _ (updatePNode_not_mem rest k' fn hnotin)
      · simp only [updatePNode, List.map_cons, if_neg hk]
        exact congrArg _ (updatePNode_fix rest k fn hndr hfr)
    | anyNode =>
      simp only [updatePNode, List.map_cons]
      exact congrArg _ (updatePNode_fix rest k fn hndr hfr)
    | elementNode =>
      simp only [updatePNode, List.map_cons]
      exact congrArg _ (updatePNode_fix rest k fn hndr hfr)
    | derivedNode dk df =>
      simp only [updatePNode, List.map_cons]
      exact congrArg _ (updatePNode_fix rest k fn hndr hfr)

theorem Wr_nil (g : Graph) (k : String) : Wr g k [] = g := by
  rw [Wr]
  show ({ g with nodes := updatePNode g.nodes k (fun p => p) } : Graph) = g
  rw [updatePNode_id]

theorem Wr_comp (g : Graph) (k : String) (J1 J2 : CopyList) :
    Wr (Wr g k J1) k J2 = Wr g k (J1 ++ J2) := by
  rw [Wr, Wr, Wr]
  show ({ g with nodes := updatePNode (updatePNode g.nodes k _) k _ } : Graph) = _
  rw [updatePNode_comp]
  exact congrArg (fun nds => { g with nodes := nds })
    (updatePNode_congr g.nodes k _ _ (fun p => by
      show ({ p with inherited := applyCopies (applyCopies p.inherited J1) J2 } : PNode) = _
      rw [← applyCopies_append]))

theorem Wr_nodes_ne (g : Graph) (k : String) (J : CopyList) (j : String) (hj : j ≠ k) :
    dlookup (Wr g k J).nodes j = dlookup g.nodes j :=
  dlookup_updatePNode_ne g.nodes k _ j hj

theorem Wr_fix (g : Graph) (k : String) (J : CopyList) (c : PNode)
    (hnd : (dkeys g.nodes).Nodup)
    (hc : dlookup g.nodes k = some (GNode.parsedNode c))
    (hfix : applyCopies c.inherited J = c.inherited) : Wr g k J = g := by
  rw [Wr]
  have : updatePNode g.nodes k
      (fun cc => { cc with inherited := applyCopies cc.inherited J }) = g.nodes := by
    refine updatePNode_fix g.nodes k _ hnd ?_
    intro p hm
    have hp : p = c := by
      have := dlookup_of_mem_nodup hnd (k, GNode.parsedNode p) hm
      rw [hc] at this
      exact GNode.parsedNode.inj (Option.some.inj this.symm)
    subst hp
    show ({ p with inherited := applyCopies p.inherited J } : PNode) = p
    rw [hfix]
  rw [this]

theorem SelfW_applyCopies (ck : String) :
    ∀ (J : CopyList) (d : List (String × Field)),
    (∀ w ∈ J, ∃ f : Field, w = (f.key, f.withOrig ck)) → SelfW ck d (applyCopies d J)
  | [], d, _ => SelfW.refl d
  | w :: J, d, hsh => by
    obtain ⟨f, hf⟩ := hsh w (List.mem_cons_self w J)
    have h1 : SelfW ck d (dinsert d w.1 w.2) := by
      rw [hf]
      exact SelfW.snoc d d f (SelfW.refl d)
    have h2 : SelfW ck (dinsert d w.1 w.2) (applyCopies (dinsert d w.1 w.2) J) :=
      SelfW_applyCopies ck J (dinsert d w.1 w.2)
        (fun w' hw' => hsh w' (List.mem_cons_of_mem w hw'))
    exact SelfW_trans h1 h2

theorem StepRel_updateInh (g : Graph) (selfKey selfOrig : String)
    (T : List (String × Field) → List (String × Field))
    (hT : ∀ d, SelfW selfOrig d (T d))
    (hko : ∀ c0, dlookup g.nodes selfKey = some (GNode.parsedNode c0) → c0.key = selfOrig) :
    StepRel g { g with nodes := updatePNode g.nodes selfKey (fun c => { c with inherited := T c.inherited }) } := by
  refine ⟨?_, ?_, fun x h => h, ?_⟩
  · intro j nd h hp
    by_cases hj : j = selfKey
    · subst hj
      show dlookup (updatePNode g.nodes j _) j = some nd
      rw [dlookup_updatePNode_self, h]
      cases nd with
      | parsedNode p => simp [GNode.isParsed] at hp
      | anyNode => rfl
      | elementNode => rfl
      | derivedNode dk df => rfl
    · show dlookup (updatePNode g.nodes selfKey _) j = some nd
      rw [dlookup_updatePNode_ne g.nodes selfKey _ j hj]
      exact h
  · intro j h
    by_cases hj : j = selfKey
    · subst hj
      show dlookup (updatePNode g.nodes j _) j = none
      rw [dlookup_updatePNode_self, h]
      rfl
    · show dlookup (updatePNode g.nodes selfKey _) j = none
      rw [dlookup_updatePNode_ne g.nodes selfKey _ j hj]
      exact h
  · intro j c h
    by_cases hj : j = selfKey
    · subst hj
      refine ⟨{ c with inherited := T c.inherited }, ?_, rfl, rfl, rfl, ?_⟩
      · show dlookup (updatePNode g.nodes j _) j = _
        rw [dlookup_updatePNode_self, h]
        rfl
      · rw [hko c h]
        exact hT c.inherited
    · refine ⟨c, ?_, rfl, rfl, rfl, SelfW.refl c.inherited⟩
      show dlookup (updatePNode g.nodes selfKey _) j = _
      rw [dlookup_updatePNode_ne g.nodes selfKey _ j hj]
      exact h

theorem StepRel_Wr (g : Graph) (k selfOrig : String) (J : CopyList)
    (hko : ∀ c0, dlookup g.nodes k = some (GNode.parsedNode c0) → c0.key = selfOrig)
    (hsh : ∀ w ∈ J, ∃ f : Field, w = (f.key, f.withOrig selfOrig)) :
    StepRel g (Wr g k J) := by
  rw [Wr]
  exact StepRel_updateInh g k selfOrig (fun d => applyCopies d J)
    (fun d => SelfW_applyCopies selfOrig J d hsh) hko

theorem resolveLookups_shape :
    ∀ (pfs : List String) (selfOrig : String) (pl : List (String × Field)) (cs : CopyList),
    resolveLookups selfOrig pl pfs = Except.ok cs →
    ∀ w ∈ cs, ∃ f : Field, w = (f.key, f.withOrig selfOrig)
  | [], _, _, cs, h => by
    rw [resolveLookups] at h
    cases h
    intro w hw
    exact absurd hw (List.not_mem_nil w)
  | pf :: rest, selfOrig, pl, cs, h => by
    cases hfl : dlookup pl (strToLower pf) with
    | none => simp [resolveLookups, hfl] at h
    | some fld =>
      simp only [resolveLookups, hfl, bind, Except.bind] at h
      cases hr : resolveLookups selfOrig pl rest with
      | error s => simp [hr] at h
      | ok cs' =>
        simp only [hr, pure, Except.pure] at h
        cases h
        intro w hw
        rcases List.mem_cons.mp hw with rfl | hw'
        · exact ⟨fld, rfl⟩
        · exact resolveLookups_shape rest selfOrig pl cs' hr w hw'

theorem entCopiesNow_shape (g : Graph) (selfOrig : String) (ent : String × List String)
    (cs : CopyList) (h : entCopiesNow g selfOrig ent = Except.ok cs) :
    ∀ w ∈ cs, ∃ f : Field, w = (f.key, f.withOrig selfOrig) := by
  rw [entCopiesNow] at h
  cases hlk : dlookup g.nodes ent.1 with
  | none => rw [hlk] at h; simp at h
  | some nd =>
    cases nd with
    | parsedNode p =>
      rw [hlk] at h
      exact resolveLookups_shape ent.2 selfOrig _ cs h
    | elementNode =>
      rw [hlk] at h
      exact resolveLookups_shape ent.2 selfOrig _ cs h
    | anyNode => rw [hlk] at h; simp at h
    | derivedNode dk df => rw [hlk] at h; simp at h

theorem inhCopies_sim :
    ∀ (pfs : List String) (selfKey selfOrig : String) (pl : List (String × Field))
      (g : Graph) (cs : CopyList),
    resolveLookups selfOrig pl pfs = Except.ok cs →
    inhCopies selfKey selfOrig pl pfs g = Except.ok (Wr g selfKey cs)
  | [], selfKey, selfOrig, pl, g, cs, h => by
    rw [resolveLookups] at h
    cases h
    rw [inhCopies, Wr_nil]
  | pf :: rest, selfKey, selfOrig, pl, g, cs, h => by
    cases hfl : dlookup pl (strToLower pf) with
    | none => simp [resolveLookups, hfl] at h
    | some fld =>
      simp only [resolveLookups, hfl, bind, Except.bind] at h
      cases hr : resolveLookups selfOrig pl rest with
      | error s => simp [hr] at h
      | ok cs' =>
        simp only [hr, pure, Except.pure] at h
        cases h
        simp only [inhCopies, hfl]
        have hIH := inhCopies_sim rest selfKey selfOrig pl
          (Wr g selfKey [(fld.key, fld.withOrig selfOrig)]) cs' hr
        have hstate : ({ g with nodes := updatePNode g.nodes selfKey (fun c => { c with inherited := dinsert c.inherited fld.key (fld.withOrig selfOrig) }) } : Graph) = Wr g selfKey [(fld.key, fld.withOrig selfOrig)] := rfl
        rw [hstate, hIH, Wr_comp]
        rfl

theorem inhCopies_resolves :
    ∀ (pfs : List String) (selfKey selfOrig : String) (pl : List (String × Field))
      (g g' : Graph),
    inhCopies selfKey selfOrig pl pfs g = Except.ok g' →
    ∃ cs, resolveLookups selfOrig pl pfs = Except.ok cs
  | [], _, _, _, _, _, _ => ⟨[], rfl⟩
  | pf :: rest, selfKey, selfOrig, pl, g, g', h => by
    cases hfl : dlookup pl (strToLower pf) with
    | none => simp [inhCopies, hfl] at h
    | some fld =>
      simp only [inhCopies, hfl] at h
      obtain ⟨cs', hcs'⟩ := inhCopies_resolves rest selfKey selfOrig pl _ g' h
      refine ⟨(fld.key, fld.withOrig selfOrig) :: cs', ?_⟩
      simp only [resolveLookups, hfl, bind, Except.bind, hcs', pure, Except.pure]

theorem Touch_trans {g : Graph} {A B C : String} (h1 : Touch g A B) (h2 : Touch g B C) :
    Touch g A C := by
  obtain ⟨a, ha⟩ := h1
  obtain ⟨b, hb⟩ := h2
  exact ⟨a + b, PPath_append ha hb⟩

theorem Touch_snoc {g : Graph} {A B C : String} (h1 : Touch g A B) (h2 : ParentE g B C) :
    Touch g A C :=
  Touch_trans h1 ⟨1, PPath.step B C C 0 h2 (PPath.refl C)⟩

theorem DepthBound_no_cycle {g : Graph} {k P : String} {n : Nat}
    (hDB : DepthBound g k n) (hPE : ParentE g k P) : ¬ Touch g P k := by
  rintro ⟨L, hp⟩
  have hcyc : PPath g k k (L + 1) := PPath.step k P k L hPE hp
  have hlong := PPath_pump hcyc n
  have hd := hDB k (n * (L + 1)) hlong
  have hle : n ≤ n * (L + 1) := Nat.le_mul_of_pos_right n (Nat.succ_pos L)
  omega

theorem noopFold (m : Nat)
    (hIH : ∀ (g : Graph) (k : String) (c : PNode),
      dlookup g.nodes k = some (GNode.parsedNode c) → (dkeys g.nodes).Nodup →
      DepthBound g k m → (∀ Y, Touch g k Y → ROkAt g Y) →
      add_inherited_fields m g k = Except.ok g) :
    ∀ (ents : List (String × List String)) (g : Graph) (k : String) (c : PNode)
      (Jpre Jents : CopyList),
    dlookup g.nodes k = some (GNode.parsedNode c) →
    (dkeys g.nodes).Nodup →
    DepthBound g k (m + 1) →
    (∀ Y, Touch g k Y → ROkAt g Y) →
    (∀ ent ∈ ents, ent ∈ inherited_field_keys c) →
    entsCopiesNow g c.key ents = Except.ok Jents →
    (∀ w ∈ Jpre, ∃ f : Field, w = (f.key, f.withOrig c.key)) →
    ents.foldlM (inhEntryStep (add_inherited_fields m) k c.key) (Wr g k Jpre) =
      Except.ok (Wr g k (Jpre ++ Jents))
  | [], g, k, c, Jpre, Jents, hlk, hnd, hDB, hres, hsub, hcs, hsh => by
    rw [entsCopiesNow] at hcs
    cases hcs
    rw [List.foldlM_nil, List.append_nil]
    rfl
  | ent :: ents, g, k, c, Jpre, Jents, hlk, hnd, hDB, hres, hsub, hcs, hsh => by
    rw [entsCopiesNow] at hcs
    obtain ⟨cs, hcshead, hcs2⟩ := except_bind_ok hcs
    obtain ⟨Jrest, hJrest, hcs3⟩ := except_bind_ok hcs2
    have hJe : Jents = cs ++ Jrest := (Except.ok.inj hcs3).symm
    subst hJe
    have hko : ∀ c0, dlookup g.nodes k = some (GNode.parsedNode c0) → c0.key = c.key := by
      intro c0 h0
      rw [hlk] at h0
      rw [(GNode.parsedNode.inj (Option.some.inj h0)).symm]
    have sG : StepRel g (Wr g k Jpre) := StepRel_Wr g k c.key Jpre hko hsh
    have hMeta : MetaOk g ent.1 :=
      (hres k (Touch_refl g k) c hlk).1 ent (hsub ent (List.mem_cons_self ent ents))
    have hMetaG : MetaOk (Wr g k Jpre) ent.1 := hMeta
    have hmnoop : add_meta_node (Wr g k Jpre) ent.1 = Wr g k Jpre :=
      add_meta_noop _ ent.1 hMetaG
    rw [entCopiesNow] at hcshead
    cases hpar : dlookup g.nodes ent.1 with
    | none => rw [hpar] at hcshead; simp at hcshead
    | some nd =>
      cases nd with
      | parsedNode p =>
        rw [hpar] at hcshead
        have hPE : ParentE g k ent.1 :=
          ⟨c, hlk, ⟨ent, hsub ent (List.mem_cons_self ent ents), rfl⟩, p, hpar⟩
        have hne : ent.1 ≠ k := by
          intro he
          exact DepthBound_no_cycle hDB hPE (by rw [he]; exact Touch_refl g k)
        have hparG : dlookup (Wr g k Jpre).nodes ent.1 = some (GNode.parsedNode p) := by
          rw [Wr_nodes_ne g k Jpre ent.1 hne]
          exact hpar
        have hndG : (dkeys (Wr g k Jpre).nodes).Nodup := by
          show (dkeys (updatePNode g.nodes k _)).Nodup
          rw [dkeys_updatePNode]
          exact hnd
        have hDBG : DepthBound (Wr g k Jpre) ent.1 m := by
          intro Y L hp
          have hp' := PPath_bwd sG hp
          have := hDB Y (L + 1) (PPath.step k ent.1 Y L hPE hp')
          omega
        have hresG : ∀ Y, Touch (Wr g k Jpre) ent.1 Y → ROkAt (Wr g k Jpre) Y := by
          intro Y hTY
          have hTYg : Touch g ent.1 Y := Touch_bwd sG hTY
          have hYne : Y ≠ k := by
            intro he
            exact DepthBound_no_cycle hDB hPE (he ▸ hTYg)
          refine ROkAt_local (Wr_nodes_ne g k Jpre Y hYne) ?_ (fun x h => h)
            (hres Y (Touch_prepend hPE hTYg))
          intro cy enty hcy hmy
          have hpne : enty.1 ≠ k := by
            intro he
            refine DepthBound_no_cycle hDB hPE (Touch_snoc hTYg ?_)
            rw [← he]
            exact ⟨cy, hcy, ⟨enty, hmy, rfl⟩, c, he ▸ hlk⟩
          exact Wr_nodes_ne g k Jpre enty.1 hpne
        have hrec : add_inherited_fields m (Wr g k Jpre) ent.1 = Except.ok (Wr g k Jpre) :=
          hIH (Wr g k Jpre) ent.1 p hparG hndG hDBG hresG
        have hstep : inhEntryStep (add_inherited_fields m) k c.key (Wr g k Jpre) ent =
            Except.ok (Wr g k (Jpre ++ cs)) := by
          simp only [inhEntryStep, hparG, bind, Except.bind]
          rw [hmnoop]
          simp only [hrec, hparG]
          rw [inhCopies_sim ent.2 k c.key _ _ cs hcshead, Wr_comp]
        have hshape' : ∀ w ∈ Jpre ++ cs, ∃ f : Field, w = (f.key, f.withOrig c.key) := by
          intro w hw
          rcases List.mem_append.mp hw with hw1 | hw2
          · exact hsh w hw1
          · exact resolveLookups_shape ent.2 c.key _ cs hcshead w hw2
        have htail := noopFold m hIH ents g k c (Jpre ++ cs) Jrest hlk hnd hDB hres
          (fun e he => hsub e (List.mem_cons_of_mem ent he)) hJrest hshape'
        rw [List.append_assoc] at htail
        rw [List.foldlM_cons, hstep]
        simp only [bind, Except.bind]
        exact htail
      | elementNode =>
        rw [hpar] at hcshead
        have hne : ent.1 ≠ k := by
          intro he
          rw [he, hlk] at hpar
          exact GNode.noConfusion (Option.some.inj hpar)
        have hparG : dlookup (Wr g k Jpre).nodes ent.1 = some GNode.elementNode := by
          rw [Wr_nodes_ne g k Jpre ent.1 hne]
          exact hpar
        have hstep : inhEntryStep (add_inherited_fields m) k c.key (Wr g k Jpre) ent =
            Except.ok (Wr g k (Jpre ++ cs)) := by
          simp only [inhEntryStep, hparG]
          rw [hmnoop]
          rw [inhCopies_sim ent.2 k c.key _ _ cs hcshead, Wr_comp]
        have hshape' : ∀ w ∈ Jpre ++ cs, ∃ f : Field, w = (f.key, f.withOrig c.key) := by
          intro w hw
          rcases List.mem_append.mp hw with hw1 | hw2
          · exact hsh w hw1
          · exact resolveLookups_shape ent.2 c.key _ cs hcshead w hw2
        have htail := noopFold m hIH ents g k c (Jpre ++ cs) Jrest hlk hnd hDB hres
          (fun e he => hsub e (List.mem_cons_of_mem ent he)) hJrest hshape'
        rw [List.append_assoc] at htail
        rw [List.foldlM_cons, hstep]
        simp only [bind, Except.bind]
        exact htail
      | anyNode => rw [hpar] at hcshead; simp at hcshead
      | derivedNode dk df => rw [hpar] at hcshead; simp at hcshead

theorem frozenStep (m : Nat)
    (hβ : ∀ (g : Graph) (P : String) (g₁ : Graph),
      add_inherited_fields m g P = Except.ok g₁ →
      ∀ Z, (∀ Y, Touch g Z Y → ROkAt g Y) → (dkeys g.nodes).Nodup →
      ∀ Y, Touch g Z Y → dlookup g₁.nodes Y = dlookup g.nodes Y)
    (selfKey selfOrig : String) (ent : String × List String) (g₀ ga : Graph) (Z : String)
    (h : inhEntryStep (add_inherited_fields m) selfKey selfOrig g₀ ent = Except.ok ga)
    (hnd : (dkeys g₀.nodes).Nodup)
    (hnotin : ¬ Touch g₀ Z selfKey)
    (hres : ∀ Y, Touch g₀ Z Y → ROkAt g₀ Y) :
    ∀ Y, Touch g₀ Z Y → dlookup ga.nodes Y = dlookup g₀.nodes Y := by
  intro Y hTY
  have hYne : Y ≠ selfKey := fun he => hnotin (he ▸ hTY)
  cases hlk : dlookup g₀.nodes ent.1 with
  | none => simp [inhEntryStep, hlk] at h
  | some nd =>
    cases nd with
    | parsedNode p =>
      simp only [inhEntryStep, hlk, bind, Except.bind] at h
      cases hr : add_inherited_fields m (add_meta_node g₀ ent.1) ent.1 with
      | error s => simp [hr] at h
      | ok g3 =>
        simp only [hr] at h
        cases hlk3 : dlookup g3.nodes ent.1 with
        | none => simp [hlk3] at h
        | some nd3 =>
          cases nd3 with
          | parsedNode p' =>
            simp only [hlk3] at h
            have smeta : StepRel g₀ (add_meta_node g₀ ent.1) := StepRel_add_meta g₀ ent.1
            have hresm : ∀ Y', Touch (add_meta_node g₀ ent.1) Z Y' →
                ROkAt (add_meta_node g₀ ent.1) Y' := by
              intro Y' hTY'
              refine ROkAt_local ?_ ?_ (fun x hx => add_meta_contains_mono g₀ ent.1 x hx)
                (hres Y' (Touch_bwd smeta hTY'))
              · rw [add_meta_nodes]
              · intro cy enty hcy hmy
                rw [add_meta_nodes]
            have hndm : (dkeys (add_meta_node g₀ ent.1).nodes).Nodup := by
              rw [add_meta_nodes]
              exact hnd
            have hmeq := hβ _ ent.1 g3 hr Z hresm hndm Y (Touch_fwd smeta hTY)
            rw [inhCopies_untouched ent.2 selfKey selfOrig _ g3 ga Y h hYne, hmeq,
                add_meta_nodes]
          | anyNode => simp [hlk3] at h
          | elementNode => simp [hlk3] at h
          | derivedNode dk df => simp [hlk3] at h
    | elementNode =>
      simp only [inhEntryStep, hlk] at h
      rw [inhCopies_untouched ent.2 selfKey selfOrig _ _ ga Y h hYne, add_meta_nodes]
    | anyNode => simp [inhEntryStep, hlk] at h
    | derivedNode dk df => simp [inhEntryStep, hlk] at h

theorem frozenFold (m : Nat)
    (hβ : ∀ (g : Graph) (P : String) (g₁ : Graph),
      add_inherited_fields m g P = Except.ok g₁ →
      ∀ Z, (∀ Y, Touch g Z Y → ROkAt g Y) → (dkeys g.nodes).Nodup →
      ∀ Y, Touch g Z Y → dlookup g₁.nodes Y = dlookup g.nodes Y) :
    ∀ (ents : List (String × List String)) (selfKey selfOrig : String) (g₀ g₁ : Graph)
      (Z : String),
    ents.foldlM (inhEntryStep (add_inherited_fields m) selfKey selfOrig) g₀ = Except.ok g₁ →
    (∀ c0, dlookup g₀.nodes selfKey = some (GNode.parsedNode c0) → c0.key = selfOrig) →
    (dkeys g₀.nodes).Nodup →
    ¬ Touch g₀ Z selfKey →
    (∀ Y, Touch g₀ Z Y → ROkAt g₀ Y) →
    ∀ Y, Touch g₀ Z Y → dlookup g₁.nodes Y = dlookup g₀.nodes Y
  | [], _, _, g₀, g₁, Z, h, _, _, _, _ => by
    rw [List.foldlM_nil] at h
    cases h
    intro Y _
    rfl
  | ent :: ents, selfKey, selfOrig, g₀, g₁, Z, h, hko, hnd, hnotin, hres => by
    rw [List.foldlM_cons] at h
    obtain ⟨ga, h1, h2⟩ := except_bind_ok h
    have sa : StepRel g₀ ga :=
      inhEntryStep_rel m (addInh_rel m) selfKey selfOrig ent g₀ ga h1 hko
    have hstepeq := frozenStep m hβ selfKey selfOrig ent g₀ ga Z h1 hnd hnotin hres
    have hkoa := hko_step selfKey selfOrig sa hko
    have hnda : (dkeys ga.nodes).Nodup := by
      rw [inhEntryStep_keys m (addInh_keys m) selfKey selfOrig ent g₀ ga h1]
      exact hnd
    have hnotina : ¬ Touch ga Z selfKey := fun ht => hnotin (Touch_bwd sa ht)
    have hresa : ∀ Y, Touch ga Z Y → ROkAt ga Y := by
      intro Y hTY
      have hTg : Touch g₀ Z Y := Touch_bwd sa hTY
      refine ROkAt_local (hstepeq Y hTg) ?_ (fun x hx => sa.2.2.1 x hx) (hres Y hTg)
      intro cy enty hcy hmy
      cases hpy : dlookup g₀.nodes enty.1 with
      | none => exact sa.2.1 enty.1 hpy
      | some pnd =>
        cases pnd with
        | parsedNode py =>
          rw [hstepeq enty.1 (Touch_snoc hTg ⟨cy, hcy, ⟨enty, hmy, rfl⟩, py, hpy⟩)]
          exact hpy
        | anyNode => exact sa.1 enty.1 GNode.anyNode hpy rfl
        | elementNode => exact sa.1 enty.1 GNode.elementNode hpy rfl
        | derivedNode dk df => exact sa.1 enty.1 (GNode.derivedNode dk df) hpy rfl
    intro Y hTY
    rw [frozenFold m hβ ents selfKey selfOrig ga g₁ Z h2 hkoa hnda hnotina hresa Y
        (Touch_fwd sa hTY), hstepeq Y hTY]

theorem addInh_noop_frozen :
    ∀ (n : Nat),
    (∀ (g : Graph) (k : String) (c : PNode),
      dlookup g.nodes k = some (GNode.parsedNode c) → (dkeys g.nodes).Nodup →
      DepthBound g k n → (∀ Y, Touch g k Y → ROkAt g Y) →
      add_inherited_fields n g k = Except.ok g) ∧
    (∀ (g : Graph) (P : String) (g₁ : Graph),
      add_inherited_fields n g P = Except.ok g₁ →
      ∀ Z, (∀ Y, Touch g Z Y → ROkAt g Y) → (dkeys g.nodes).Nodup →
      ∀ Y, Touch g Z Y → dlookup g₁.nodes Y = dlookup g.nodes Y)
  | 0 => by
    constructor
    · intro g k c hlk hnd hDB hres
      exact absurd (hDB k 0 (PPath.refl k)) (by omega)
    · intro g P g₁ h
      rw [addInh_zero] at h
      exact absurd h (by simp)
  | n + 1 => by
    obtain ⟨hA, hB⟩ := addInh_noop_frozen n
    have hAs : ∀ (g : Graph) (k : String) (c : PNode),
        dlookup g.nodes k = some (GNode.parsedNode c) → (dkeys g.nodes).Nodup →
        DepthBound g k (n + 1) → (∀ Y, Touch g k Y → ROkAt g Y) →
        add_inherited_fields (n + 1) g k = Except.ok g := by
      intro g k c hlk hnd hDB hres
      rw [addInh_succ]
      simp only [hlk]
      obtain ⟨hmeta, J, hJ, hfix⟩ := hres k (Touch_refl g k) c hlk
      have hfold := noopFold n hA (inherited_field_keys c) g k c [] J hlk hnd hDB hres
        (fun e he => he) hJ (fun w hw => absurd hw (List.not_mem_nil w))
      rw [Wr_nil] at hfold
      rw [hfold, List.nil_append]
      rw [Wr_fix g k J c hnd hlk hfix.symm]
    refine ⟨hAs, ?_⟩
    intro g P g₁ h Z hres hnd
    by_cases hTP : Touch g Z P
    · cases hlkP : dlookup g.nodes P with
      | none =>
        rw [addInh_succ, hlkP] at h
        exact absurd h (by simp)
      | some nd =>
        cases nd with
        | parsedNode c =>
          have hDBP : DepthBound g P (n + 1) := fun Y L hp => addInh_depth (n + 1) g P g₁ h Y L hp
          have hresP : ∀ Y, Touch g P Y → ROkAt g Y := fun Y hTY => hres Y (Touch_trans hTP hTY)
          have hnoop := hAs g P c hlkP hnd hDBP hresP
          rw [h] at hnoop
          have hge : g₁ = g := Except.ok.inj hnoop
          intro Y _
          rw [hge]
        | anyNode =>
          rw [addInh_succ, hlkP] at h
          exact absurd h (by simp)
        | elementNode =>
          rw [addInh_succ, hlkP] at h
          exact absurd h (by simp)
        | derivedNode dk df =>
          rw [addInh_succ, hlkP] at h
          exact absurd h (by simp)
    · rw [addInh_succ] at h
      cases hlkP : dlookup g.nodes P with
      | none =>
        rw [hlkP] at h
        exact absurd h (by simp)
      | some nd =>
        cases nd with
        | parsedNode c =>
          simp only [hlkP] at h
          have hko : ∀ c0, dlookup g.nodes P = some (GNode.parsedNode c0) → c0.key = c.key := by
            intro c0 h0
            rw [hlkP] at h0
            rw [(GNode.parsedNode.inj (Option.some.inj h0)).symm]
          exact frozenFold n hB (inherited_field_keys c) P c.key g g₁ Z h hko hnd hTP hres
        | anyNode =>
          rw [hlkP] at h
          exact absurd h (by simp)
        | elementNode =>
          rw [hlkP] at h
          exact absurd h (by simp)
        | derivedNode dk df =>
          rw [hlkP] at h
          exact absurd h (by simp)

theorem Touch_src {g : Graph} {X Y : String} (h : Touch g X Y) :
    X = Y ∨ ∃ c, dlookup g.nodes X = some (GNode.parsedNode c) := by
  obtain ⟨L, hp⟩ := h
  rcases hp with _ | ⟨X1, M, Y2, L2, hPE, hp2⟩
  · exact Or.inl rfl
  · obtain ⟨c, hc, _, _⟩ := hPE
    exact Or.inr ⟨c, hc⟩

theorem notouch_parent {g : Graph} {k : String} {c : PNode} {nn : Nat}
    (hDB : DepthBound g k nn) (hlk : dlookup g.nodes k = some (GNode.parsedNode c)) :
    ∀ ent ∈ inherited_field_keys c, ¬ Touch g ent.1 k := by
  intro ent hm ht
  rcases Touch_src ht with he | ⟨p, hp⟩
  · exact DepthBound_no_cycle hDB ⟨c, hlk, ⟨ent, hm, rfl⟩, c, he.symm ▸ hlk⟩ ht
  · exact DepthBound_no_cycle hDB ⟨c, hlk, ⟨ent, hm, rfl⟩, p, hp⟩ ht

theorem INHWF_step {g g' : Graph} (hs : StepRel g g')
    (hkeys : dkeys g'.nodes = dkeys g.nodes) (hwf : INHWF g) : INHWF g' := by
  refine ⟨by rw [hkeys]; exact hwf.1, ?_⟩
  intro kv hkv c' hc'
  have hl' : dlookup g'.nodes kv.1 = some kv.2 := by
    refine dlookup_of_mem_nodup ?_ kv hkv
    rw [hkeys]
    exact hwf.1
  rw [hc'] at hl'
  obtain ⟨c, hc, _, _, hw⟩ := parsed_back hs hl'
  refine SelfW_nodup hw ?_
  exact hwf.2 (kv.1, GNode.parsedNode c) (dlookup_mem hc) c rfl

theorem add_meta_MetaOk (g : Graph) (k : String) : MetaOk (add_meta_node g k) k := by
  by_cases h1 : k = "Resource"
  · exact Or.inl h1
  · right
    rw [add_meta_node, if_neg h1]
    by_cases h2 : g.metaNodes.contains k = true
    · rw [if_pos h2]
      exact h2
    · rw [if_neg h2]
      show (g.metaNodes ++ [k]).contains k = true
      exact List.elem_iff.mpr (List.mem_append_right _ (List.mem_singleton.mpr rfl))

theorem MetaOk_mono {g g' : Graph} (hs : StepRel g g') {x : String} (h : MetaOk g x) :
    MetaOk g' x :=
  h.elim Or.inl (fun h2 => Or.inr (hs.2.2.1 x h2))

theorem closure_preserve {g g' : Graph} (hs : StepRel g g') (Z : String)
    (hmap : ∀ Y, Touch g Z Y → dlookup g'.nodes Y = dlookup g.nodes Y)
    (hres : ∀ Y, Touch g Z Y → ROkAt g Y) :
    ∀ Y, Touch g' Z Y → ROkAt g' Y := by
  intro Y hTY
  have hTg : Touch g Z Y := Touch_bwd hs hTY
  refine ROkAt_local (hmap Y hTg) ?_ (fun x hx => hs.2.2.1 x hx) (hres Y hTg)
  intro cy enty hcy hmy
  cases hpy : dlookup g.nodes enty.1 with
  | none => exact hs.2.1 enty.1 hpy
  | some pnd =>
    cases pnd with
    | parsedNode py =>
      rw [hmap enty.1 (Touch_snoc hTg ⟨cy, hcy, ⟨enty, hmy, rfl⟩, py, hpy⟩)]
      exact hpy
    | anyNode => exact hs.1 enty.1 GNode.anyNode hpy rfl
    | elementNode => exact hs.1 enty.1 GNode.elementNode hpy rfl
    | derivedNode dk df => exact hs.1 enty.1 (GNode.derivedNode dk df) hpy rfl

theorem resolvesFold (m : Nat)
    (hrecres : ∀ (g : Graph) (P : String) (g₁ : Graph),
      add_inherited_fields m g P = Except.ok g₁ → INHWF g →
      ∀ Y, Touch g₁ P Y → ROkAt g₁ Y) :
    ∀ (ents : List (String × List String)) (k selfOrig : String) (g₀ g₁ : Graph),
    ents.foldlM (inhEntryStep (add_inherited_fields m) k selfOrig) g₀ = Except.ok g₁ →
    INHWF g₀ →
    (∀ c0, dlookup g₀.nodes k = some (GNode.parsedNode c0) → c0.key = selfOrig) →
    (∀ e ∈ ents, ¬ Touch g₀ e.1 k) →
    ∃ J, entsCopiesNow g₁ selfOrig ents = Except.ok J ∧
      (∀ e ∈ ents, MetaOk g₁ e.1) ∧
      (∀ e ∈ ents, ∀ Y, Touch g₁ e.1 Y → ROkAt g₁ Y) ∧
      (∀ c0, dlookup g₀.nodes k = some (GNode.parsedNode c0) →
        ∃ c1, dlookup g₁.nodes k = some (GNode.parsedNode c1) ∧ c1.key = c0.key ∧
          c1.anns = c0.anns ∧ c1.inherited = applyCopies c0.inherited J)
  | [], k, selfOrig, g₀, g₁, h, _, _, _ => by
    rw [List.foldlM_nil] at h
    cases h
    refine ⟨[], rfl, ?_, ?_, ?_⟩
    · intro e he
      exact absurd he (List.not_mem_nil e)
    · intro e he
      exact absurd he (List.not_mem_nil e)
    · intro c0 h0
      exact ⟨c0, h0, rfl, rfl, rfl⟩
  | ent :: ents, k, selfOrig, g₀, g₁, h, hwf, hko, hnt => by
    rw [List.foldlM_cons] at h
    obtain ⟨ga, h1, h2⟩ := except_bind_ok h
    have h1k := inhEntryStep_keys m (addInh_keys m) k selfOrig ent g₀ ga h1
    have s0a : StepRel g₀ ga := inhEntryStep_rel m (addInh_rel m) k selfOrig ent g₀ ga h1 hko
    have hwfa : INHWF ga := INHWF_step s0a h1k hwf
    have hkoa := hko_step k selfOrig s0a hko
    have hnta : ∀ e ∈ ents, ¬ Touch ga e.1 k :=
      fun e he ht => hnt e (List.mem_cons_of_mem ent he) (Touch_bwd s0a ht)
    have hntent : ¬ Touch g₀ ent.1 k := hnt ent (List.mem_cons_self ent ents)
    have hfacts : ∃ cs, entCopiesNow ga selfOrig ent = Except.ok cs ∧ MetaOk ga ent.1 ∧
        (∀ Y, Touch ga ent.1 Y → ROkAt ga Y) ∧
        (∀ c0, dlookup g₀.nodes k = some (GNode.parsedNode c0) →
          ∃ ca, dlookup ga.nodes k = some (GNode.parsedNode ca) ∧ ca.key = c0.key ∧
            ca.anns = c0.anns ∧ ca.inherited = applyCopies c0.inherited cs) := by
      cases hlkp : dlookup g₀.nodes ent.1 with
      | none => simp [inhEntryStep, hlkp] at h1
      | some nd =>
        cases nd with
        | parsedNode p =>
          simp only [inhEntryStep, hlkp, bind, Except.bind] at h1
          cases hr : add_inherited_fields m (add_meta_node g₀ ent.1) ent.1 with
          | error s => simp [hr] at h1
          | ok g3 =>
            simp only [hr] at h1
            cases hlk3 : dlookup g3.nodes ent.1 with
            | none => simp [hlk3] at h1
            | some nd3 =>
              cases nd3 with
              | parsedNode p' =>
                simp only [hlk3] at h1
                have smeta : StepRel g₀ (add_meta_node g₀ ent.1) := StepRel_add_meta g₀ ent.1
                have srec : StepRel (add_meta_node g₀ ent.1) g3 := addInh_rel m _ _ _ hr
                have s03 : StepRel g₀ g3 := StepRel_trans smeta srec
                have hko3 := hko_step k selfOrig s03 hko
                have s3a : StepRel g3 ga := inhCopies_rel ent.2 k selfOrig _ g3 ga h1 hko3
                have hwfm : INHWF (add_meta_node g₀ ent.1) :=
                  ⟨by rw [add_meta_nodes]; exact hwf.1, by rw [add_meta_nodes]; exact hwf.2⟩
                have hres3 : ∀ Y, Touch g3 ent.1 Y → ROkAt g3 Y :=
                  hrecres _ ent.1 g3 hr hwfm
                have hnt3 : ¬ Touch g3 ent.1 k := fun ht => hntent (Touch_bwd s03 ht)
                obtain ⟨cs, hcs⟩ := inhCopies_resolves ent.2 k selfOrig _ g3 ga h1
                have hsim := inhCopies_sim ent.2 k selfOrig _ g3 cs hcs
                rw [h1] at hsim
                have hga : ga = Wr g3 k cs := Except.ok.inj hsim
                have hmapa : ∀ Y, Touch g3 ent.1 Y →
                    dlookup ga.nodes Y = dlookup g3.nodes Y := by
                  intro Y hTY
                  have hYne : Y ≠ k := fun he => hnt3 (he ▸ hTY)
                  exact inhCopies_untouched ent.2 k selfOrig _ g3 ga Y h1 hYne
                have hresa : ∀ Y, Touch ga ent.1 Y → ROkAt ga Y :=
                  closure_preserve s3a ent.1 hmapa hres3
                have hlka : dlookup ga.nodes ent.1 = some (GNode.parsedNode p') := by
                  rw [hmapa ent.1 (Touch_refl g3 ent.1)]
                  exact hlk3
                have hpiece : entCopiesNow ga selfOrig ent = Except.ok cs := by
                  rw [entCopiesNow, hlka]
                  exact hcs
                have hMa : MetaOk ga ent.1 :=
                  MetaOk_mono (StepRel_trans srec s3a) (add_meta_MetaOk g₀ ent.1)
                refine ⟨cs, hpiece, hMa, hresa, ?_⟩
                intro c0 h0
                have h0m : dlookup (add_meta_node g₀ ent.1).nodes k =
                    some (GNode.parsedNode c0) := by
                  rw [add_meta_nodes]
                  exact h0
                have hnt0m : ¬ Touch (add_meta_node g₀ ent.1) ent.1 k :=
                  fun ht => hntent (Touch_bwd smeta ht)
                have h03 : dlookup g3.nodes k = some (GNode.parsedNode c0) := by
                  rw [addInh_untouched m _ ent.1 g3 hr k hnt0m]
                  exact h0m
                refine ⟨{ c0 with inherited := applyCopies c0.inherited cs }, ?_, rfl, rfl, rfl⟩
                rw [hga]
                show dlookup (updatePNode g3.nodes k (fun cc => { cc with inherited := applyCopies cc.inherited cs })) k = _
                rw [dlookup_updatePNode_self, h03]
                rfl
              | anyNode => simp [hlk3] at h1
              | elementNode => simp [hlk3] at h1
              | derivedNode dk df => simp [hlk3] at h1
        | elementNode =>
          simp only [inhEntryStep, hlkp] at h1
          have smeta : StepRel g₀ (add_meta_node g₀ ent.1) := StepRel_add_meta g₀ ent.1
          have hkom := hko_step k selfOrig smeta hko
          have sma : StepRel (add_meta_node g₀ ent.1) ga :=
            inhCopies_rel ent.2 k selfOrig _ _ ga h1 hkom
          obtain ⟨cs, hcs⟩ := inhCopies_resolves ent.2 k selfOrig _ _ ga h1
          have hsim := inhCopies_sim ent.2 k selfOrig _ (add_meta_node g₀ ent.1) cs hcs
          rw [h1] at hsim
          have hga : ga = Wr (add_meta_node g₀ ent.1) k cs := Except.ok.inj hsim
          have hne : ent.1 ≠ k := by
            intro he
            refine hntent ?_
            rw [he]
            exact Touch_refl g₀ k
          have hlka : dlookup ga.nodes ent.1 = some GNode.elementNode := by
            rw [hga]
            show dlookup (updatePNode (add_meta_node g₀ ent.1).nodes k (fun cc => { cc with inherited := applyCopies cc.inherited cs })) ent.1 = _
            rw [dlookup_updatePNode_ne _ k _ ent.1 hne, add_meta_nodes]
            exact hlkp
          have hpiece : entCopiesNow ga selfOrig ent = Except.ok cs := by
            rw [entCopiesNow, hlka]
            exact hcs
          have hMa : MetaOk ga ent.1 := MetaOk_mono sma (add_meta_MetaOk g₀ ent.1)
          have hresa : ∀ Y, Touch ga ent.1 Y → ROkAt ga Y := by
            intro Y hTY
            rcases Touch_src hTY with he | ⟨cE, hcE⟩
            · intro cE hcE
              rw [← he, hlka] at hcE
              exact GNode.noConfusion (Option.some.inj hcE)
            · rw [hlka] at hcE
              exact absurd (Option.some.inj hcE) (fun hh => GNode.noConfusion hh)
          refine ⟨cs, hpiece, hMa, hresa, ?_⟩
          intro c0 h0
          refine ⟨{ c0 with inherited := applyCopies c0.inherited cs }, ?_, rfl, rfl, rfl⟩
          rw [hga]
          show dlookup (updatePNode (add_meta_node g₀ ent.1).nodes k (fun cc => { cc with inherited := applyCopies cc.inherited cs })) k = _
          rw [dlookup_updatePNode_self, add_meta_nodes, h0]
          rfl
        | anyNode => simp [inhEntryStep, hlkp] at h1
        | derivedNode dk df => simp [inhEntryStep, hlkp] at h1
    obtain ⟨cs, hpiece, hMa, hresa, hkevol⟩ := hfacts
    obtain ⟨Jrest, hJrest, hMrest, hresrest, hkrest⟩ :=
      resolvesFold m hrecres ents k selfOrig ga g₁ h2 hwfa hkoa hnta
    have sag1 : StepRel ga g₁ := inhEnts_rel m (addInh_rel m) ents k selfOrig ga g₁ h2 hkoa
    have hnotina : ¬ Touch ga ent.1 k := fun ht => hntent (Touch_bwd s0a ht)
    have hfz := frozenFold m (addInh_noop_frozen m).2 ents k selfOrig ga g₁ ent.1 h2 hkoa
      hwfa.1 hnotina hresa
    refine ⟨cs ++ Jrest, ?_, ?_, ?_, ?_⟩
    · have hp1 : entCopiesNow g₁ selfOrig ent = Except.ok cs := by
        rw [entCopiesNow_congr selfOrig ent (hfz ent.1 (Touch_refl ga ent.1))]
        exact hpiece
      simp only [entsCopiesNow, hp1, hJrest, bind, Except.bind]
    · intro e he
      rcases List.mem_cons.mp he with rfl | he'
      · exact MetaOk_mono sag1 hMa
      · exact hMrest e he'
    · intro e he
      rcases List.mem_cons.mp he with rfl | he'
      · exact closure_preserve sag1 e.1 hfz hresa
      · exact hresrest e he'
    · intro c0 h0
      obtain ⟨ca, hca, hk1, ha1, hi1⟩ := hkevol c0 h0
      obtain ⟨c1, hc1, hk2, ha2, hi2⟩ := hkrest ca hca
      refine ⟨c1, hc1, hk2.trans hk1, ha2.trans ha1, ?_⟩
      rw [hi2, hi1, applyCopies_append]

theorem addInh_resolves :
    ∀ (n : Nat) (g : Graph) (k : String) (g' : Graph),
    add_inherited_fields n g k = Except.ok g' → INHWF g →
    ∀ Y, Touch g' k Y → ROkAt g' Y
  | 0, g, k, g', h, _ => by
    rw [addInh_zero] at h
    exact absurd h (by simp)
  | n + 1, g, k, g', h, hwf => by
    have hDB : DepthBound g k (n + 1) := fun Y L hp => addInh_depth (n + 1) g k g' h Y L hp
    rw [addInh_succ] at h
    cases hlk : dlookup g.nodes k with
    | none =>
      rw [hlk] at h
      exact absurd h (by simp)
    | some nd =>
      cases nd with
      | parsedNode c =>
        simp only [hlk] at h
        have hko : ∀ c0, dlookup g.nodes k = some (GNode.parsedNode c0) → c0.key = c.key := by
          intro c0 h0
          rw [hlk] at h0
          rw [(GNode.parsedNode.inj (Option.some.inj h0)).symm]
        have hnt : ∀ e ∈ inherited_field_keys c, ¬ Touch g e.1 k := notouch_parent hDB hlk
        obtain ⟨J, hJ, hM, hres, hkev⟩ :=
          resolvesFold n (addInh_resolves n) (inherited_field_keys c) k c.key g g' h hwf hko hnt
        obtain ⟨c1, hc1, hk1, ha1, hi1⟩ := hkev c hlk
        intro Y hTY
        obtain ⟨L, hp⟩ := hTY
        rcases hp with _ | ⟨X1, M, Y2, L2, hPE, hp2⟩
        · intro c'' hc''
          have hceq : c'' = c1 := by
            rw [hc1] at hc''
            exact (GNode.parsedNode.inj (Option.some.inj hc'')).symm
          subst hceq
          refine ⟨?_, J, ?_, ?_⟩
          · intro ent hent
            rw [ifk_congr hk1 ha1] at hent
            exact hM ent hent
          · rw [ifk_congr hk1 ha1, hk1]
            exact hJ
          · rw [hi1]
            have hndc : (dkeys c.inherited).Nodup :=
              hwf.2 (k, GNode.parsedNode c) (dlookup_mem hlk) c rfl
            exact (applyCopies_absorb c.inherited J hndc).symm
        · obtain ⟨c'', hc'', hex, p, hpp⟩ := hPE
          obtain ⟨ent, hent, hent1⟩ := hex
          have hceq : c'' = c1 := by
            rw [hc1] at hc''
            exact (GNode.parsedNode.inj (Option.some.inj hc'')).symm
          rw [hceq, ifk_congr hk1 ha1] at hent
          rw [← hent1] at hp2
          exact hres ent hent Y ⟨L2, hp2⟩
      | anyNode =>
        rw [hlk] at h
        exact absurd h (by simp)
      | elementNode =>
        rw [hlk] at h
        exact absurd h (by simp)
      | derivedNode dk df =>
        rw [hlk] at h
        exact absurd h (by simp)

/-- C9: inheritance resolution is idempotent.  For any well-formed graph
(unique node keys and unique inherited-field keys), if
add_inherited_fields completes successfully on an entity — including its
recursive parent-first resolution — then running it again from the
resulting graph succeeds and returns that graph unchanged, so every
entity's resolved field set is the same as after the first run. -/
theorem c9_inheritance_idempotent (n : Nat) (g g' : Graph) (k : String)
    (hwf : INHWF g) (h : add_inherited_fields n g k = Except.ok g') :
    add_inherited_fields n g' k = Except.ok g' := by
  cases n with
  | zero =>
    rw [addInh_zero] at h
    exact absurd h (by simp)
  | succ n =>
    have s : StepRel g g' := addInh_rel (n + 1) g k g' h
    have hDB : DepthBound g k (n + 1) := fun Y L hp => addInh_depth (n + 1) g k g' h Y L hp
    have hwf' : INHWF g' := INHWF_run h hwf
    have hres' : ∀ Y, Touch g' k Y → ROkAt g' Y := addInh_resolves (n + 1) g k g' h hwf
    rw [addInh_succ] at h
    cases hlk : dlookup g.nodes k with
    | none =>
      rw [hlk] at h
      exact absurd h (by simp)
    | some nd =>
      cases nd with
      | parsedNode c =>
        obtain ⟨c', hc', _, _, _, _⟩ := s.2.2.2 k c hlk
        exact (addInh_noop_frozen (n + 1)).1 g' k c' hc' hwf'.1
          (DepthBound_transfer s hDB) hres'
      | anyNode =>
        rw [hlk] at h
        exact absurd h (by simp)
      | elementNode =>
        rw [hlk] at h
        exact absurd h (by simp)
      | derivedNode dk df =>
        rw [hlk] at h
        exact absurd h (by simp)

/-- Witness for c9_inheritance_idempotent: resolving the already-resolved
graph gC8r at P.c returns gC8r itself. -/
theorem c9_inheritance_idempotent_witness :
    add_inherited_fields 4 gC8r "P.c" = Except.ok gC8r := by
  refine c9_inheritance_idempotent 4 gC8 gC8r "P.c" ⟨by decide, ?_⟩ (by rfl)
  intro kv hkv c hc
  rcases List.mem_cons.mp hkv with rfl | hkv
  · cases hc
    decide
  · rcases List.mem_cons.mp hkv with rfl | hkv
    · cases hc
      decide
    · rcases List.mem_cons.mp hkv with rfl | hkv
      · cases hc
        decide
      · exact absurd hkv (List.not_mem_nil kv)

/-- Witness for c8_implicit_extension_fields: on gC8 the subnode P.c ends up
with extension and modifierExtension copies owned by itself. -/
theorem c8_implicit_extension_fields_witness :
    ∃ c', dlookup gC8r.nodes "P.c" = some (GNode.parsedNode c') ∧
      c'.key = (bareP "P.c").key ∧
      HasCopy (bareP "P.c").key (strToLower "extension") c'.inherited ∧
      HasCopy (bareP "P.c").key (strToLower "modifierExtension") c'.inherited :=
  c8_implicit_extension_fields 3 gC8 gC8r "P.c" (bareP "P.c") (by rfl) (by decide) (by rfl)

end FhirGraph
